import Mathlib

/-!
# cssparser: a shallow embedding of `parsecss.go`

The scanner of `tetsuo/cssparser` reads `property: value;` declarations out of a
byte buffer with a cursor (`pos`, `lineno`, `col`).  This file embeds the Go
code as Lean functions and proves properties of it.

Modelling conventions

* A byte is a `Nat` (byte values are the numbers below 256); a `[]byte` is a
  `List Nat`.  A `nil` slice and an empty slice are both `[]`.
* Go `int` fields (`pos`, `length`, `lineno`, `col`) are `Nat`: they only ever
  count bytes of the input, so they stay far below `2^63`.
* The Go run time faults on an index or a slice expression out of range.  The
  embedding keeps these checks: `index` and `slice` return an error there, and
  every function that reads the buffer lives in `Except Fault`.
* A Go `for` loop is `loop body fuel`: `body` is one iteration, which either
  leaves the loop (`Iter.done`) or goes round again (`Iter.next`), and `fuel`
  bounds the number of iterations.  Running out of fuel is the distinguished
  result `Fault.fuelExhausted`, so "the loop terminates" is the statement that
  this result does not occur.
-/

namespace cssparser

/-! ## Run-time faults and loops -/

/-- The ways a run of the embedded program can fail to return. -/
inductive Fault where
  | indexOutOfRange
  | sliceBoundsOutOfRange
  | fuelExhausted
  deriving DecidableEq, Repr

/-- Result of one loop iteration: leave the loop, or go round again. -/
inductive Iter (σ : Type) where
  | done (s : σ)
  | next (s : σ)
  deriving DecidableEq, Repr

/-- A Go `for` loop with body `body`, run for at most `fuel` iterations. -/
def loop {σ : Type} (body : σ → Except Fault (Iter σ)) : Nat → σ → Except Fault σ
  | 0, _ => .error .fuelExhausted
  | fuel + 1, s =>
    match body s with
    | .error e => .error e
    | .ok (.done s') => .ok s'
    | .ok (.next s') => loop body fuel s'

/-- Go indexing `s[i]`: faults when `i` is not below `len(s)`. -/
def index (s : List Nat) (i : Nat) : Except Fault Nat :=
  match s.get? i with
  | some b => .ok b
  | none => .error .indexOutOfRange

/-- Go slicing `s[lo:hi]`: faults unless `lo ≤ hi ≤ len(s)`. -/
def slice (s : List Nat) (lo hi : Nat) : Except Fault (List Nat) :=
  if lo ≤ hi ∧ hi ≤ s.length then .ok ((s.take hi).drop lo)
  else .error .sliceBoundsOutOfRange

/-! ## `bytes.TrimSpace` (Go standard library)

`parseDeclaration` trims its two spans with `bytes.TrimSpace`, which is not part
of the repository.  It is modelled here after the library: an ASCII fast path
over the table `asciiSpace`, and a fall-back to `TrimFunc(s, unicode.IsSpace)`
as soon as a byte `≥ 0x80` is met at either end. -/

/-- The constant `utf8.RuneError`. -/
def RuneError : Nat := 0xFFFD

/-- The constant `utf8.RuneSelf`. -/
def RuneSelf : Nat := 0x80

/-- The table `asciiSpace` of package `bytes`: tab, LF, VT, FF, CR and space. -/
def asciiSpace (c : Nat) : Bool :=
  c = 9 || c = 10 || c = 11 || c = 12 || c = 13 || c = 32

/-- The table `utf8.first`: what the first byte of a sequence announces. -/
def first (b : Nat) : Nat :=
  if b < 0x80 then 0xF0
  else if b < 0xC2 then 0xF1
  else if b < 0xE0 then 0x02
  else if b = 0xE0 then 0x13
  else if b < 0xED then 0x03
  else if b = 0xED then 0x23
  else if b < 0xF0 then 0x03
  else if b = 0xF0 then 0x34
  else if b < 0xF4 then 0x04
  else if b = 0xF4 then 0x44
  else 0xF1

/-- The table `utf8.acceptRanges`: allowed range of the second byte. -/
def acceptRanges (i : Nat) : Nat × Nat :=
  match i with
  | 0 => (0x80, 0xBF)
  | 1 => (0xA0, 0xBF)
  | 2 => (0x80, 0x9F)
  | 3 => (0x90, 0xBF)
  | 4 => (0x80, 0x8F)
  | _ => (0, 0)

/-- The function `utf8.DecodeRune`: the first rune of `p` and its width. -/
def DecodeRune (p : List Nat) : Nat × Nat :=
  match p with
  | [] => (RuneError, 0)
  | p0 :: _ =>
    let x := first p0
    if x ≥ 0xF0 then
      (if x % 2 = 0 then p0 else RuneError, 1)
    else
      let sz := x &&& 7
      let accept := acceptRanges (x >>> 4)
      if p.length < sz then (RuneError, 1)
      else
        let b1 := p.getD 1 0
        if b1 < accept.1 ∨ accept.2 < b1 then (RuneError, 1)
        else if sz ≤ 2 then (((p0 &&& 0x1F) <<< 6) ||| (b1 &&& 0x3F), 2)
        else
          let b2 := p.getD 2 0
          if b2 < 0x80 ∨ 0xBF < b2 then (RuneError, 1)
          else if sz ≤ 3 then
            (((p0 &&& 0x0F) <<< 12) ||| ((b1 &&& 0x3F) <<< 6) ||| (b2 &&& 0x3F), 3)
          else
            let b3 := p.getD 3 0
            if b3 < 0x80 ∨ 0xBF < b3 then (RuneError, 1)
            else
              (((p0 &&& 0x07) <<< 18) ||| ((b1 &&& 0x3F) <<< 12) |||
                ((b2 &&& 0x3F) <<< 6) ||| (b3 &&& 0x3F), 4)

/-- The function `utf8.RuneStart`: the byte is not a continuation byte. -/
def RuneStart (b : Nat) : Bool := b &&& 0xC0 != 0x80

/-- The backward search of `utf8.DecodeLastRune` for the start of the last
rune: `for start--; start >= lim; start-- { if RuneStart(p[start]) { break } }`,
entered with `start` already decremented.  It runs at most `UTFMax` times. -/
def lastRuneStart (p : List Nat) (lim : Int) : Nat → Int → Int
  | 0, start => start
  | fuel + 1, start =>
    if start ≥ lim then
      if RuneStart (p.getD start.toNat 0) then start
      else lastRuneStart p lim fuel (start - 1)
    else start

/-- The function `utf8.DecodeLastRune`: the last rune of `p` and its width. -/
def DecodeLastRune (p : List Nat) : Nat × Nat :=
  let n := p.length
  if n = 0 then (RuneError, 0)
  else
    let r := p.getD (n - 1) 0
    if r < RuneSelf then (r, 1)
    else
      let lim : Int := if (n : Int) - 4 < 0 then 0 else (n : Int) - 4
      let start := lastRuneStart p lim 4 ((n : Int) - 1 - 1)
      let start := if start < 0 then 0 else start
      let rs := DecodeRune ((p.take n).drop start.toNat)
      if start.toNat + rs.2 ≠ n then (RuneError, 1) else rs

/-- The function `unicode.IsSpace`. -/
def IsSpace (r : Nat) : Bool :=
  if r ≤ 0xFF then
    r = 9 || r = 10 || r = 11 || r = 12 || r = 13 || r = 32 || r = 0x85 || r = 0xA0
  else
    r = 0x1680 || (0x2000 ≤ r && r ≤ 0x200a) || r = 0x2028 || r = 0x2029 ||
      r = 0x202f || r = 0x205f || r = 0x3000

/-- The loop of `bytes.indexFunc(s, f, truth)`, from offset `start`; `none`
stands for the result `-1`. -/
def indexFuncFrom (s : List Nat) (f : Nat → Bool) (truth : Bool) : Nat → Nat → Option Nat
  | 0, _ => none
  | fuel + 1, start =>
    if start < s.length then
      let b := s.getD start 0
      let rw := if b ≥ RuneSelf then DecodeRune (s.drop start) else (b, 1)
      if f rw.1 = truth then some start
      else indexFuncFrom s f truth fuel (start + rw.2)
    else none

/-- The function `bytes.indexFunc`. -/
def indexFunc (s : List Nat) (f : Nat → Bool) (truth : Bool) : Option Nat :=
  indexFuncFrom s f truth (s.length + 1) 0

/-- The loop of `bytes.lastIndexFunc(s, f, truth)`, from `i`; `none` stands for
the result `-1`. -/
def lastIndexFuncFrom (s : List Nat) (f : Nat → Bool) (truth : Bool) : Nat → Nat → Option Nat
  | 0, _ => none
  | fuel + 1, i =>
    if i > 0 then
      let b := s.getD (i - 1) 0
      let rw := if b ≥ RuneSelf then DecodeLastRune (s.take i) else (b, 1)
      let i := i - rw.2
      if f rw.1 = truth then some i
      else lastIndexFuncFrom s f truth fuel i
    else none

/-- The function `bytes.lastIndexFunc`. -/
def lastIndexFunc (s : List Nat) (f : Nat → Bool) (truth : Bool) : Option Nat :=
  lastIndexFuncFrom s f truth (s.length + 1) s.length

/-- The function `bytes.TrimLeftFunc`. -/
def TrimLeftFunc (s : List Nat) (f : Nat → Bool) : List Nat :=
  match indexFunc s f false with
  | none => []
  | some i => s.drop i

/-- The function `bytes.TrimRightFunc`. -/
def TrimRightFunc (s : List Nat) (f : Nat → Bool) : List Nat :=
  match lastIndexFunc s f false with
  | none => []
  | some i =>
    if s.getD i 0 ≥ RuneSelf then s.take (i + (DecodeRune (s.drop i)).2)
    else s.take (i + 1)

/-- The function `bytes.TrimFunc`. -/
def TrimFunc (s : List Nat) (f : Nat → Bool) : List Nat :=
  TrimRightFunc (TrimLeftFunc s f) f

/-- First loop of `bytes.TrimSpace`: scan forward from `start` over ASCII
space; a byte `≥ 0x80` hands over to `TrimFunc` (`Sum.inl`), otherwise the
offset of the first non-space byte is returned (`Sum.inr`). -/
def trimSpaceStart (s : List Nat) : Nat → Nat → Sum (List Nat) Nat
  | 0, start => .inr start
  | fuel + 1, start =>
    if start < s.length then
      let c := s.getD start 0
      if c ≥ RuneSelf then .inl (TrimFunc (s.drop start) IsSpace)
      else if asciiSpace c = false then .inr start
      else trimSpaceStart s fuel (start + 1)
    else .inr start

/-- Second loop of `bytes.TrimSpace`: scan backward from `stop` down to
`start`. -/
def trimSpaceStop (s : List Nat) (start : Nat) : Nat → Nat → Sum (List Nat) Nat
  | 0, stop => .inr stop
  | fuel + 1, stop =>
    if stop > start then
      let c := s.getD (stop - 1) 0
      if c ≥ RuneSelf then .inl (TrimFunc ((s.take stop).drop start) IsSpace)
      else if asciiSpace c = false then .inr stop
      else trimSpaceStop s start fuel (stop - 1)
    else .inr stop

/-- The function `bytes.TrimSpace`. -/
def TrimSpace (s : List Nat) : List Nat :=
  match trimSpaceStart s (s.length + 1) 0 with
  | .inl r => r
  | .inr start =>
    match trimSpaceStop s start (s.length + 1) s.length with
    | .inl r => r
    | .inr stop => if start = stop then [] else (s.take stop).drop start

/-! ## The data model (`parsecss.go`, lines 7-42) -/

/-- Position holds a line/column cursor. -/
structure Position where
  Line : Nat
  Column : Nat
  deriving DecidableEq, Repr

/-- PositionRange marks start and end of a node. -/
structure PositionRange where
  Start : Position
  End : Position
  deriving DecidableEq, Repr

/-- Node represents one `property: value;`. -/
structure Node where
  Property : List Nat
  Value : List Nat
  Position : PositionRange
  deriving DecidableEq, Repr

/-- Parser holds the input and a cursor. -/
structure Parser where
  input : List Nat
  length : Nat
  pos : Nat
  lineno : Nat
  col : Nat
  deriving DecidableEq, Repr

/-- NewParser constructs a fresh parser. -/
def NewParser (input : List Nat) : Parser :=
  { input := input, length := input.length, pos := 0, lineno := 1, col := 1 }

/-! ## The primitives (lines 44-79, 189-192) -/

/-- The method `peek` returns the next byte or 0. -/
def Parser.peek (p : Parser) : Except Fault Nat :=
  if p.pos < p.length then index p.input p.pos
  else pure 0

/-- The method `consume` returns the next byte and advances the cursor, updating
line/column on a line feed. -/
def Parser.consume (p : Parser) : Except Fault (Nat × Parser) :=
  if p.pos ≥ p.length then pure (0, p)
  else do
    let ch ← index p.input p.pos
    let p := { p with pos := p.pos + 1 }
    if ch = 10 then pure (ch, { p with lineno := p.lineno + 1, col := 1 })
    else pure (ch, { p with col := p.col + 1 })

/-- The function `isWS` reports whether b is ASCII whitespace. -/
def isWS (b : Nat) : Bool :=
  b = 32 || b = 9 || b = 10 || b = 13

/-- One iteration of the loop of `skipWhitespace` (lines 71-78). -/
def skipWhitespaceBody (p : Parser) : Except Fault (Iter Parser) := do
  let ch ← p.peek
  if ch = 32 ∨ ch = 9 ∨ ch = 13 ∨ ch = 10 then
    let (_, p) ← p.consume
    pure (.next p)
  else pure (.done p)

/-- The method `skipWhitespace` moves past spaces, tabs, CRs and LFs. -/
def Parser.skipWhitespace (fuel : Nat) (p : Parser) : Except Fault Parser :=
  loop skipWhitespaceBody fuel p

/-! ## The declaration reader (lines 81-167) -/

/-- One iteration of `for p.peek() != close && p.peek() != 0 { p.consume() }`,
the loop that skips to the closing `]` (lines 100-102, `close = 93`) or the
closing `)` (lines 145-147, `close = 41`). -/
def skipToBody (close : Nat) (p : Parser) : Except Fault (Iter Parser) := do
  let c ← p.peek
  if c ≠ close then
    let c ← p.peek
    if c ≠ 0 then
      let (_, p) ← p.consume
      pure (.next p)
    else pure (.done p)
  else pure (.done p)

/-- One iteration of the loop over the inside of a quoted string
(lines 129-136). -/
def quoteBody (quote : Nat) (p : Parser) : Except Fault (Iter Parser) := do
  let c ← p.peek
  if c ≠ quote then
    let c ← p.peek
    if c ≠ 0 then
      let c ← p.peek
      if c = 92 then
        let (_, p) ← p.consume
        let (_, p) ← p.consume
        pure (.next p)
      else
        let (_, p) ← p.consume
        pure (.next p)
    else pure (.done p)
  else pure (.done p)

/-- The statement `if p.peek() == c { p.consume() }`. -/
def consumeIf (c : Nat) (p : Parser) : Except Fault Parser := do
  let ch ← p.peek
  if ch = c then
    let (_, p) ← p.consume
    pure p
  else pure p

/-- One iteration of the property loop (lines 92-109). -/
def propBody (fuel : Nat) (p : Parser) : Except Fault (Iter Parser) := do
  let ch ← p.peek
  if ch = 0 ∨ isWS ch = true ∨ ch = 58 then pure (.done p)
  else if ch = 91 then
    let (_, p) ← p.consume
    let p ← loop (skipToBody 93) fuel p
    let p ← consumeIf 93 p
    pure (.next p)
  else
    let (_, p) ← p.consume
    pure (.next p)

/-- One iteration of the value loop (lines 120-154). -/
def valueBody (fuel : Nat) (p : Parser) : Except Fault (Iter Parser) := do
  let ch ← p.peek
  if ch = 0 ∨ ch = 59 ∨ ch = 125 then pure (.done p)
  else if ch = 34 ∨ ch = 39 then
    let quote := ch
    let (_, p) ← p.consume
    let p ← loop (quoteBody quote) fuel p
    let p ← consumeIf quote p
    pure (.next p)
  else if ch = 40 then
    let (_, p) ← p.consume
    let p ← loop (skipToBody 41) fuel p
    let p ← consumeIf 41 p
    pure (.next p)
  else
    let (_, p) ← p.consume
    pure (.next p)

/-- The method `parseDeclaration` attempts to read a `property:value[;]`.
Returns `none` (Go `nil`) if it does not see a valid prop or colon. -/
def Parser.parseDeclaration (fuel : Nat) (p : Parser) :
    Except Fault (Option Node × Parser) := do
  let start : Position := ⟨p.lineno, p.col⟩
  let p ← p.skipWhitespace fuel
  let p ← consumeIf 42 p
  let propStart := p.pos
  let p ← loop (propBody fuel) fuel p
  let c ← p.peek
  if c ≠ 58 then pure (none, p)
  else
    let rawProp ← slice p.input propStart p.pos
    let prop := TrimSpace rawProp
    let (_, p) ← p.consume
    let p ← p.skipWhitespace fuel
    let valStart := p.pos
    let p ← loop (valueBody fuel) fuel p
    let raw ← slice p.input valStart p.pos
    let rawVal := TrimSpace raw
    let p ← p.skipWhitespace fuel
    let p ← consumeIf 59 p
    let stop : Position := ⟨p.lineno, p.col⟩
    pure (some { Property := prop, Value := rawVal,
                 Position := { Start := start, End := stop } }, p)

/-! ## The driver (lines 169-187) -/

/-- One iteration of the loop of `Parse` (lines 174-185) on the parser and the
nodes collected so far. -/
def parseBody (fuel : Nat) (s : Parser × List Node) :
    Except Fault (Iter (Parser × List Node)) := do
  if s.1.pos < s.1.length then
    let p ← s.1.skipWhitespace fuel
    if p.pos ≥ p.length then pure (.done (p, s.2))
    else
      let (d, p) ← p.parseDeclaration fuel
      match d with
      | some d => pure (.next (p, s.2 ++ [d]))
      | none =>
        let (_, p) ← p.consume
        pure (.next (p, s.2))
  else pure (.done s)

/-- The function `Parse` with every loop bounded by `fuel` iterations.  The
second component is the returned `error`, `none` for `nil`. -/
def ParseFuel (fuel : Nat) (style : List Nat) :
    Except Fault (List Node × Option String) := do
  let p := NewParser style
  let (_, out) ← loop (parseBody fuel) fuel (p, [])
  pure (out, none)

/-- The function `Parse` walks the entire stylesheet and returns a list of
declarations.  No loop needs more than `len(style) + 1` iterations. -/
def Parse (style : List Nat) : Except Fault (List Node × Option String) :=
  ParseFuel (style.length + 1) style

/-! ## Vocabulary of the statements -/

/-- The bytes of an ASCII string literal. -/
def bytes (s : String) : List Nat := s.toList.map Char.toNat

/-- Lexicographic order on (Line, Column). -/
def posLe (a b : Position) : Prop :=
  a.Line < b.Line ∨ (a.Line = b.Line ∧ a.Column ≤ b.Column)

instance (a b : Position) : Decidable (posLe a b) := by
  unfold posLe; infer_instance

/-- The (line, column) of offset `k` of `input`: one plus the number of line
feeds in `input[0:k]`, and one plus the number of bytes of `input[0:k]` after
its last line feed (all of them when it has none). -/
def posOf (input : List Nat) (k : Nat) : Position :=
  { Line := 1 + (input.take k).count 10,
    Column := 1 + ((input.take k).reverse.takeWhile (fun b => b != 10)).length }

/-- The parser state of a scan of `input` whose cursor stands at offset `k`:
the line and column are those of offset `k`. -/
def cursor (input : List Nat) (k : Nat) : Parser :=
  { input := input, length := input.length, pos := k,
    lineno := (posOf input k).Line, col := (posOf input k).Column }

/-- The computation `r`, started at offset `k` of `input`, returns the cursor
of the same input at an offset between `k` and the length. -/
def Lands (input : List Nat) (k : Nat) (r : Except Fault Parser) : Prop :=
  ∃ k', k ≤ k' ∧ k' ≤ input.length ∧ r = .ok (cursor input k')

/-- The loop iteration `r`, started at offset `k` of `input`, returns a cursor
of the same input at an offset between `k` and the length, strictly beyond `k`
when it goes round again. -/
def IterLands (input : List Nat) (k : Nat) (r : Except Fault (Iter Parser)) : Prop :=
  ∃ k', k ≤ k' ∧ k' ≤ input.length ∧
    (r = .ok (.done (cursor input k')) ∨ (k < k' ∧ r = .ok (.next (cursor input k'))))

/-- The spans of the nodes are ordered: every node starts no later than it
ends, and every node ends no later than the next one starts, in the
lexicographic order on (Line, Column). -/
def SpansOrdered (nodes : List Node) : Prop :=
  (∀ n ∈ nodes, posLe n.Position.Start n.Position.End) ∧
  (∀ (i : Nat) (a b : Node), nodes[i]? = some a → nodes[i + 1]? = some b →
    posLe a.Position.End b.Position.Start)

/-! ## Shapes of input that the loops pass over -/

/-- Bytes the property loop passes over in whole iterations: a plain byte
(not NUL, not whitespace, not `:`, not `[`), or a bracket group `[ ... ]`
whose inside has no `]` and no NUL. -/
inductive PropRun : List Nat → Prop
  | nil : PropRun []
  | plain (b : Nat) (bs : List Nat) :
      b ≠ 0 → isWS b = false → b ≠ 58 → b ≠ 91 → PropRun bs → PropRun (b :: bs)
  | bracket (body bs : List Nat) :
      (∀ x ∈ body, x ≠ 93 ∧ x ≠ 0) → PropRun bs → PropRun (91 :: (body ++ 93 :: bs))

/-- Bytes the loop inside a quoted string passes over in whole iterations: a
byte other than the quote, the backslash and NUL, or a backslash and the byte
after it. -/
inductive QuoteRun (q : Nat) : List Nat → Prop
  | nil : QuoteRun q []
  | plain (b : Nat) (bs : List Nat) :
      b ≠ q → b ≠ 92 → b ≠ 0 → QuoteRun q bs → QuoteRun q (b :: bs)
  | escape (x : Nat) (bs : List Nat) : QuoteRun q bs → QuoteRun q (92 :: x :: bs)

/-- Bytes the value loop passes over in whole iterations: a plain byte (not
NUL, `;`, `}`, a quote or `(`), a closed quoted string, or a closed
parenthesised group whose inside has no `)` and no NUL. -/
inductive ValRun : List Nat → Prop
  | nil : ValRun []
  | plain (b : Nat) (bs : List Nat) :
      b ≠ 0 → b ≠ 59 → b ≠ 125 → b ≠ 34 → b ≠ 39 → b ≠ 40 → ValRun bs → ValRun (b :: bs)
  | quoted (q : Nat) (body bs : List Nat) :
      (q = 34 ∨ q = 39) → QuoteRun q body → ValRun bs → ValRun (q :: (body ++ q :: bs))
  | paren (t bs : List Nat) :
      (∀ x ∈ t, x ≠ 41 ∧ x ≠ 0) → ValRun bs → ValRun (40 :: (t ++ 41 :: bs))

/-! ## Layout of an input made of declarations and tokens -/

/-- A piece of input as the driver meets it after skipping whitespace: a
declaration `s P ":" w1 V t` (optional `*`, property, colon, whitespace, value,
optional `;`), or a token `s g` without a colon. -/
inductive Piece where
  | decl (s P w1 V t : List Nat)
  | junk (s g : List Nat)

/-- The bytes of a piece. -/
def Piece.text : Piece → List Nat
  | .decl s P w1 V t => s ++ (P ++ 58 :: (w1 ++ (V ++ t)))
  | .junk s g => s ++ g

/-- The nodes expected from a piece that starts at offset `off` of `input`. -/
def Piece.nodes (input : List Nat) (off : Nat) : Piece → List Node
  | .decl s P w1 V t =>
    [{ Property := TrimSpace P, Value := TrimSpace V,
       Position := { Start := posOf input off,
                     End := posOf input (off + (Piece.decl s P w1 V t).text.length) } }]
  | .junk _ _ => []

/-- The bytes of a sequence of pieces, each followed by a run of whitespace. -/
def render : List (Piece × List Nat) → List Nat
  | [] => []
  | (pc, ws) :: rest => pc.text ++ (ws ++ render rest)

/-- The nodes expected from a sequence of pieces that starts at offset `off`. -/
def expectedNodes (input : List Nat) : Nat → List (Piece × List Nat) → List Node
  | _, [] => []
  | off, (pc, ws) :: rest =>
    pc.nodes input off ++ expectedNodes input (off + pc.text.length + ws.length) rest

/-- What the reader needs of a piece followed by the bytes `next`. -/
def PieceOk (next : List Nat) : Piece → Prop
  | .decl s P w1 V t =>
    (s = [42] ∨ (s = [] ∧ (P ++ [58]).headD 0 ≠ 42)) ∧
    isWS ((s ++ (P ++ [58])).headD 0) = false ∧
    PropRun P ∧ (∀ b ∈ w1, isWS b = true) ∧ ValRun V ∧
    isWS ((V ++ (t ++ next)).headD 0) = false ∧
    (t = [59] ∨ (t = [] ∧ (next.headD 0 = 0 ∨ next.headD 0 = 125)))
  | .junk s g =>
    (s = [42] ∨ (s = [] ∧ (g ++ next).headD 0 ≠ 42)) ∧
    isWS ((s ++ (g ++ next)).headD 0) = false ∧
    s ++ g ≠ [] ∧ PropRun g ∧ (next = [] ∨ isWS (next.headD 0) = true)

/-- A sequence of pieces the driver reads piece by piece. -/
def ItemsOk : List (Piece × List Nat) → Prop
  | [] => True
  | (pc, ws) :: rest =>
    (∀ b ∈ ws, isWS b = true) ∧ PieceOk (ws ++ render rest) pc ∧ ItemsOk rest

/-! ## Well-formed properties, values and segments -/

/-- A run of space, tab, carriage-return and line-feed bytes. -/
def IsWSRun (w : List Nat) : Prop := ∀ b ∈ w, isWS b = true

instance (w : List Nat) : Decidable (IsWSRun w) := by
  unfold IsWSRun; infer_instance

/-- A well-formed property: a non-empty string of printable ASCII bytes
(0x21-0x7E) with no `:` and no `[`, not starting with `*`. -/
def WellFormedProp (p : List Nat) : Prop :=
  p ≠ [] ∧ (∀ b ∈ p, 0x21 ≤ b ∧ b ≤ 0x7E ∧ b ≠ 58 ∧ b ≠ 91) ∧ p.head? ≠ some 42

instance (p : List Nat) : Decidable (WellFormedProp p) := by
  unfold WellFormedProp; infer_instance

/-- A well-formed value: a non-empty string of bytes 0x20-0x7E with none of
`;`, `}`, `"`, `'`, `(`, neither starting nor ending with a space. -/
def WellFormedVal (v : List Nat) : Prop :=
  v ≠ [] ∧
  (∀ b ∈ v, 0x20 ≤ b ∧ b ≤ 0x7E ∧ b ≠ 59 ∧ b ≠ 125 ∧ b ≠ 34 ∧ b ≠ 39 ∧ b ≠ 40) ∧
  v.head? ≠ some 32 ∧ v.getLast? ≠ some 32

instance (v : List Nat) : Decidable (WellFormedVal v) := by
  unfold WellFormedVal; infer_instance

/-- The segment `p ++ ": " ++ v ++ ";"`. -/
def segment (p v : List Nat) : List Nat := p ++ [58, 32] ++ v ++ [59]

/-- The text of segments `(p, v, w)`: each segment `p ++ ": " ++ v ++ ";"`
followed by its run `w`. -/
def segments : List (List Nat × List Nat × List Nat) → List Nat
  | [] => []
  | (p, v, w) :: rest => segment p v ++ w ++ segments rest

/-- The (Property, Value) pairs of a list of nodes. -/
def pairs (nodes : List Node) : List (List Nat × List Nat) :=
  nodes.map (fun n => (n.Property, n.Value))

/-- A well-formed value that may also hold line feeds in its interior: bytes
0x20-0x7E or LF, none of `;`, `}`, `"`, `'`, `(`, and neither the first nor the
last byte is a space or a line feed. -/
def WellFormedValLF (v : List Nat) : Prop :=
  v ≠ [] ∧
  (∀ b ∈ v, ((0x20 ≤ b ∧ b ≤ 0x7E) ∨ b = 10) ∧
    b ≠ 59 ∧ b ≠ 125 ∧ b ≠ 34 ∧ b ≠ 39 ∧ b ≠ 40) ∧
  v.head? ≠ some 32 ∧ v.head? ≠ some 10 ∧ v.getLast? ≠ some 32 ∧ v.getLast? ≠ some 10

instance (v : List Nat) : Decidable (WellFormedValLF v) := by
  unfold WellFormedValLF; infer_instance

/-- The spans expected of segments `(p, v, w)` laid out from offset `off`: each
from the position of the first byte of the segment to the position just after
its `;`. -/
def expectedSpans (input : List Nat) :
    Nat → List (List Nat × List Nat × List Nat) → List PositionRange
  | _, [] => []
  | off, (p, v, w) :: rest =>
    { Start := posOf input off, End := posOf input (off + (segment p v).length) } ::
      expectedSpans input (off + (segment p v).length + w.length) rest

/-- The pieces of a list of segments. -/
def segmentItems (segs : List (List Nat × List Nat × List Nat)) :
    List (Piece × List Nat) :=
  segs.map (fun s => (Piece.decl [] s.1 [32] s.2.1 [59], s.2.2))

/-- The inside of a quoted string with quote `q`: a sequence of units, each one
byte other than `q`, the backslash and NUL, or a backslash followed by one
non-NUL byte. -/
inductive QuotedBody (q : Nat) : List Nat → Prop
  | nil : QuotedBody q []
  | byte (b : Nat) (bs : List Nat) :
      b ≠ q → b ≠ 92 → b ≠ 0 → QuotedBody q bs → QuotedBody q (b :: bs)
  | escaped (x : Nat) (bs : List Nat) :
      x ≠ 0 → QuotedBody q bs → QuotedBody q (92 :: x :: bs)

/-- A value that is a concatenation of items: a plain byte in 0x20-0x7E other
than `;`, `}`, `"`, `'`, `(`; a quoted string `q ++ body ++ q` with `q` one of
`"` and `'`; a parenthesised group `"(" ++ t ++ ")"` with `t` free of `)` and
NUL. -/
inductive ValueItems : List Nat → Prop
  | nil : ValueItems []
  | plain (b : Nat) (bs : List Nat) :
      0x20 ≤ b → b ≤ 0x7E → b ≠ 59 → b ≠ 125 → b ≠ 34 → b ≠ 39 → b ≠ 40 →
      ValueItems bs → ValueItems (b :: bs)
  | quoted (q : Nat) (body bs : List Nat) :
      (q = 34 ∨ q = 39) → QuotedBody q body → ValueItems bs →
      ValueItems (q :: (body ++ q :: bs))
  | paren (t bs : List Nat) :
      (∀ x ∈ t, x ≠ 41 ∧ x ≠ 0) → ValueItems bs → ValueItems (40 :: (t ++ 41 :: bs))

/-- An item of an input with garbage: a well-formed segment or a garbage
token. -/
inductive Item where
  | seg (p v : List Nat)
  | garbage (g : List Nat)

/-- The bytes of an item. -/
def Item.text : Item → List Nat
  | .seg p v => segment p v
  | .garbage g => g

/-- The item is a well-formed segment, or a garbage token: a non-empty byte
string with no space, tab, CR, LF, `:`, `[` and NUL. -/
def Item.Ok : Item → Prop
  | .seg p v => WellFormedProp p ∧ WellFormedVal v
  | .garbage g => g ≠ [] ∧ ∀ b ∈ g, isWS b = false ∧ b ≠ 58 ∧ b ≠ 91 ∧ b ≠ 0

instance (it : Item) : Decidable it.Ok := by
  cases it <;> unfold Item.Ok <;> infer_instance

/-- The (Property, Value) pair expected of an item: none for garbage. -/
def Item.pair : Item → Option (List Nat × List Nat)
  | .seg p v => some (p, v)
  | .garbage _ => none

/-- The text of items, each followed by its run of whitespace. -/
def itemsText : List (Item × List Nat) → List Nat
  | [] => []
  | (it, w) :: rest => it.text ++ w ++ itemsText rest

/-- The piece the driver meets for an item: a garbage token that starts with
`*` loses it to the reader before the property loop. -/
def Item.piece : Item → Piece
  | .seg p v => Piece.decl [] p [32] v [59]
  | .garbage (42 :: g) => Piece.junk [42] g
  | .garbage g => Piece.junk [] g

/-- The computation `y` returns whatever `x` returns. -/
def Extends {α : Type} (x y : Except Fault α) : Prop := ∀ a, x = .ok a → y = .ok a

/-- The state carried by an iteration result. -/
def Iter.state {σ : Type} : Iter σ → σ
  | .done s => s
  | .next s => s

/-- What `TrimSpace` computes, on lists: drop the leading bytes of the table
`asciiSpace`; if a byte `≥ 0x80` comes first, hand the rest to `TrimFunc`;
otherwise drop the trailing bytes of the table likewise. -/
def trimSpaceSpec (s : List Nat) : List Nat :=
  let rest := s.dropWhile asciiSpace
  if rest.headD 0 ≥ RuneSelf then TrimFunc rest IsSpace
  else
    let rt := rest.reverse.dropWhile asciiSpace
    if rt.headD 0 ≥ RuneSelf then TrimFunc rt.reverse IsSpace else rt.reverse

/-- The node is made of the two trimmed spans of `input` around one colon:
there are offsets `a ≤ c < b ≤ len(input)` with a `:` at `c`, the `Property`
is the trim of `input[a:c]`, the `Value` is the trim of `input[c+1:b]`, and `b`
is the end of the input or holds one of the bytes `stops`. -/
def AroundColon (stops : List Nat) (input : List Nat) (n : Node) : Prop :=
  ∃ a c b, a ≤ c ∧ c < b ∧ b ≤ input.length ∧ input[c]? = some 58 ∧
    n.Property = TrimSpace ((input.take c).drop a) ∧
    n.Value = TrimSpace ((input.take b).drop (c + 1)) ∧
    (b = input.length ∨ ∃ t ∈ stops, input[b]? = some t)

/-- A property made of bytes `>= 0x80` and printable ASCII bytes (0x21-0x7E),
with no `:` and no `[`, non-empty and not starting with `*`. -/
def ByteProp (p : List Nat) : Prop :=
  p ≠ [] ∧ (∀ b ∈ p, (0x80 ≤ b ∨ (0x21 ≤ b ∧ b ≤ 0x7E)) ∧ b ≠ 58 ∧ b ≠ 91) ∧
  p.head? ≠ some 42

instance (p : List Nat) : Decidable (ByteProp p) := by
  unfold ByteProp; infer_instance

/-- A value made of bytes `>= 0x80` and ASCII bytes 0x20-0x7E, with none of
`;`, `}`, `"`, `'`, `(`, non-empty, neither starting nor ending with a space. -/
def ByteVal (v : List Nat) : Prop :=
  v ≠ [] ∧
  (∀ b ∈ v, (0x80 ≤ b ∨ (0x20 ≤ b ∧ b ≤ 0x7E)) ∧
    b ≠ 59 ∧ b ≠ 125 ∧ b ≠ 34 ∧ b ≠ 39 ∧ b ≠ 40) ∧
  v.head? ≠ some 32 ∧ v.getLast? ≠ some 32

instance (v : List Nat) : Decidable (ByteVal v) := by
  unfold ByteVal; infer_instance

/-! ## The reference driver of the recovery rule -/

/-- One iteration of the reference driver: like `parseBody`, except that when
the declaration read started at offset `k` fails, the cursor the reader left
behind is discarded and the scan resumes at offset `k + 1`, dropping exactly
one byte. -/
def referenceBody (fuel : Nat) (s : Parser × List Node) :
    Except Fault (Iter (Parser × List Node)) := do
  if s.1.pos < s.1.length then
    let p ← s.1.skipWhitespace fuel
    if p.pos ≥ p.length then pure (.done (p, s.2))
    else
      let (d, p') ← p.parseDeclaration fuel
      match d with
      | some d => pure (.next (p', s.2 ++ [d]))
      | none =>
        let (_, p) ← p.consume
        pure (.next (p, s.2))
  else pure (.done s)

/-- The reference driver with every loop bounded by `fuel` iterations. -/
def ReferenceFuel (fuel : Nat) (style : List Nat) :
    Except Fault (List Node × Option String) := do
  let p := NewParser style
  let (_, out) ← loop (referenceBody fuel) fuel (p, [])
  pure (out, none)

/-- The reference driver: it drops one byte after every failed read. -/
def Reference (style : List Nat) : Except Fault (List Node × Option String) :=
  ReferenceFuel (style.length + 1) style

/-! ## Primitives on a cursor -/

theorem NewParser_eq (input : List Nat) : NewParser input = cursor input 0 := by
  simp [NewParser, cursor, posOf]

@[simp] theorem ok_bind {α β : Type} (a : α) (f : α → Except Fault β) :
    (Except.ok a >>= f) = f a := rfl

@[simp] theorem error_bind {α β : Type} (e : Fault) (f : α → Except Fault β) :
    ((Except.error e : Except Fault α) >>= f) = Except.error e := rfl

@[simp] theorem pure_eq_ok {α : Type} (a : α) : (pure a : Except Fault α) = Except.ok a := rfl

theorem index_eq (input : List Nat) (k : Nat) (h : k < input.length) :
    index input k = .ok ((input.drop k).headD 0) := by
  unfold index
  rw [List.get?_eq_get h]
  simp [List.headD_eq_head?_getD, List.head?_drop, List.getElem?_eq_getElem h]

theorem peek_cursor (input : List Nat) (k : Nat) :
    (cursor input k).peek = .ok ((input.drop k).headD 0) := by
  unfold Parser.peek
  by_cases h : k < input.length
  · simp [cursor, h, index_eq]
  · have : input.drop k = [] := List.drop_eq_nil_of_le (by omega)
    simp [cursor, h, this]

theorem posOf_succ (input : List Nat) (k : Nat) (b : Nat) (r : List Nat)
    (h : input.drop k = b :: r) :
    posOf input (k + 1) =
      if b = 10 then ⟨(posOf input k).Line + 1, 1⟩
      else ⟨(posOf input k).Line, (posOf input k).Column + 1⟩ := by
  have hk : k < input.length := by
    by_contra hc
    rw [List.drop_eq_nil_of_le (by omega)] at h
    exact absurd h (by simp)
  have hb : input[k] = b := by
    have := congrArg List.head? h
    simp [List.head?_drop, List.getElem?_eq_getElem hk] at this
    exact this
  have ht : input.take (k + 1) = input.take k ++ [b] := by
    rw [List.take_succ, List.getElem?_eq_getElem hk, hb]; rfl
  unfold posOf
  rw [ht]
  by_cases h10 : b = 10
  · subst h10
    simp [List.count_append, List.takeWhile]
    omega
  · simp [h10, List.count_append, List.takeWhile, List.count_singleton]
    omega

theorem consume_cursor (input : List Nat) (k : Nat) (b : Nat) (r : List Nat)
    (h : input.drop k = b :: r) :
    (cursor input k).consume = .ok (b, cursor input (k + 1)) := by
  have hk : k < input.length := by
    by_contra hc
    rw [List.drop_eq_nil_of_le (by omega)] at h
    exact absurd h (by simp)
  unfold Parser.consume
  have hi := index_eq input k hk
  rw [h] at hi
  simp only [cursor, ge_iff_le, Nat.not_le.mpr hk, if_false, hi, ok_bind, List.headD_cons]
  rw [posOf_succ input k b r h]
  by_cases h10 : b = 10 <;> simp [h10]

theorem consume_cursor_end (input : List Nat) (k : Nat) (h : input.drop k = []) :
    (cursor input k).consume = .ok (0, cursor input k) := by
  have hk : input.length ≤ k := by simpa using h
  unfold Parser.consume
  simp [cursor, hk]

/-! ## Loops that make progress -/

theorem lt_of_drop_cons {input : List Nat} {k b : Nat} {r : List Nat}
    (h : input.drop k = b :: r) : k < input.length := by
  by_contra hc
  rw [List.drop_eq_nil_of_le (by omega)] at h
  exact absurd h (by simp)

theorem drop_succ_of_cons {input : List Nat} {k b : Nat} {r : List Nat}
    (h : input.drop k = b :: r) : input.drop (k + 1) = r := by
  have : input.drop (k + 1) = (input.drop k).drop 1 := by
    rw [List.drop_drop, Nat.add_comm]
  rw [this, h]; rfl

/-- A loop whose body keeps an invariant and, whenever it goes round again,
lowers a measure, returns within `measure + 1` iterations, in a state that
satisfies what the body establishes when it leaves the loop. -/
theorem loop_inv {σ : Type} (body : σ → Except Fault (Iter σ)) (Inv Post : σ → Prop)
    (μ : σ → Nat)
    (h : ∀ s, Inv s → ∃ s', Inv s' ∧ μ s' ≤ μ s ∧
      ((Post s' ∧ body s = .ok (.done s')) ∨ (μ s' < μ s ∧ body s = .ok (.next s')))) :
    ∀ (fuel : Nat) (s : σ), Inv s → μ s < fuel →
      ∃ s', Inv s' ∧ Post s' ∧ μ s' ≤ μ s ∧ loop body fuel s = .ok s' := by
  intro fuel
  induction fuel with
  | zero => intro s _ hlt; omega
  | succ n ih =>
    intro s hs hlt
    obtain ⟨s', hs', hle, hb⟩ := h s hs
    rcases hb with ⟨hp, hb⟩ | ⟨hdec, hb⟩
    · exact ⟨s', hs', hp, hle, by simp [loop, hb]⟩
    · obtain ⟨s'', hs'', hp, hle', hl⟩ := ih s' hs' (by omega)
      exact ⟨s'', hs'', hp, by omega, by simp [loop, hb, hl]⟩

theorem loop_lands (input : List Nat) (body : Parser → Except Fault (Iter Parser))
    (h : ∀ k, k ≤ input.length → IterLands input k (body (cursor input k)))
    (fuel k : Nat) (hk : k ≤ input.length) (hf : input.length < fuel + k) :
    Lands input k (loop body fuel (cursor input k)) := by
  have := loop_inv body (fun s => ∃ j, j ≤ input.length ∧ s = cursor input j)
    (fun _ => True) (fun s => input.length - s.pos)
    (by
      rintro s ⟨j, hj, rfl⟩
      obtain ⟨j', h1, h2, h3⟩ := h j hj
      refine ⟨cursor input j', ⟨j', h2, rfl⟩, by simp only [cursor]; omega, ?_⟩
      rcases h3 with h3 | ⟨h4, h3⟩
      · exact Or.inl ⟨trivial, h3⟩
      · exact Or.inr ⟨by simp only [cursor]; omega, h3⟩)
    fuel (cursor input k) ⟨k, hk, rfl⟩ (by simp only [cursor]; omega)
  obtain ⟨s', ⟨j, hj, rfl⟩, _, hle, hl⟩ := this
  simp only [cursor] at hle
  exact ⟨j, by omega, hj, hl⟩

theorem consume_lands (input : List Nat) (k : Nat) (hk : k ≤ input.length) :
    ∃ b k', k ≤ k' ∧ k' ≤ input.length ∧ (k < input.length → k' = k + 1) ∧
      (cursor input k).consume = .ok (b, cursor input k') := by
  cases hd : input.drop k with
  | nil =>
    have : input.length ≤ k := by simpa using hd
    exact ⟨0, k, le_refl _, hk, fun h => by omega, consume_cursor_end input k hd⟩
  | cons b r =>
    have := lt_of_drop_cons hd
    exact ⟨b, k + 1, by omega, by omega, fun _ => rfl, consume_cursor input k b r hd⟩

theorem peek_ne_zero_lt (input : List Nat) (k : Nat)
    (h : (input.drop k).headD 0 ≠ 0) : k < input.length := by
  by_contra hc
  rw [List.drop_eq_nil_of_le (by omega)] at h
  exact h rfl

theorem skipWhitespaceBody_lands (input : List Nat) (k : Nat) (hk : k ≤ input.length) :
    IterLands input k (skipWhitespaceBody (cursor input k)) := by
  unfold skipWhitespaceBody
  rw [peek_cursor]
  simp only [ok_bind]
  split_ifs with hc
  · have hlt : k < input.length := peek_ne_zero_lt input k (by omega)
    obtain ⟨b, k', h1, h2, h3, h4⟩ := consume_lands input k hk
    refine ⟨k', h1, h2, Or.inr ⟨by have := h3 hlt; omega, ?_⟩⟩
    rw [h4]; rfl
  · exact ⟨k, le_refl _, hk, Or.inl rfl⟩

theorem skipWhitespace_lands (input : List Nat) (fuel k : Nat) (hk : k ≤ input.length)
    (hf : input.length < fuel + k) :
    Lands input k ((cursor input k).skipWhitespace fuel) :=
  loop_lands input _ (skipWhitespaceBody_lands input) fuel k hk hf

theorem skipToBody_lands (close : Nat) (input : List Nat) (k : Nat) (hk : k ≤ input.length) :
    IterLands input k (skipToBody close (cursor input k)) := by
  unfold skipToBody
  rw [peek_cursor]
  simp only [ok_bind]
  split_ifs with h1 h2
  · have hlt : k < input.length := peek_ne_zero_lt input k h2
    obtain ⟨b, k', h1, h2, h3, h4⟩ := consume_lands input k hk
    refine ⟨k', h1, h2, Or.inr ⟨by have := h3 hlt; omega, ?_⟩⟩
    rw [h4]; rfl
  · exact ⟨k, le_refl _, hk, Or.inl rfl⟩
  · exact ⟨k, le_refl _, hk, Or.inl rfl⟩

theorem quoteBody_lands (quote : Nat) (input : List Nat) (k : Nat) (hk : k ≤ input.length) :
    IterLands input k (quoteBody quote (cursor input k)) := by
  unfold quoteBody
  rw [peek_cursor]
  simp only [ok_bind]
  split_ifs with h1 h2 h3
  · have hlt : k < input.length := peek_ne_zero_lt input k h2
    obtain ⟨b, k', h1, h2, h3, h4⟩ := consume_lands input k hk
    obtain ⟨b', k'', h1', h2', _, h4'⟩ := consume_lands input k' h2
    refine ⟨k'', by omega, h2', Or.inr ⟨by have := h3 hlt; omega, ?_⟩⟩
    rw [h4]; simp only [ok_bind]; rw [h4']; rfl
  · have hlt : k < input.length := peek_ne_zero_lt input k h2
    obtain ⟨b, k', h1, h2, h3, h4⟩ := consume_lands input k hk
    refine ⟨k', h1, h2, Or.inr ⟨by have := h3 hlt; omega, ?_⟩⟩
    rw [h4]; rfl
  · exact ⟨k, le_refl _, hk, Or.inl rfl⟩
  · exact ⟨k, le_refl _, hk, Or.inl rfl⟩

theorem consumeIf_lands (c : Nat) (input : List Nat) (k : Nat) (hk : k ≤ input.length) :
    Lands input k (consumeIf c (cursor input k)) := by
  unfold consumeIf
  rw [peek_cursor]
  simp only [ok_bind]
  split_ifs with h1
  · obtain ⟨b, k', h1, h2, _, h4⟩ := consume_lands input k hk
    exact ⟨k', h1, h2, by rw [h4]; rfl⟩
  · exact ⟨k, le_refl _, hk, rfl⟩

/-- After the opening byte of a group, skipping to the closing byte and
consuming it lands further on. -/
theorem group_lands (input : List Nat) (fuel k : Nat) (hk : k ≤ input.length)
    (hf : input.length < fuel) (body : Parser → Except Fault (Iter Parser))
    (hbody : ∀ k, k ≤ input.length → IterLands input k (body (cursor input k)))
    (c : Nat) :
    ∃ j, k ≤ j ∧ j ≤ input.length ∧
      (do let p ← loop body fuel (cursor input k)
          let p ← consumeIf c p
          pure (Iter.next p)) = .ok (.next (cursor input j)) := by
  obtain ⟨j, h1, h2, h3⟩ := loop_lands input body hbody fuel k hk (by omega)
  obtain ⟨j', h4, h5, h6⟩ := consumeIf_lands c input j h2
  refine ⟨j', by omega, h5, ?_⟩
  rw [h3]; simp only [ok_bind]; rw [h6]; rfl

theorem propBody_lands (input : List Nat) (fuel : Nat) (hf : input.length < fuel)
    (k : Nat) (hk : k ≤ input.length) :
    IterLands input k (propBody fuel (cursor input k)) := by
  unfold propBody
  rw [peek_cursor]
  simp only [ok_bind]
  split_ifs with h1 h2
  · exact ⟨k, le_refl _, hk, Or.inl rfl⟩
  · have hlt : k < input.length := peek_ne_zero_lt input k (by omega)
    obtain ⟨b, k', h1, h2, h3, h4⟩ := consume_lands input k hk
    obtain ⟨j, h5, h6, h7⟩ := group_lands input fuel k' h2 hf _ (skipToBody_lands 93 input) 93
    refine ⟨j, by omega, h6, Or.inr ⟨by have := h3 hlt; omega, ?_⟩⟩
    rw [h4]; simp only [ok_bind]; exact h7
  · have hlt : k < input.length := peek_ne_zero_lt input k (by omega)
    obtain ⟨b, k', h1, h2, h3, h4⟩ := consume_lands input k hk
    refine ⟨k', h1, h2, Or.inr ⟨by have := h3 hlt; omega, ?_⟩⟩
    rw [h4]; rfl

theorem valueBody_lands (input : List Nat) (fuel : Nat) (hf : input.length < fuel)
    (k : Nat) (hk : k ≤ input.length) :
    IterLands input k (valueBody fuel (cursor input k)) := by
  unfold valueBody
  rw [peek_cursor]
  simp only [ok_bind]
  split_ifs with h1 h2 h3
  · exact ⟨k, le_refl _, hk, Or.inl rfl⟩
  · have hlt : k < input.length := peek_ne_zero_lt input k (by omega)
    obtain ⟨b, k', h1, h2, h3, h4⟩ := consume_lands input k hk
    obtain ⟨j, h5, h6, h7⟩ := group_lands input fuel k' h2 hf _
      (quoteBody_lands ((input.drop k).headD 0) input) ((input.drop k).headD 0)
    refine ⟨j, by omega, h6, Or.inr ⟨by have := h3 hlt; omega, ?_⟩⟩
    rw [h4]; simp only [ok_bind]; exact h7
  · have hlt : k < input.length := peek_ne_zero_lt input k (by omega)
    obtain ⟨b, k', h1, h2, h3, h4⟩ := consume_lands input k hk
    obtain ⟨j, h5, h6, h7⟩ := group_lands input fuel k' h2 hf _ (skipToBody_lands 41 input) 41
    refine ⟨j, by omega, h6, Or.inr ⟨by have := h3 hlt; omega, ?_⟩⟩
    rw [h4]; simp only [ok_bind]; exact h7
  · have hlt : k < input.length := peek_ne_zero_lt input k (by omega)
    obtain ⟨b, k', h1, h2, h3, h4⟩ := consume_lands input k hk
    refine ⟨k', h1, h2, Or.inr ⟨by have := h3 hlt; omega, ?_⟩⟩
    rw [h4]; rfl

theorem slice_cursor (input : List Nat) (lo hi : Nat) (h1 : lo ≤ hi) (h2 : hi ≤ input.length) :
    slice input lo hi = .ok ((input.take hi).drop lo) := by
  simp [slice, h1, h2]

/-- What `parseDeclaration` does from offset `k`: it returns, the cursor has
not moved back, and a node carries the positions of the two offsets of the call
and has consumed at least its colon. -/
theorem parseDeclaration_lands (input : List Nat) (fuel : Nat) (hf : input.length < fuel)
    (k : Nat) (hk : k ≤ input.length) :
    ∃ d k', k ≤ k' ∧ k' ≤ input.length ∧
      (cursor input k).parseDeclaration fuel = .ok (d, cursor input k') ∧
      ∀ n, d = some n → k < k' ∧
        n.Position = { Start := posOf input k, End := posOf input k' } := by
  unfold Parser.parseDeclaration
  obtain ⟨k1, a1, b1, e1⟩ := skipWhitespace_lands input fuel k hk (by omega)
  obtain ⟨k2, a2, b2, e2⟩ := consumeIf_lands 42 input k1 b1
  obtain ⟨k3, a3, b3, e3⟩ := loop_lands input _ (propBody_lands input fuel hf) fuel k2 b2 (by omega)
  rw [e1]; simp only [ok_bind]; rw [e2]; simp only [ok_bind]; rw [e3]; simp only [ok_bind]
  rw [peek_cursor]; simp only [ok_bind]
  split_ifs with hc
  · exact ⟨none, k3, by omega, b3, rfl, by simp⟩
  · have hlt : k3 < input.length := peek_ne_zero_lt input k3 (by
      simp only [ne_eq, not_not] at hc; omega)
    obtain ⟨b, k4, a4, b4, c4, e4⟩ := consume_lands input k3 b3
    obtain ⟨k5, a5, b5, e5⟩ := skipWhitespace_lands input fuel k4 b4 (by omega)
    obtain ⟨k6, a6, b6, e6⟩ := loop_lands input _ (valueBody_lands input fuel hf) fuel k5 b5 (by omega)
    obtain ⟨k7, a7, b7, e7⟩ := skipWhitespace_lands input fuel k6 b6 (by omega)
    obtain ⟨k8, a8, b8, e8⟩ := consumeIf_lands 59 input k7 b7
    have s1 : slice (cursor input k3).input (cursor input k2).pos (cursor input k3).pos
        = .ok ((input.take k3).drop k2) := slice_cursor input k2 k3 a3 b3
    have s2 : slice (cursor input k6).input (cursor input k5).pos (cursor input k6).pos
        = .ok ((input.take k6).drop k5) := slice_cursor input k5 k6 a6 b6
    rw [s1]; simp only [ok_bind]; rw [e4]; simp only [ok_bind]; rw [e5]; simp only [ok_bind]
    rw [e6]; simp only [ok_bind]; rw [s2]; simp only [ok_bind]; rw [e7]; simp only [ok_bind]
    rw [e8]; simp only [ok_bind]
    refine ⟨_, k8, by omega, b8, rfl, ?_⟩
    intro n hn
    simp only [pure_eq_ok, Option.some.injEq] at hn
    subst hn
    exact ⟨by have := c4 hlt; omega, rfl⟩

/-! ## Positions along the input -/

theorem posLe_refl (a : Position) : posLe a a := Or.inr ⟨rfl, le_refl _⟩

theorem posLe_trans {a b c : Position} (h1 : posLe a b) (h2 : posLe b c) : posLe a c := by
  unfold posLe at *
  omega

theorem posOf_le_succ (input : List Nat) (k : Nat) (hk : k < input.length) :
    posLe (posOf input k) (posOf input (k + 1)) := by
  cases hd : input.drop k with
  | nil =>
    have : input.length ≤ k := by simpa using hd
    omega
  | cons b r =>
    rw [posOf_succ input k b r hd]
    unfold posLe
    split_ifs <;> simp

theorem posOf_mono (input : List Nat) (k k' : Nat) (h : k ≤ k') (hk : k' ≤ input.length) :
    posLe (posOf input k) (posOf input k') := by
  induction k' with
  | zero =>
    have : k = 0 := by omega
    subst this; exact posLe_refl _
  | succ n ih =>
    rcases Nat.eq_or_lt_of_le h with h | h
    · subst h; exact posLe_refl _
    · exact posLe_trans (ih (by omega) (by omega)) (posOf_le_succ input n (by omega))

theorem posOf_ge_one (input : List Nat) (k : Nat) :
    1 ≤ (posOf input k).Line ∧ 1 ≤ (posOf input k).Column := by
  simp [posOf]

theorem cursor_inj {input : List Nat} {k k' : Nat} (h : cursor input k = cursor input k') :
    k = k' := by
  have := congrArg Parser.pos h
  simpa [cursor] using this

/-! ## Unrolling a loop -/

theorem loop_next {σ : Type} {body : σ → Except Fault (Iter σ)} {s s' : σ} (n : Nat)
    (h : body s = .ok (.next s')) : loop body (n + 1) s = loop body n s' := by
  simp [loop, h]

theorem loop_done {σ : Type} {body : σ → Except Fault (Iter σ)} {s s' : σ} (n : Nat)
    (h : body s = .ok (.done s')) : loop body (n + 1) s = .ok s' := by
  simp [loop, h]

theorem isWS_iff (b : Nat) : isWS b = true ↔ (b = 32 ∨ b = 9 ∨ b = 13 ∨ b = 10) := by
  simp [isWS]; omega

/-! ## `skipWhitespace`, exactly -/

theorem skipWhitespace_exact (input : List Nat) (ws tail : List Nat) :
    ∀ (k fuel : Nat), input.drop k = ws ++ tail → (∀ b ∈ ws, isWS b = true) →
      isWS (tail.headD 0) = false → k ≤ input.length → input.length < fuel + k →
      (cursor input k).skipWhitespace fuel = .ok (cursor input (k + ws.length)) := by
  induction ws with
  | nil =>
    intro k fuel hd _ ht hk hf
    obtain ⟨n, rfl⟩ : ∃ n, fuel = n + 1 := ⟨fuel - 1, by omega⟩
    unfold Parser.skipWhitespace
    apply loop_done
    unfold skipWhitespaceBody
    rw [peek_cursor, hd]
    simp only [ok_bind, List.nil_append]
    have : ¬ (tail.headD 0 = 32 ∨ tail.headD 0 = 9 ∨ tail.headD 0 = 13 ∨ tail.headD 0 = 10) := by
      rw [← isWS_iff, ht]; exact Bool.false_ne_true
    rw [if_neg this]; rfl
  | cons b ws ih =>
    intro k fuel hd hws ht hk hf
    have hlt := lt_of_drop_cons hd
    obtain ⟨n, rfl⟩ : ∃ n, fuel = n + 1 := ⟨fuel - 1, by omega⟩
    have hb : (b = 32 ∨ b = 9 ∨ b = 13 ∨ b = 10) := (isWS_iff b).1 (hws b (by simp))
    have hstep : skipWhitespaceBody (cursor input k) = .ok (.next (cursor input (k + 1))) := by
      unfold skipWhitespaceBody
      rw [peek_cursor, hd]
      simp only [ok_bind, List.cons_append, List.headD_cons, hb, if_true]
      rw [consume_cursor input k b _ hd]; rfl
    unfold Parser.skipWhitespace
    rw [loop_next n hstep]
    have := ih (k + 1) n (drop_succ_of_cons hd) (fun x hx => hws x (by simp [hx])) ht
      (by omega) (by omega)
    unfold Parser.skipWhitespace at this
    rw [this]
    simp only [List.length_cons]
    congr 2; omega

/-- Every list splits into its leading whitespace and a rest that does not start
with whitespace. -/
theorem ws_split (l : List Nat) :
    ∃ ws tail, l = ws ++ tail ∧ (∀ b ∈ ws, isWS b = true) ∧ isWS (tail.headD 0) = false := by
  induction l with
  | nil => exact ⟨[], [], rfl, by simp, by decide⟩
  | cons b l ih =>
    by_cases hb : isWS b = true
    · obtain ⟨ws, tail, h1, h2, h3⟩ := ih
      refine ⟨b :: ws, tail, by simp [h1], ?_, h3⟩
      intro x hx
      rcases List.mem_cons.1 hx with rfl | hx
      · exact hb
      · exact h2 x hx
    · exact ⟨[], b :: l, rfl, by simp, by simpa using hb⟩

/-- The call `skipWhitespace` returns at an offset where no whitespace byte
stands. -/
theorem skipWhitespace_stops (input : List Nat) (fuel k : Nat) (hk : k ≤ input.length)
    (hf : input.length < fuel + k) :
    ∃ k', k ≤ k' ∧ k' ≤ input.length ∧ isWS ((input.drop k').headD 0) = false ∧
      (∀ j, k ≤ j → j < k' → isWS ((input.drop j).headD 0) = true) ∧
      (cursor input k).skipWhitespace fuel = .ok (cursor input k') := by
  obtain ⟨ws, tail, h1, h2, h3⟩ := ws_split (input.drop k)
  have hlen : (input.drop k).length = ws.length + tail.length := by rw [h1]; simp
  simp only [List.length_drop] at hlen
  have htail : input.drop (k + ws.length) = tail := by
    rw [← List.drop_drop, h1]; simp
  refine ⟨k + ws.length, by omega, by omega, by rw [htail]; exact h3, ?_,
    skipWhitespace_exact input ws tail k fuel h1 h2 h3 hk hf⟩
  intro j hj1 hj2
  have : input.drop j = (ws ++ tail).drop (j - k) := by
    rw [← h1, List.drop_drop]; congr 1; omega
  rw [this, List.drop_append_of_le_length (by omega)]
  have hne : ws.drop (j - k) ≠ [] := by
    intro hc
    have := congrArg List.length hc
    simp at this; omega
  cases hw : ws.drop (j - k) with
  | nil => exact absurd hw hne
  | cons x r =>
    simp only [List.cons_append, List.headD_cons]
    exact h2 x (List.mem_of_mem_drop (by rw [hw]; simp))

/-! ## The driver loop -/

/-- One iteration of the driver from offset `k`: it returns, the cursor has not
moved back and has moved on when the loop goes round again; the loop is left
only at the end of the input; a node is appended only when `parseDeclaration`,
called at an offset `k1` where a non-whitespace byte stands, returned it. -/
theorem parseBody_lands (input : List Nat) (fuel : Nat) (hf : input.length < fuel)
    (k : Nat) (hk : k ≤ input.length) (out : List Node) :
    ∃ k' out', k ≤ k' ∧ k' ≤ input.length ∧
      ((k' = input.length ∧ out' = out ∧
          parseBody fuel (cursor input k, out) = .ok (.done (cursor input k', out'))) ∨
       (k < k' ∧ parseBody fuel (cursor input k, out) = .ok (.next (cursor input k', out')) ∧
          (out' = out ∨ ∃ k1 k2 n, k ≤ k1 ∧ k1 < k2 ∧ k2 = k' ∧ k1 < input.length ∧
            isWS ((input.drop k1).headD 0) = false ∧
            (cursor input k1).parseDeclaration fuel = .ok (some n, cursor input k2) ∧
            out' = out ++ [n]))) := by
  unfold parseBody
  by_cases hlt : k < input.length
  · have hc : (cursor input k, out).1.pos < (cursor input k, out).1.length := hlt
    rw [if_pos hc]
    obtain ⟨k1, a1, b1, w1, _, e1⟩ := skipWhitespace_stops input fuel k hk (by omega)
    simp only []
    rw [e1]; simp only [ok_bind]
    by_cases hge : k1 ≥ input.length
    · have hc' : (cursor input k1).pos ≥ (cursor input k1).length := hge
      rw [if_pos hc']
      exact ⟨k1, out, a1, b1, Or.inl ⟨by omega, rfl, rfl⟩⟩
    · have hc' : ¬ (cursor input k1).pos ≥ (cursor input k1).length := hge
      rw [if_neg hc']
      obtain ⟨d, k2, a2, b2, e2, f2⟩ := parseDeclaration_lands input fuel hf k1 b1
      rw [e2]; simp only [ok_bind]
      cases d with
      | some n =>
        obtain ⟨hlt2, _⟩ := f2 n rfl
        refine ⟨k2, out ++ [n], by omega, b2, Or.inr ⟨by omega, rfl, Or.inr ?_⟩⟩
        exact ⟨k1, k2, n, a1, hlt2, rfl, by omega, w1, e2, rfl⟩
      | none =>
        obtain ⟨b, k3, a3, b3, c3, e3⟩ := consume_lands input k2 b2
        refine ⟨k3, out, by omega, b3, Or.inr ⟨?_, ?_, Or.inl rfl⟩⟩
        · by_cases h2 : k2 < input.length
          · have := c3 h2; omega
          · omega
        · simp only []
          rw [e3]; rfl
  · have hc : ¬ (cursor input k, out).1.pos < (cursor input k, out).1.length := hlt
    rw [if_neg hc]
    exact ⟨k, out, le_refl _, hk, Or.inl ⟨by omega, rfl, rfl⟩⟩

/-- Induction over a run of `Parse`: a property of (offset, nodes so far) that
holds at the start, survives moving the cursor forward and survives appending
a node returned by `parseDeclaration`, holds of the returned nodes. -/
theorem ParseFuel_induction (input : List Nat) (fuel : Nat) (hf : input.length < fuel)
    (I : Nat → List Node → Prop) (h0 : I 0 [])
    (hmove : ∀ k k' out, k ≤ k' → k' ≤ input.length → I k out → I k' out)
    (hnode : ∀ k k' out n, k < k' → k' ≤ input.length →
      isWS ((input.drop k).headD 0) = false →
      (cursor input k).parseDeclaration fuel = .ok (some n, cursor input k') →
      I k out → I k' (out ++ [n])) :
    ∃ nodes, ParseFuel fuel input = .ok (nodes, none) ∧ I input.length nodes := by
  have := loop_inv (parseBody fuel)
    (fun s => ∃ j, j ≤ input.length ∧ s.1 = cursor input j ∧ I j s.2)
    (fun s => s.1 = cursor input input.length)
    (fun s => input.length - s.1.pos)
    (by
      rintro ⟨p, out⟩ ⟨j, hj, hp, hI⟩
      simp only at hp hI
      subst hp
      obtain ⟨k', out', h1, h2, h3⟩ := parseBody_lands input fuel hf j hj out
      rcases h3 with ⟨h3, h4, h5⟩ | ⟨h3, h4, h5⟩
      · refine ⟨(cursor input k', out'), ⟨k', h2, rfl, ?_⟩, by simp only [cursor]; omega,
          Or.inl ⟨by rw [h3], h5⟩⟩
        rw [h4]; exact hmove j k' out h1 h2 hI
      · refine ⟨(cursor input k', out'), ⟨k', h2, rfl, ?_⟩, by simp only [cursor]; omega,
          Or.inr ⟨by simp only [cursor]; omega, h4⟩⟩
        rcases h5 with h5 | ⟨k1, k2, n, c1, c2, c3, c4, c5, c6, c7⟩
        · rw [h5]; exact hmove j k' out h1 h2 hI
        · subst c3; subst c7
          exact hnode k1 k2 out n c2 h2 c5 c6 (hmove j k1 out c1 (by omega) hI))
    fuel (cursor input 0, []) ⟨0, Nat.zero_le _, rfl, h0⟩ (by simp only [cursor]; omega)
  obtain ⟨⟨p, out⟩, ⟨j, hj, hp, hI⟩, hpost, _, hl⟩ := this
  simp only at hp hI hpost
  have hj' : j = input.length := by
    rw [hp] at hpost; exact cursor_inj hpost
  subst hj'
  refine ⟨out, ?_, hI⟩
  unfold ParseFuel
  rw [NewParser_eq]
  simp only []
  rw [hl]; rfl

/-! ## More fuel never changes a result -/

theorem Extends.refl {α : Type} (x : Except Fault α) : Extends x x := fun _ h => h

theorem Extends.bind {α β : Type} {x y : Except Fault α} {f g : α → Except Fault β}
    (hx : Extends x y) (hf : ∀ a, Extends (f a) (g a)) : Extends (x >>= f) (y >>= g) := by
  intro b hb
  cases x with
  | error e => simp at hb
  | ok a =>
    rw [hx a rfl]
    simp only [ok_bind] at hb ⊢
    exact hf a b hb

theorem Extends.loop {σ : Type} {b1 b2 : σ → Except Fault (Iter σ)}
    (h : ∀ s, Extends (b1 s) (b2 s)) :
    ∀ (n m : Nat) (s : σ), n ≤ m → Extends (loop b1 n s) (loop b2 m s) := by
  intro n
  induction n with
  | zero => intro m s _ r hr; simp [cssparser.loop] at hr
  | succ n ih =>
    intro m s hnm r hr
    obtain ⟨m', rfl⟩ : ∃ m', m = m' + 1 := ⟨m - 1, by omega⟩
    cases hb : b1 s with
    | error e => simp [cssparser.loop, hb] at hr
    | ok it =>
      have hb2 := h s it hb
      cases it with
      | done s' =>
        simp only [cssparser.loop, hb] at hr
        simp only [cssparser.loop, hb2]
        exact hr
      | next s' =>
        simp only [cssparser.loop, hb] at hr
        simp only [cssparser.loop, hb2]
        exact ih m' s' (by omega) r hr

theorem propBody_mono (f1 f2 : Nat) (h : f1 ≤ f2) (p : Parser) :
    Extends (propBody f1 p) (propBody f2 p) := by
  unfold propBody
  refine Extends.bind (Extends.refl _) (fun ch => ?_)
  split_ifs
  · exact Extends.refl _
  · refine Extends.bind (Extends.refl _) (fun x => ?_)
    refine Extends.bind (Extends.loop (fun _ => Extends.refl _) f1 f2 _ h) (fun q => ?_)
    exact Extends.refl _
  · exact Extends.refl _

theorem valueBody_mono (f1 f2 : Nat) (h : f1 ≤ f2) (p : Parser) :
    Extends (valueBody f1 p) (valueBody f2 p) := by
  unfold valueBody
  refine Extends.bind (Extends.refl _) (fun ch => ?_)
  split_ifs
  · exact Extends.refl _
  · refine Extends.bind (Extends.refl _) (fun x => ?_)
    refine Extends.bind (Extends.loop (fun _ => Extends.refl _) f1 f2 _ h) (fun q => ?_)
    exact Extends.refl _
  · refine Extends.bind (Extends.refl _) (fun x => ?_)
    refine Extends.bind (Extends.loop (fun _ => Extends.refl _) f1 f2 _ h) (fun q => ?_)
    exact Extends.refl _
  · exact Extends.refl _

theorem skipWhitespace_mono (f1 f2 : Nat) (h : f1 ≤ f2) (p : Parser) :
    Extends (p.skipWhitespace f1) (p.skipWhitespace f2) :=
  Extends.loop (fun _ => Extends.refl _) f1 f2 p h

theorem parseDeclaration_mono (f1 f2 : Nat) (h : f1 ≤ f2) (p : Parser) :
    Extends (p.parseDeclaration f1) (p.parseDeclaration f2) := by
  unfold Parser.parseDeclaration
  refine Extends.bind (skipWhitespace_mono f1 f2 h p) (fun p1 => ?_)
  refine Extends.bind (Extends.refl _) (fun p2 => ?_)
  refine Extends.bind (Extends.loop (propBody_mono f1 f2 h) f1 f2 _ h) (fun p3 => ?_)
  refine Extends.bind (Extends.refl _) (fun c => ?_)
  split_ifs
  · exact Extends.refl _
  · refine Extends.bind (Extends.refl _) (fun raw => ?_)
    refine Extends.bind (Extends.refl _) (fun x => ?_)
    refine Extends.bind (skipWhitespace_mono f1 f2 h _) (fun p5 => ?_)
    refine Extends.bind (Extends.loop (valueBody_mono f1 f2 h) f1 f2 _ h) (fun p6 => ?_)
    refine Extends.bind (Extends.refl _) (fun raw2 => ?_)
    refine Extends.bind (skipWhitespace_mono f1 f2 h _) (fun p7 => ?_)
    exact Extends.refl _

theorem parseBody_mono (f1 f2 : Nat) (h : f1 ≤ f2) (s : Parser × List Node) :
    Extends (parseBody f1 s) (parseBody f2 s) := by
  unfold parseBody
  split_ifs
  · refine Extends.bind (skipWhitespace_mono f1 f2 h _) (fun p1 => ?_)
    split_ifs
    · exact Extends.refl _
    · exact Extends.bind (parseDeclaration_mono f1 f2 h _) (fun x => Extends.refl _)
  · exact Extends.refl _

/-- A run that returns with some fuel returns the same with more fuel. -/
theorem ParseFuel_mono (f1 f2 : Nat) (h : f1 ≤ f2) (style : List Nat) :
    Extends (ParseFuel f1 style) (ParseFuel f2 style) := by
  unfold ParseFuel
  exact Extends.bind (Extends.loop (parseBody_mono f1 f2 h) f1 f2 _ h) (fun x => Extends.refl _)

/-! ## Termination, safety and order of spans -/

theorem parseDeclaration_node (input : List Nat) (fuel : Nat) (hf : input.length < fuel)
    (k k' : Nat) (hk : k ≤ input.length) (n : Node)
    (h : (cursor input k).parseDeclaration fuel = .ok (some n, cursor input k')) :
    k < k' ∧ k' ≤ input.length ∧
      n.Position = { Start := posOf input k, End := posOf input k' } := by
  obtain ⟨d, k2, _, b2, e2, f2⟩ := parseDeclaration_lands input fuel hf k hk
  rw [e2] at h
  simp only [Except.ok.injEq, Prod.mk.injEq] at h
  obtain ⟨h1, h2⟩ := h
  have := cursor_inj h2
  subst this
  obtain ⟨h3, h4⟩ := f2 n h1
  exact ⟨h3, b2, h4⟩

theorem SpansOrdered_nil : SpansOrdered [] := by
  constructor
  · intro n hn; simp at hn
  · intro i a b ha; simp at ha

theorem SpansOrdered_append (out : List Node) (n : Node) (h : SpansOrdered out)
    (hlast : ∀ m ∈ out, posLe m.Position.End n.Position.Start)
    (hn : posLe n.Position.Start n.Position.End) : SpansOrdered (out ++ [n]) := by
  constructor
  · intro m hm
    rcases List.mem_append.1 hm with hm | hm
    · exact h.1 m hm
    · simp only [List.mem_singleton] at hm; subst hm; exact hn
  · intro i a b ha hb
    by_cases hi : i + 1 < out.length
    · rw [List.getElem?_append_left (by omega)] at ha
      rw [List.getElem?_append_left hi] at hb
      exact h.2 i a b ha hb
    · have hb' := hb
      have hlen : i + 1 < (out ++ [n]).length := by
        by_contra hc
        rw [List.getElem?_eq_none (by omega)] at hb'
        exact absurd hb' (by simp)
      simp only [List.length_append, List.length_singleton] at hlen
      have hi' : i + 1 = out.length := by omega
      rw [List.getElem?_append_right (by omega)] at hb
      have : i + 1 - out.length = 0 := by omega
      rw [this] at hb
      simp only [List.getElem?_cons_zero, Option.some.injEq] at hb
      subst hb
      rw [List.getElem?_append_left (by omega)] at ha
      exact hlast a (List.getElem?_mem ha)

/-- The nodes returned by a run with enough fuel have ordered spans. -/
theorem ParseFuel_ordered (input : List Nat) (fuel : Nat) (hf : input.length < fuel) :
    ∃ nodes, ParseFuel fuel input = .ok (nodes, none) ∧ SpansOrdered nodes := by
  obtain ⟨nodes, h1, h2, _⟩ := ParseFuel_induction input fuel hf
    (fun k out => SpansOrdered out ∧ ∀ m ∈ out, posLe m.Position.End (posOf input k))
    ⟨SpansOrdered_nil, by intro m hm; simp at hm⟩
    (by
      rintro k k' out h1 h2 ⟨h3, h4⟩
      exact ⟨h3, fun m hm => posLe_trans (h4 m hm) (posOf_mono input k k' h1 h2)⟩)
    (by
      rintro k k' out n h1 h2 _ h4 ⟨h5, h6⟩
      obtain ⟨_, _, hpos⟩ := parseDeclaration_node input fuel hf k k' (by omega) n h4
      have hs : n.Position.Start = posOf input k := by rw [hpos]
      have he : n.Position.End = posOf input k' := by rw [hpos]
      refine ⟨SpansOrdered_append out n h5 ?_ ?_, ?_⟩
      · intro m hm; rw [hs]; exact h6 m hm
      · rw [hs, he]; exact posOf_mono input k k' (by omega) h2
      · intro m hm
        rcases List.mem_append.1 hm with hm | hm
        · exact posLe_trans (h6 m hm) (posOf_mono input k k' (by omega) h2)
        · simp only [List.mem_singleton] at hm; subst hm; rw [he]; exact posLe_refl _)
  exact ⟨nodes, h1, h2⟩

/-- C1. `Parse` terminates on every input: it returns, and with any fuel above
the input length no loop runs out of fuel and the run returns the same result.
Throughout the scan the parser state is the cursor of the input at some offset
`k ≤ len(style)`, starting with `NewParser` at offset 0; from every such state
one iteration of each loop (`skipWhitespace`, the bracket and parenthesis skips,
the quote skip, the property loop, the value loop, the driver loop of `Parse`)
returns a cursor at an offset `k'` with `k ≤ k' ≤ len(style)`, and `k < k'`
whenever the iteration does not leave its loop; `consume` moves the offset from
`k` to `k` or `k + 1`, never beyond the length. -/
theorem C1_parse_terminates (style : List Nat) :
    (∃ nodes, Parse style = .ok (nodes, none)) ∧
    (∀ fuel, style.length < fuel → ParseFuel fuel style = Parse style) ∧
    NewParser style = cursor style 0 ∧
    (∀ fuel k, style.length < fuel → k ≤ style.length →
      (∃ b k', k ≤ k' ∧ k' ≤ k + 1 ∧ k' ≤ style.length ∧
        (cursor style k).consume = .ok (b, cursor style k')) ∧
      IterLands style k (skipWhitespaceBody (cursor style k)) ∧
      (∀ c, IterLands style k (skipToBody c (cursor style k))) ∧
      (∀ q, IterLands style k (quoteBody q (cursor style k))) ∧
      IterLands style k (propBody fuel (cursor style k)) ∧
      IterLands style k (valueBody fuel (cursor style k)) ∧
      (∀ out, ∃ k' out', k ≤ k' ∧ k' ≤ style.length ∧
        (parseBody fuel (cursor style k, out) = .ok (.done (cursor style k', out')) ∨
          (k < k' ∧
            parseBody fuel (cursor style k, out) = .ok (.next (cursor style k', out')))))) := by
  obtain ⟨nodes, hparse, _⟩ := ParseFuel_ordered style (style.length + 1) (by omega)
  refine ⟨⟨nodes, hparse⟩, ?_, NewParser_eq style, ?_⟩
  · intro fuel hf
    have := ParseFuel_mono (style.length + 1) fuel (by omega) style _ hparse
    rw [this]; exact hparse.symm
  · intro fuel k hf hk
    refine ⟨?_, skipWhitespaceBody_lands style k hk, fun c => skipToBody_lands c style k hk,
      fun q => quoteBody_lands q style k hk, propBody_lands style fuel hf k hk,
      valueBody_lands style fuel hf k hk, ?_⟩
    · obtain ⟨b, k', h1, h2, h3, h4⟩ := consume_lands style k hk
      refine ⟨b, k', h1, ?_, h2, h4⟩
      by_cases hlt : k < style.length
      · have := h3 hlt; omega
      · omega
    · intro out
      obtain ⟨k', out', h1, h2, h3⟩ := parseBody_lands style fuel hf k hk out
      refine ⟨k', out', h1, h2, ?_⟩
      rcases h3 with ⟨_, _, h⟩ | ⟨h4, h, _⟩
      · exact Or.inl h
      · exact Or.inr ⟨h4, h⟩

theorem C1_parse_terminates_witness :
    ParseFuel 100 (bytes "a[b]:c;") = Parse (bytes "a[b]:c;") ∧
    IterLands (bytes "a[b]:c;") 1 (propBody 8 (cursor (bytes "a[b]:c;") 1)) :=
  ⟨(C1_parse_terminates (bytes "a[b]:c;")).2.1 100 (by decide),
   ((C1_parse_terminates (bytes "a[b]:c;")).2.2.2 8 1 (by decide) (by decide)).2.2.2.2.1⟩

/-- C2. `Parse` never faults: for every input (empty, or with unterminated
brackets, quotes or parentheses) it returns its nodes and the error `nil`, so no
index expression in `peek` and `consume` and neither slice expression of
`parseDeclaration` is out of range on the way; and in every state of a scan
(a cursor at an offset `k ≤ len(style)`) `peek`, `consume` and
`parseDeclaration` return without a fault. -/
theorem C2_parse_never_faults (style : List Nat) :
    (∃ nodes, Parse style = .ok (nodes, none)) ∧
    (∀ k, k ≤ style.length →
      (∃ b, (cursor style k).peek = .ok b) ∧
      (∃ b p, (cursor style k).consume = .ok (b, p)) ∧
      (∃ d p, (cursor style k).parseDeclaration (style.length + 1) = .ok (d, p))) := by
  refine ⟨?_, ?_⟩
  · obtain ⟨nodes, h, _⟩ := ParseFuel_ordered style (style.length + 1) (by omega)
    exact ⟨nodes, h⟩
  · intro k hk
    refine ⟨⟨_, peek_cursor style k⟩, ?_, ?_⟩
    · obtain ⟨b, k', _, _, _, h⟩ := consume_lands style k hk
      exact ⟨b, _, h⟩
    · obtain ⟨d, k', _, _, h, _⟩ :=
        parseDeclaration_lands style (style.length + 1) (by omega) k hk
      exact ⟨d, _, h⟩

theorem C2_parse_never_faults_witness :
    ∃ d p, (cursor (bytes "a:\"b") 0).parseDeclaration ((bytes "a:\"b").length + 1) = .ok (d, p) :=
  ((C2_parse_never_faults (bytes "a:\"b")).2 0 (by decide)).2.2

/-- C10. Spans are ordered: for every input, `Parse` returns nodes
`n_0, ..., n_(k-1)` such that, in the lexicographic order on (Line, Column),
every node has `Start ≤ End` and every node's `End` is `≤` the `Start` of the
next node. -/
theorem C10_spans_ordered (style : List Nat) :
    ∃ nodes, Parse style = .ok (nodes, none) ∧ SpansOrdered nodes :=
  ParseFuel_ordered style (style.length + 1) (by omega)

/-! ## The loops, exactly -/

theorem drop_of_append {input : List Nat} {k : Nat} {a b : List Nat}
    (h : input.drop k = a ++ b) : input.drop (k + a.length) = b := by
  rw [← List.drop_drop, h]; simp

theorem le_of_drop_append {input : List Nat} {k : Nat} {a b : List Nat}
    (h : input.drop k = a ++ b) (hk : k ≤ input.length) : k + a.length ≤ input.length := by
  have := congrArg List.length h
  simp only [List.length_drop, List.length_append] at this
  omega

theorem consumeIf_hit (input : List Nat) (c k : Nat) (tail : List Nat)
    (h : input.drop k = c :: tail) :
    consumeIf c (cursor input k) = .ok (cursor input (k + 1)) := by
  unfold consumeIf
  rw [peek_cursor, h]
  simp only [ok_bind, List.headD_cons, if_true]
  rw [consume_cursor input k c tail h]; rfl

theorem consumeIf_miss (input : List Nat) (c k : Nat)
    (h : (input.drop k).headD 0 ≠ c) :
    consumeIf c (cursor input k) = .ok (cursor input k) := by
  unfold consumeIf
  rw [peek_cursor]
  simp only [ok_bind]
  rw [if_neg h]; rfl

theorem skipTo_exact (input : List Nat) (close : Nat) (body tail : List Nat) :
    ∀ (k fuel k' : Nat), input.drop k = body ++ tail → (∀ x ∈ body, x ≠ close ∧ x ≠ 0) →
      (tail.headD 0 = close ∨ tail.headD 0 = 0) → k ≤ input.length →
      input.length < fuel + k → k' = k + body.length →
      loop (skipToBody close) fuel (cursor input k) = .ok (cursor input k') := by
  induction body with
  | nil =>
    intro k fuel k' hd _ ht hk hf hk'
    obtain ⟨n, rfl⟩ : ∃ n, fuel = n + 1 := ⟨fuel - 1, by omega⟩
    simp only [List.length_nil, Nat.add_zero] at hk'
    subst hk'
    apply loop_done
    unfold skipToBody
    rw [peek_cursor, hd]
    simp only [ok_bind, List.nil_append]
    rcases ht with ht | ht
    · rw [if_neg (by rw [ht]; simp)]; rfl
    · by_cases hc : tail.headD 0 = close
      · rw [if_neg (by rw [hc]; simp)]; rfl
      · rw [if_pos hc, if_neg (by rw [ht]; simp)]; rfl
  | cons b body ih =>
    intro k fuel k' hd hb ht hk hf hk'
    have hlt := lt_of_drop_cons hd
    obtain ⟨n, rfl⟩ : ∃ n, fuel = n + 1 := ⟨fuel - 1, by omega⟩
    obtain ⟨hb1, hb2⟩ := hb b (by simp)
    have hstep : skipToBody close (cursor input k) = .ok (.next (cursor input (k + 1))) := by
      unfold skipToBody
      rw [peek_cursor, hd]
      simp only [ok_bind, List.cons_append, List.headD_cons]
      rw [if_pos hb1, if_pos hb2, consume_cursor input k b _ hd]; rfl
    rw [loop_next n hstep]
    exact ih (k + 1) n k' (drop_succ_of_cons hd) (fun x hx => hb x (by simp [hx])) ht
      (by omega) (by omega) (by simp only [List.length_cons] at hk'; omega)

theorem quote_exact (input : List Nat) (q : Nat) (hq : q ≠ 92) (body tail : List Nat)
    (hb : QuoteRun q body) :
    ∀ (k fuel k' : Nat), input.drop k = body ++ tail →
      (tail.headD 0 = q ∨ tail.headD 0 = 0) → k ≤ input.length →
      input.length < fuel + k → k' = k + body.length →
      loop (quoteBody q) fuel (cursor input k) = .ok (cursor input k') := by
  induction hb with
  | nil =>
    intro k fuel k' hd ht hk hf hk'
    obtain ⟨n, rfl⟩ : ∃ n, fuel = n + 1 := ⟨fuel - 1, by omega⟩
    simp only [List.length_nil, Nat.add_zero] at hk'
    subst hk'
    apply loop_done
    unfold quoteBody
    rw [peek_cursor, hd]
    simp only [ok_bind, List.nil_append]
    rcases ht with ht | ht
    · rw [if_neg (by rw [ht]; simp)]; rfl
    · by_cases hc : tail.headD 0 = q
      · rw [if_neg (by rw [hc]; simp)]; rfl
      · rw [if_pos hc, if_neg (by rw [ht]; simp)]; rfl
  | plain b bs hb1 hb2 hb3 _ ih =>
    intro k fuel k' hd ht hk hf hk'
    have hlt := lt_of_drop_cons hd
    obtain ⟨n, rfl⟩ : ∃ n, fuel = n + 1 := ⟨fuel - 1, by omega⟩
    have hstep : quoteBody q (cursor input k) = .ok (.next (cursor input (k + 1))) := by
      unfold quoteBody
      rw [peek_cursor, hd]
      simp only [ok_bind, List.cons_append, List.headD_cons]
      rw [if_pos hb1, if_pos hb3, if_neg hb2, consume_cursor input k b _ hd]; rfl
    rw [loop_next n hstep]
    exact ih (k + 1) n k' (drop_succ_of_cons hd) ht
      (by omega) (by omega) (by simp only [List.length_cons] at hk'; omega)
  | escape x bs _ ih =>
    intro k fuel k' hd ht hk hf hk'
    have hlt := lt_of_drop_cons hd
    have hd1 : input.drop (k + 1) = x :: (bs ++ tail) := drop_succ_of_cons hd
    have hlt1 := lt_of_drop_cons hd1
    obtain ⟨n, rfl⟩ : ∃ n, fuel = n + 1 := ⟨fuel - 1, by omega⟩
    have hstep : quoteBody q (cursor input k) = .ok (.next (cursor input (k + 1 + 1))) := by
      unfold quoteBody
      rw [peek_cursor, hd]
      simp only [ok_bind, List.cons_append, List.headD_cons]
      rw [if_pos (Ne.symm hq), if_pos (by decide), if_pos trivial, consume_cursor input k 92 _ hd]
      simp only [ok_bind]
      rw [consume_cursor input (k + 1) x _ hd1]; rfl
    rw [loop_next n hstep]
    exact ih (k + 1 + 1) n k' (drop_succ_of_cons hd1) ht
      (by omega) (by omega) (by simp only [List.length_cons] at hk'; omega)

theorem prop_exact (input : List Nat) (fuel : Nat) (hfuel : input.length < fuel)
    (bs tail : List Nat) (hb : PropRun bs) :
    ∀ (k fuel' k' : Nat), input.drop k = bs ++ tail →
      (tail.headD 0 = 0 ∨ isWS (tail.headD 0) = true ∨ tail.headD 0 = 58) →
      k ≤ input.length → input.length < fuel' + k → k' = k + bs.length →
      loop (propBody fuel) fuel' (cursor input k) = .ok (cursor input k') := by
  induction hb with
  | nil =>
    intro k fuel' k' hd ht hk hf hk'
    obtain ⟨n, rfl⟩ : ∃ n, fuel' = n + 1 := ⟨fuel' - 1, by omega⟩
    simp only [List.length_nil, Nat.add_zero] at hk'
    subst hk'
    apply loop_done
    unfold propBody
    rw [peek_cursor, hd]
    simp only [ok_bind, List.nil_append]
    rw [if_pos ht]; rfl
  | plain b bs hb1 hb2 hb3 hb4 _ ih =>
    intro k fuel' k' hd ht hk hf hk'
    have hlt := lt_of_drop_cons hd
    obtain ⟨n, rfl⟩ : ∃ n, fuel' = n + 1 := ⟨fuel' - 1, by omega⟩
    have hstep : propBody fuel (cursor input k) = .ok (.next (cursor input (k + 1))) := by
      unfold propBody
      rw [peek_cursor, hd]
      simp only [ok_bind, List.cons_append, List.headD_cons]
      rw [if_neg (by simp [hb1, hb2, hb3]), if_neg hb4, consume_cursor input k b _ hd]; rfl
    rw [loop_next n hstep]
    exact ih (k + 1) n k' (drop_succ_of_cons hd) ht
      (by omega) (by omega) (by simp only [List.length_cons] at hk'; omega)
  | bracket body bs hbody _ ih =>
    intro k fuel' k' hd ht hk hf hk'
    have hlt := lt_of_drop_cons hd
    obtain ⟨n, rfl⟩ : ∃ n, fuel' = n + 1 := ⟨fuel' - 1, by omega⟩
    have hd1 : input.drop (k + 1) = body ++ (93 :: (bs ++ tail)) := by
      rw [drop_succ_of_cons hd]; simp
    have hd2 : input.drop (k + 1 + body.length) = 93 :: (bs ++ tail) := drop_of_append hd1
    have hle2 := le_of_drop_append hd1 (by omega)
    have hlt2 := lt_of_drop_cons hd2
    have hstep : propBody fuel (cursor input k) =
        .ok (.next (cursor input (k + 1 + body.length + 1))) := by
      unfold propBody
      rw [peek_cursor, hd]
      simp only [ok_bind, List.cons_append, List.headD_cons]
      rw [if_neg (by decide), if_pos trivial, consume_cursor input k 91 _ hd]
      simp only [ok_bind]
      rw [skipTo_exact input 93 body _ (k + 1) fuel (k + 1 + body.length) hd1 hbody
        (Or.inl rfl) (by omega) (by omega) rfl]
      simp only [ok_bind]
      rw [consumeIf_hit input 93 _ _ hd2]; rfl
    rw [loop_next n hstep]
    refine ih (k + 1 + body.length + 1) n k' (drop_succ_of_cons hd2) ht
      (by omega) (by omega) ?_
    simp only [List.length_cons, List.length_append] at hk'
    omega

theorem value_exact (input : List Nat) (fuel : Nat) (hfuel : input.length < fuel)
    (bs tail : List Nat) (hb : ValRun bs) :
    ∀ (k fuel' k' : Nat), input.drop k = bs ++ tail →
      (tail.headD 0 = 0 ∨ tail.headD 0 = 59 ∨ tail.headD 0 = 125) →
      k ≤ input.length → input.length < fuel' + k → k' = k + bs.length →
      loop (valueBody fuel) fuel' (cursor input k) = .ok (cursor input k') := by
  induction hb with
  | nil =>
    intro k fuel' k' hd ht hk hf hk'
    obtain ⟨n, rfl⟩ : ∃ n, fuel' = n + 1 := ⟨fuel' - 1, by omega⟩
    simp only [List.length_nil, Nat.add_zero] at hk'
    subst hk'
    apply loop_done
    unfold valueBody
    rw [peek_cursor, hd]
    simp only [ok_bind, List.nil_append]
    rw [if_pos ht]; rfl
  | plain b bs hb1 hb2 hb3 hb4 hb5 hb6 _ ih =>
    intro k fuel' k' hd ht hk hf hk'
    have hlt := lt_of_drop_cons hd
    obtain ⟨n, rfl⟩ : ∃ n, fuel' = n + 1 := ⟨fuel' - 1, by omega⟩
    have hstep : valueBody fuel (cursor input k) = .ok (.next (cursor input (k + 1))) := by
      unfold valueBody
      rw [peek_cursor, hd]
      simp only [ok_bind, List.cons_append, List.headD_cons]
      rw [if_neg (by simp [hb1, hb2, hb3]), if_neg (by simp [hb4, hb5]), if_neg hb6,
        consume_cursor input k b _ hd]; rfl
    rw [loop_next n hstep]
    exact ih (k + 1) n k' (drop_succ_of_cons hd) ht
      (by omega) (by omega) (by simp only [List.length_cons] at hk'; omega)
  | quoted q body bs hq hbody _ ih =>
    intro k fuel' k' hd ht hk hf hk'
    have hlt := lt_of_drop_cons hd
    obtain ⟨n, rfl⟩ : ∃ n, fuel' = n + 1 := ⟨fuel' - 1, by omega⟩
    have hd1 : input.drop (k + 1) = body ++ (q :: (bs ++ tail)) := by
      rw [drop_succ_of_cons hd]; simp
    have hd2 : input.drop (k + 1 + body.length) = q :: (bs ++ tail) := drop_of_append hd1
    have hle2 := le_of_drop_append hd1 (by omega)
    have hlt2 := lt_of_drop_cons hd2
    have hstep : valueBody fuel (cursor input k) =
        .ok (.next (cursor input (k + 1 + body.length + 1))) := by
      unfold valueBody
      rw [peek_cursor, hd]
      simp only [ok_bind, List.cons_append, List.headD_cons]
      rw [if_neg (by rcases hq with rfl | rfl <;> decide), if_pos hq,
        consume_cursor input k q _ hd]
      simp only [ok_bind]
      rw [quote_exact input q (by rcases hq with rfl | rfl <;> decide) body _ hbody (k + 1) fuel
        (k + 1 + body.length) hd1 (Or.inl rfl) (by omega) (by omega) rfl]
      simp only [ok_bind]
      rw [consumeIf_hit input q _ _ hd2]; rfl
    rw [loop_next n hstep]
    refine ih (k + 1 + body.length + 1) n k' (drop_succ_of_cons hd2) ht
      (by omega) (by omega) ?_
    simp only [List.length_cons, List.length_append] at hk'
    omega
  | paren t bs hbody _ ih =>
    intro k fuel' k' hd ht hk hf hk'
    have hlt := lt_of_drop_cons hd
    obtain ⟨n, rfl⟩ : ∃ n, fuel' = n + 1 := ⟨fuel' - 1, by omega⟩
    have hd1 : input.drop (k + 1) = t ++ (41 :: (bs ++ tail)) := by
      rw [drop_succ_of_cons hd]; simp
    have hd2 : input.drop (k + 1 + t.length) = 41 :: (bs ++ tail) := drop_of_append hd1
    have hle2 := le_of_drop_append hd1 (by omega)
    have hlt2 := lt_of_drop_cons hd2
    have hstep : valueBody fuel (cursor input k) =
        .ok (.next (cursor input (k + 1 + t.length + 1))) := by
      unfold valueBody
      rw [peek_cursor, hd]
      simp only [ok_bind, List.cons_append, List.headD_cons]
      rw [if_neg (by decide), if_neg (by decide), if_pos trivial, consume_cursor input k 40 _ hd]
      simp only [ok_bind]
      rw [skipTo_exact input 41 t _ (k + 1) fuel (k + 1 + t.length) hd1 hbody
        (Or.inl rfl) (by omega) (by omega) rfl]
      simp only [ok_bind]
      rw [consumeIf_hit input 41 _ _ hd2]; rfl
    rw [loop_next n hstep]
    refine ih (k + 1 + t.length + 1) n k' (drop_succ_of_cons hd2) ht
      (by omega) (by omega) ?_
    simp only [List.length_cons, List.length_append] at hk'
    omega

/-! ## `TrimSpace` on a span with ASCII non-space ends -/

theorem TrimSpace_nil : TrimSpace [] = [] := by decide

theorem getD_zero_eq_head {s : List Nat} {c : Nat} (h : s.head? = some c) : s.getD 0 0 = c := by
  cases s with
  | nil => simp at h
  | cons a t => simp at h; simp [h]

theorem getD_last_eq_getLast {s : List Nat} {c : Nat} (h : s.getLast? = some c) :
    s.getD (s.length - 1) 0 = c := by
  have hne : s ≠ [] := by
    intro hc; subst hc; simp at h
  rw [List.getLast?_eq_getLast _ hne] at h
  simp only [Option.some.injEq] at h
  rw [List.getLast_eq_getElem] at h
  rw [List.getD_eq_getElem?_getD, List.getElem?_eq_getElem (by
    have := List.length_pos.2 hne; omega)]
  simpa using h

/-- A non-empty span whose first and last bytes are ASCII and not in the table
`asciiSpace` is returned unchanged by `TrimSpace`. -/
theorem TrimSpace_eq_self (s : List Nat) (c d : Nat) (hh : s.head? = some c)
    (hl : s.getLast? = some d) (hc : c < 128 ∧ asciiSpace c = false)
    (hd : d < 128 ∧ asciiSpace d = false) : TrimSpace s = s := by
  have hne : s ≠ [] := by
    intro hc; subst hc; simp at hh
  have hpos : 0 < s.length := List.length_pos.2 hne
  have h0 := getD_zero_eq_head hh
  have h1 := getD_last_eq_getLast hl
  have hs1 : trimSpaceStart s (s.length + 1) 0 = .inr 0 := by
    unfold trimSpaceStart
    simp only [hpos, if_true, h0, RuneSelf]
    rw [if_neg (by omega), if_pos hc.2]
  have hs2 : trimSpaceStop s 0 (s.length + 1) s.length = .inr s.length := by
    unfold trimSpaceStop
    simp only [gt_iff_lt, hpos, if_true, h1, RuneSelf]
    rw [if_neg (by omega), if_pos hd.2]
  unfold TrimSpace
  rw [hs1]
  simp only [hs2]
  rw [if_neg (by omega)]
  simp

theorem slice_of_drop (input : List Nat) (a : Nat) (x y : List Nat)
    (h : input.drop a = x ++ y) (b : Nat) (hb : b = a + x.length) :
    (input.take b).drop a = x := by
  subst hb
  rw [List.drop_take, h]
  simp

/-! ## `parseDeclaration`, exactly -/

/-- The reader on a declaration: after optional whitespace `w0` and an optional
`*` (`s`), a property `P` that the property loop passes over, a colon,
whitespace `w1`, a value `V` that the value loop passes over, and an optional
`;` (`t`).  It returns the node of the trimmed spans `P` and `V`, positioned
from the offset of the call to the offset after `t`. -/
theorem decl_exact (input : List Nat) (fuel : Nat) (hfuel : input.length < fuel)
    (k : Nat) (hk : k ≤ input.length) (w0 s P w1 V t tail : List Nat)
    (hd : input.drop k = w0 ++ (s ++ (P ++ 58 :: (w1 ++ (V ++ (t ++ tail))))))
    (hw0 : ∀ b ∈ w0, isWS b = true)
    (hs : s = [42] ∨ (s = [] ∧ (P ++ [58]).headD 0 ≠ 42))
    (hhead : isWS ((s ++ (P ++ [58])).headD 0) = false)
    (hP : PropRun P) (hw1 : ∀ b ∈ w1, isWS b = true) (hV : ValRun V)
    (hVh : isWS ((V ++ (t ++ tail)).headD 0) = false)
    (ht : t = [59] ∨ (t = [] ∧ (tail.headD 0 = 0 ∨ tail.headD 0 = 125)))
    (k' : Nat)
    (hk' : k' = k + w0.length + s.length + P.length + 1 + w1.length + V.length + t.length) :
    (cursor input k).parseDeclaration fuel =
      .ok (some { Property := TrimSpace P, Value := TrimSpace V,
                  Position := { Start := posOf input k, End := posOf input k' } },
           cursor input k') := by
  -- offsets of the successive stages
  have d1 : input.drop (k + w0.length) = s ++ (P ++ 58 :: (w1 ++ (V ++ (t ++ tail)))) :=
    drop_of_append hd
  have l1 := le_of_drop_append hd hk
  have d2 : input.drop (k + w0.length + s.length) = P ++ 58 :: (w1 ++ (V ++ (t ++ tail))) :=
    drop_of_append d1
  have l2 := le_of_drop_append d1 l1
  have d3 : input.drop (k + w0.length + s.length + P.length) =
      58 :: (w1 ++ (V ++ (t ++ tail))) := drop_of_append d2
  have l3 := le_of_drop_append d2 l2
  have l4 := lt_of_drop_cons d3
  have d4 : input.drop (k + w0.length + s.length + P.length + 1) =
      w1 ++ (V ++ (t ++ tail)) := drop_succ_of_cons d3
  have d5 : input.drop (k + w0.length + s.length + P.length + 1 + w1.length) =
      V ++ (t ++ tail) := drop_of_append d4
  have l5 := le_of_drop_append d4 (by omega)
  have d6 : input.drop (k + w0.length + s.length + P.length + 1 + w1.length + V.length) =
      t ++ tail := drop_of_append d5
  have l6 := le_of_drop_append d5 l5
  have d7 : input.drop k' = tail := by rw [hk']; exact drop_of_append d6
  have l7 : k' ≤ input.length := by rw [hk']; exact le_of_drop_append d6 l6
  -- the stages
  have e1 : (cursor input k).skipWhitespace fuel = .ok (cursor input (k + w0.length)) := by
    refine skipWhitespace_exact input w0 _ k fuel hd hw0 ?_ hk (by omega)
    rcases hs with rfl | ⟨rfl, _⟩
    · rfl
    · cases P with
      | nil => rfl
      | cons a P => simpa using hhead
  have e2 : consumeIf 42 (cursor input (k + w0.length)) =
      .ok (cursor input (k + w0.length + s.length)) := by
    rcases hs with rfl | ⟨rfl, hne⟩
    · exact consumeIf_hit input 42 _ _ d1
    · refine consumeIf_miss input 42 _ ?_
      rw [d1]
      cases P with
      | nil => simp
      | cons a P => simpa using hne
  have e3 : loop (propBody fuel) fuel (cursor input (k + w0.length + s.length)) =
      .ok (cursor input (k + w0.length + s.length + P.length)) :=
    prop_exact input fuel hfuel P _ hP _ fuel _ d2 (Or.inr (Or.inr rfl)) l2 (by omega) rfl
  have e4 : (cursor input (k + w0.length + s.length + P.length)).consume =
      .ok (58, cursor input (k + w0.length + s.length + P.length + 1)) :=
    consume_cursor input _ 58 _ d3
  have e5 : (cursor input (k + w0.length + s.length + P.length + 1)).skipWhitespace fuel =
      .ok (cursor input (k + w0.length + s.length + P.length + 1 + w1.length)) :=
    skipWhitespace_exact input w1 _ _ fuel d4 hw1 hVh (by omega) (by omega)
  have hstop : (t ++ tail).headD 0 = 0 ∨ (t ++ tail).headD 0 = 59 ∨ (t ++ tail).headD 0 = 125 := by
    rcases ht with rfl | ⟨rfl, h | h⟩
    · exact Or.inr (Or.inl rfl)
    · exact Or.inl h
    · exact Or.inr (Or.inr h)
  have e6 : loop (valueBody fuel) fuel
      (cursor input (k + w0.length + s.length + P.length + 1 + w1.length)) =
      .ok (cursor input (k + w0.length + s.length + P.length + 1 + w1.length + V.length)) :=
    value_exact input fuel hfuel V _ hV _ fuel _ d5 hstop l5 (by omega) rfl
  have e7 : (cursor input
      (k + w0.length + s.length + P.length + 1 + w1.length + V.length)).skipWhitespace fuel =
      .ok (cursor input (k + w0.length + s.length + P.length + 1 + w1.length + V.length)) := by
    have := skipWhitespace_exact input [] (t ++ tail) _ fuel d6 (by simp) (by
      rcases hstop with h | h | h <;> rw [h] <;> rfl) l6 (by omega)
    simpa using this
  have e8 : consumeIf 59
      (cursor input (k + w0.length + s.length + P.length + 1 + w1.length + V.length)) =
      .ok (cursor input k') := by
    rcases ht with rfl | ⟨rfl, h⟩
    · rw [hk']; exact consumeIf_hit input 59 _ _ d6
    · have : k' = k + w0.length + s.length + P.length + 1 + w1.length + V.length := by
        rw [hk']; simp
      rw [this]
      refine consumeIf_miss input 59 _ ?_
      rw [d6]
      rcases h with h | h <;> simp only [List.nil_append] <;> rw [h] <;> decide
  have s1 : slice input (k + w0.length + s.length) (k + w0.length + s.length + P.length) =
      .ok P := by
    rw [slice_cursor input _ _ (by omega) l3, slice_of_drop input _ P _ d2 _ rfl]
  have s2 : slice input (k + w0.length + s.length + P.length + 1 + w1.length)
      (k + w0.length + s.length + P.length + 1 + w1.length + V.length) = .ok V := by
    rw [slice_cursor input _ _ (by omega) l6, slice_of_drop input _ V _ d5 _ rfl]
  unfold Parser.parseDeclaration
  rw [e1]; simp only [ok_bind]; rw [e2]; simp only [ok_bind]; rw [e3]; simp only [ok_bind]
  rw [peek_cursor, d3]; simp only [ok_bind, List.headD_cons]
  rw [if_neg (by simp)]
  have s1' : slice (cursor input (k + w0.length + s.length + P.length)).input
      (cursor input (k + w0.length + s.length)).pos
      (cursor input (k + w0.length + s.length + P.length)).pos = .ok P := s1
  rw [s1']; simp only [ok_bind]; rw [e4]; simp only [ok_bind]; rw [e5]; simp only [ok_bind]
  rw [e6]; simp only [ok_bind]
  have s2' : slice
      (cursor input (k + w0.length + s.length + P.length + 1 + w1.length + V.length)).input
      (cursor input (k + w0.length + s.length + P.length + 1 + w1.length)).pos
      (cursor input (k + w0.length + s.length + P.length + 1 + w1.length + V.length)).pos =
      .ok V := s2
  rw [s2']; simp only [ok_bind]; rw [e7]; simp only [ok_bind]; rw [e8]; rfl

/-- The reader on a token without a colon: after an optional `*` (`s`), bytes `g`
that the property loop passes over, followed by whitespace, NUL or the end of
input.  It returns no node and leaves the cursor after the token. -/
theorem decl_fail (input : List Nat) (fuel : Nat) (hfuel : input.length < fuel)
    (k : Nat) (hk : k ≤ input.length) (s g tail : List Nat)
    (hd : input.drop k = s ++ (g ++ tail))
    (hs : s = [42] ∨ (s = [] ∧ (g ++ tail).headD 0 ≠ 42))
    (hhead : isWS ((s ++ (g ++ tail)).headD 0) = false)
    (hg : PropRun g)
    (ht : tail.headD 0 = 0 ∨ isWS (tail.headD 0) = true)
    (k' : Nat) (hk' : k' = k + s.length + g.length) :
    (cursor input k).parseDeclaration fuel = .ok (none, cursor input k') := by
  have d1 : input.drop (k + s.length) = g ++ tail := drop_of_append hd
  have l1 := le_of_drop_append hd hk
  have d2 : input.drop (k + s.length + g.length) = tail := drop_of_append d1
  have l2 := le_of_drop_append d1 l1
  have e1 : (cursor input k).skipWhitespace fuel = .ok (cursor input k) := by
    have := skipWhitespace_exact input [] _ k fuel hd (by simp) hhead hk (by omega)
    simpa using this
  have e2 : consumeIf 42 (cursor input k) = .ok (cursor input (k + s.length)) := by
    rcases hs with rfl | ⟨rfl, hne⟩
    · exact consumeIf_hit input 42 _ _ hd
    · refine consumeIf_miss input 42 _ ?_
      rw [hd]; simpa using hne
  have e3 : loop (propBody fuel) fuel (cursor input (k + s.length)) =
      .ok (cursor input (k + s.length + g.length)) :=
    prop_exact input fuel hfuel g _ hg _ fuel _ d1
      (by rcases ht with h | h
          · exact Or.inl h
          · exact Or.inr (Or.inl h)) l1 (by omega) rfl
  unfold Parser.parseDeclaration
  rw [e1]; simp only [ok_bind]; rw [e2]; simp only [ok_bind]; rw [e3]; simp only [ok_bind]
  rw [peek_cursor, d2]; simp only [ok_bind]
  have hne : tail.headD 0 ≠ 58 := by
    rcases ht with h | h
    · rw [h]; decide
    · intro hc; rw [hc] at h; exact absurd h (by decide)
  rw [if_pos hne, hk']; rfl

/-! ## The driver, exactly -/

theorem Piece.text_ne_nil (next : List Nat) (pc : Piece) (h : PieceOk next pc) :
    pc.text ≠ [] := by
  cases pc with
  | decl s P w1 V t => simp [Piece.text]
  | junk s g => exact h.2.2.1

theorem Piece.text_head (next : List Nat) (pc : Piece) (h : PieceOk next pc) :
    isWS ((pc.text ++ next).headD 0) = false := by
  cases pc with
  | decl s P w1 V t =>
    have := h.2.1
    cases s with
    | nil =>
      cases P with
      | nil => rfl
      | cons a P => simpa [Piece.text] using this
    | cons a s => simpa [Piece.text] using this
  | junk s g =>
    have := h.2.1
    simpa [Piece.text, List.append_assoc] using this

theorem render_head (items : List (Piece × List Nat)) (h : ItemsOk items) :
    isWS ((render items).headD 0) = false := by
  cases items with
  | nil => rfl
  | cons x rest =>
    obtain ⟨pc, ws⟩ := x
    exact Piece.text_head _ pc h.2.1

theorem drive_exact (input : List Nat) (fuel : Nat) (hfuel : input.length < fuel) :
    ∀ (items : List (Piece × List Nat)) (k : Nat) (out : List Node) (fuel' : Nat)
      (w : List Nat), input.drop k = w ++ render items → (∀ b ∈ w, isWS b = true) →
      ItemsOk items → k ≤ input.length → input.length < fuel' + k →
      loop (parseBody fuel) fuel' (cursor input k, out) =
        .ok (cursor input input.length, out ++ expectedNodes input (k + w.length) items) := by
  intro items
  induction items with
  | nil =>
    intro k out fuel' w hd hw _ hk hf
    obtain ⟨n, rfl⟩ : ∃ n, fuel' = n + 1 := ⟨fuel' - 1, by omega⟩
    simp only [render, List.append_nil] at hd
    have hlen : k + w.length = input.length := by
      have := congrArg List.length hd
      simp only [List.length_drop] at this
      omega
    apply loop_done
    unfold parseBody
    by_cases hlt : k < input.length
    · have hc : (cursor input k, out).1.pos < (cursor input k, out).1.length := hlt
      rw [if_pos hc]
      simp only []
      rw [skipWhitespace_exact input w [] k fuel (by simpa using hd) hw rfl hk (by omega)]
      simp only [ok_bind]
      have hc' : (cursor input (k + w.length)).pos ≥ (cursor input (k + w.length)).length := by
        simp only [cursor]; omega
      rw [if_pos hc', hlen]
      simp [expectedNodes]
    · have hc : ¬ (cursor input k, out).1.pos < (cursor input k, out).1.length := hlt
      rw [if_neg hc]
      have : k = input.length := by omega
      subst this
      simp [expectedNodes]
  | cons x rest ih =>
    obtain ⟨pc, ws⟩ := x
    intro k out fuel' w hd hw hok hk hf
    obtain ⟨hws, hpc, hrest⟩ := hok
    obtain ⟨n, rfl⟩ : ∃ n, fuel' = n + 1 := ⟨fuel' - 1, by omega⟩
    simp only [render] at hd
    have d1 : input.drop (k + w.length) = pc.text ++ (ws ++ render rest) := drop_of_append hd
    have l1 := le_of_drop_append hd hk
    have d2 : input.drop (k + w.length + pc.text.length) = ws ++ render rest :=
      drop_of_append d1
    have l2 := le_of_drop_append d1 l1
    have htext := Piece.text_ne_nil _ pc hpc
    have hpos : 0 < pc.text.length := List.length_pos.2 htext
    have hlt : k < input.length := by omega
    have hc : (cursor input k, out).1.pos < (cursor input k, out).1.length := hlt
    have e1 : (cursor input k).skipWhitespace fuel = .ok (cursor input (k + w.length)) :=
      skipWhitespace_exact input w _ k fuel hd hw (Piece.text_head _ pc hpc) hk (by omega)
    have hc' : ¬ (cursor input (k + w.length)).pos ≥ (cursor input (k + w.length)).length := by
      simp only [cursor]; omega
    cases pc with
    | decl s P w1 V t =>
      obtain ⟨hs, hhead, hP, hw1, hV, hVh, ht⟩ := hpc
      have hdd : input.drop (k + w.length) =
          [] ++ (s ++ (P ++ 58 :: (w1 ++ (V ++ (t ++ (ws ++ render rest)))))) := by
        rw [d1]; simp [Piece.text]
      have e2 := decl_exact input fuel hfuel (k + w.length) l1 [] s P w1 V t (ws ++ render rest)
        hdd (by simp) hs hhead hP hw1 hV hVh ht
        (k + w.length + (Piece.decl s P w1 V t).text.length)
        (by simp [Piece.text]; omega)
      have hstep : parseBody fuel (cursor input k, out) =
          .ok (.next (cursor input (k + w.length + (Piece.decl s P w1 V t).text.length),
            out ++ (Piece.decl s P w1 V t).nodes input (k + w.length))) := by
        unfold parseBody
        rw [if_pos hc]
        simp only []
        rw [e1]; simp only [ok_bind]
        rw [if_neg hc', e2]; rfl
      rw [loop_next n hstep]
      rw [ih _ _ n ws d2 hws hrest l2 (by omega)]
      simp [expectedNodes, List.append_assoc]
    | junk s g =>
      obtain ⟨hs, hhead, _, hg, hnext⟩ := hpc
      have hdd : input.drop (k + w.length) = s ++ (g ++ (ws ++ render rest)) := by
        rw [d1]; simp [Piece.text]
      have e2 := decl_fail input fuel hfuel (k + w.length) l1 s g (ws ++ render rest)
        hdd hs hhead hg
        (by rcases hnext with h | h
            · rw [h]; exact Or.inl rfl
            · exact Or.inr h)
        (k + w.length + (Piece.junk s g).text.length)
        (by simp [Piece.text]; omega)
      cases hws' : ws with
      | nil =>
        subst hws'
        have hr : render rest = [] := by
          rcases hnext with h | h
          · simpa using h
          · have := render_head rest hrest
            simp only [List.nil_append] at h
            rw [h] at this; exact absurd this (by decide)
        have d2' : input.drop (k + w.length + (Piece.junk s g).text.length) = [] := by
          rw [d2, hr]; rfl
        have hstep : parseBody fuel (cursor input k, out) =
            .ok (.next (cursor input (k + w.length + (Piece.junk s g).text.length), out)) := by
          unfold parseBody
          rw [if_pos hc]
          simp only []
          rw [e1]; simp only [ok_bind]
          rw [if_neg hc', e2]; simp only [ok_bind]
          rw [consume_cursor_end input _ d2']; rfl
        rw [loop_next n hstep]
        rw [ih _ _ n [] (by rw [d2]) (by simp) hrest l2 (by omega)]
        simp [expectedNodes, Piece.nodes]
      | cons b ws' =>
        subst hws'
        have d2' : input.drop (k + w.length + (Piece.junk s g).text.length) =
            b :: (ws' ++ render rest) := by rw [d2]; rfl
        have l3 := lt_of_drop_cons d2'
        have hstep : parseBody fuel (cursor input k, out) =
            .ok (.next (cursor input (k + w.length + (Piece.junk s g).text.length + 1),
              out)) := by
          unfold parseBody
          rw [if_pos hc]
          simp only []
          rw [e1]; simp only [ok_bind]
          rw [if_neg hc', e2]; simp only [ok_bind]
          rw [consume_cursor input _ b _ d2']; rfl
        rw [loop_next n hstep]
        rw [ih _ _ n ws' (drop_succ_of_cons d2') (fun x hx => hws x (by simp [hx])) hrest
          (by omega) (by omega)]
        have hoff : k + w.length + (Piece.junk s g).text.length + 1 + ws'.length =
            k + w.length + (Piece.junk s g).text.length + (ws'.length + 1) := by omega
        simp only [expectedNodes, Piece.nodes, List.nil_append, List.length_cons, hoff]

/-- The nodes `Parse` returns on whitespace followed by a sequence of pieces. -/
theorem Parse_layout (w : List Nat) (items : List (Piece × List Nat))
    (hw : ∀ b ∈ w, isWS b = true) (hok : ItemsOk items) :
    Parse (w ++ render items) =
      .ok (expectedNodes (w ++ render items) w.length items, none) := by
  unfold Parse ParseFuel
  rw [NewParser_eq]
  simp only []
  rw [drive_exact (w ++ render items) _ (Nat.lt_succ_self _) items 0 [] _ w (by simp) hw hok
    (Nat.zero_le _) (by omega)]
  simp

/-! ## Well-formed properties and values are passed over and kept by the trim -/

theorem isWS_false_of_ge {b : Nat} (h : 33 ≤ b) : isWS b = false := by
  simp [isWS]; omega

theorem asciiSpace_false_of_ge {b : Nat} (h : 33 ≤ b) : asciiSpace b = false := by
  simp [asciiSpace]; omega

theorem PropRun_of_plain (p : List Nat)
    (h : ∀ b ∈ p, b ≠ 0 ∧ isWS b = false ∧ b ≠ 58 ∧ b ≠ 91) : PropRun p := by
  induction p with
  | nil => exact PropRun.nil
  | cons b p ih =>
    obtain ⟨h1, h2, h3, h4⟩ := h b (by simp)
    exact PropRun.plain b p h1 h2 h3 h4 (ih (fun x hx => h x (by simp [hx])))

theorem PropRun_append {a b : List Nat} (ha : PropRun a) (hb : PropRun b) :
    PropRun (a ++ b) := by
  induction ha with
  | nil => simpa using hb
  | plain x xs h1 h2 h3 h4 _ ih => exact PropRun.plain x _ h1 h2 h3 h4 ih
  | bracket body xs hbody _ ih =>
    have := PropRun.bracket body _ hbody ih
    simpa [List.append_assoc] using this

theorem ValRun_of_plain (v : List Nat)
    (h : ∀ b ∈ v, b ≠ 0 ∧ b ≠ 59 ∧ b ≠ 125 ∧ b ≠ 34 ∧ b ≠ 39 ∧ b ≠ 40) : ValRun v := by
  induction v with
  | nil => exact ValRun.nil
  | cons b v ih =>
    obtain ⟨h1, h2, h3, h4, h5, h6⟩ := h b (by simp)
    exact ValRun.plain b v h1 h2 h3 h4 h5 h6 (ih (fun x hx => h x (by simp [hx])))

theorem WellFormedProp.propRun {p : List Nat} (h : WellFormedProp p) : PropRun p :=
  PropRun_of_plain p (fun b hb => by
    obtain ⟨h1, h2, h3, h4⟩ := h.2.1 b hb
    exact ⟨by omega, isWS_false_of_ge h1, h3, h4⟩)

theorem WellFormedVal.valToRun {v : List Nat} (h : WellFormedVal v) : ValRun v :=
  ValRun_of_plain v (fun b hb => by
    obtain ⟨h1, h2, h3, h4, h5, h6, h7⟩ := h.2.1 b hb
    exact ⟨by omega, h3, h4, h5, h6, h7⟩)

theorem head_mem {s : List Nat} {c : Nat} (h : s.head? = some c) : c ∈ s := by
  cases s with
  | nil => simp at h
  | cons a t => simp at h; simp [h]

theorem exists_head_last {s : List Nat} (h : s ≠ []) :
    ∃ c d, s.head? = some c ∧ s.getLast? = some d := by
  cases s with
  | nil => exact absurd rfl h
  | cons a t => exact ⟨a, (a :: t).getLast (by simp), rfl, List.getLast?_eq_getLast _ (by simp)⟩

/-- A non-empty span of bytes whose first and last bytes are printable ASCII
(0x21-0x7E) is kept whole by `TrimSpace`. -/
theorem TrimSpace_of_ends (s : List Nat) (c d : Nat) (hh : s.head? = some c)
    (hl : s.getLast? = some d) (hc : 33 ≤ c ∧ c ≤ 126) (hd : 33 ≤ d ∧ d ≤ 126) :
    TrimSpace s = s :=
  TrimSpace_eq_self s c d hh hl ⟨by omega, asciiSpace_false_of_ge hc.1⟩
    ⟨by omega, asciiSpace_false_of_ge hd.1⟩

theorem WellFormedProp.propTrim {p : List Nat} (h : WellFormedProp p) : TrimSpace p = p := by
  obtain ⟨c, d, hc, hd⟩ := exists_head_last h.1
  have h1 := h.2.1 c (head_mem hc)
  have h2 := h.2.1 d (List.mem_of_getLast?_eq_some hd)
  exact TrimSpace_of_ends p c d hc hd ⟨h1.1, h1.2.1⟩ ⟨h2.1, h2.2.1⟩

theorem WellFormedVal.valTrim {v : List Nat} (h : WellFormedVal v) : TrimSpace v = v := by
  obtain ⟨c, d, hc, hd⟩ := exists_head_last h.1
  have h1 := h.2.1 c (head_mem hc)
  have h2 := h.2.1 d (List.mem_of_getLast?_eq_some hd)
  have hc' : c ≠ 32 := fun e => h.2.2.1 (by rw [hc, e])
  have hd' : d ≠ 32 := fun e => h.2.2.2 (by rw [hd, e])
  exact TrimSpace_of_ends v c d hc hd ⟨by omega, h1.2.1⟩ ⟨by omega, h2.2.1⟩

theorem WellFormedProp.propHead {p : List Nat} (h : WellFormedProp p) (rest : List Nat) :
    (p ++ rest).headD 0 ≠ 42 ∧ isWS ((p ++ rest).headD 0) = false := by
  cases p with
  | nil => exact absurd rfl h.1
  | cons a t =>
    have h1 := h.2.1 a (by simp)
    have h2 : a ≠ 42 := fun e => h.2.2 (by simp [e])
    exact ⟨by simpa using h2, by simpa using isWS_false_of_ge h1.1⟩

theorem WellFormedVal.valHead {v : List Nat} (h : WellFormedVal v) (rest : List Nat) :
    isWS ((v ++ rest).headD 0) = false := by
  cases v with
  | nil => exact absurd rfl h.1
  | cons a t =>
    have h1 := h.2.1 a (by simp)
    have h2 : a ≠ 32 := fun e => h.2.2.1 (by simp [e])
    simpa using isWS_false_of_ge (by omega : 33 ≤ a)

/-- A well-formed segment is a piece the reader accepts, whatever follows. -/
theorem segment_ok (p v next : List Nat) (hp : WellFormedProp p) (hv : WellFormedVal v) :
    PieceOk next (Piece.decl [] p [32] v [59]) := by
  refine ⟨Or.inr ⟨rfl, (hp.propHead [58]).1⟩, ?_, hp.propRun, ?_, hv.valToRun, hv.valHead _, Or.inl rfl⟩
  · simpa using (hp.propHead [58]).2
  · intro b hb
    simp only [List.mem_singleton] at hb
    subst hb; rfl

theorem segment_text (p v : List Nat) :
    (Piece.decl [] p [32] v [59]).text = segment p v := by
  simp [Piece.text, segment]

/-! ## Inputs made of well-formed segments -/

theorem render_segmentItems (segs : List (List Nat × List Nat × List Nat)) :
    render (segmentItems segs) = segments segs := by
  induction segs with
  | nil => rfl
  | cons s rest ih =>
    obtain ⟨p, v, w⟩ := s
    simp only [segmentItems, List.map_cons, render, segments] at ih ⊢
    rw [ih, segment_text]
    simp [List.append_assoc]

theorem segmentItems_ok (segs : List (List Nat × List Nat × List Nat))
    (h : ∀ s ∈ segs, (∀ next, PieceOk next (Piece.decl [] s.1 [32] s.2.1 [59])) ∧
      IsWSRun s.2.2) : ItemsOk (segmentItems segs) := by
  induction segs with
  | nil => trivial
  | cons s rest ih =>
    obtain ⟨h1, h2⟩ := h s (by simp)
    exact ⟨h2, h1 _, ih (fun x hx => h x (by simp [hx]))⟩

theorem pairs_segmentItems (input : List Nat) (segs : List (List Nat × List Nat × List Nat))
    (h : ∀ s ∈ segs, TrimSpace s.1 = s.1 ∧ TrimSpace s.2.1 = s.2.1) :
    ∀ off, pairs (expectedNodes input off (segmentItems segs)) =
      segs.map (fun s => (s.1, s.2.1)) := by
  induction segs with
  | nil => intro off; rfl
  | cons s rest ih =>
    intro off
    obtain ⟨h1, h2⟩ := h s (by simp)
    have := ih (fun x hx => h x (by simp [hx]))
      (off + (Piece.decl [] s.1 [32] s.2.1 [59]).text.length + s.2.2.length)
    simp only [pairs, segmentItems, List.map_cons, expectedNodes, Piece.nodes,
      List.singleton_append, h1, h2] at this ⊢
    rw [this]

theorem spans_segmentItems (input : List Nat) (segs : List (List Nat × List Nat × List Nat)) :
    ∀ off, (expectedNodes input off (segmentItems segs)).map (fun n => n.Position) =
      expectedSpans input off segs := by
  induction segs with
  | nil => intro off; rfl
  | cons s rest ih =>
    intro off
    obtain ⟨p, v, w⟩ := s
    have := ih (off + (segment p v).length + w.length)
    simp only [segmentItems, List.map_cons, expectedNodes, Piece.nodes,
      List.singleton_append, expectedSpans, segment_text] at this ⊢
    rw [this]

theorem expectedSpans_ge_one (input : List Nat)
    (segs : List (List Nat × List Nat × List Nat)) :
    ∀ off, ∀ r ∈ expectedSpans input off segs,
      1 ≤ r.Start.Line ∧ 1 ≤ r.Start.Column ∧ 1 ≤ r.End.Line ∧ 1 ≤ r.End.Column := by
  induction segs with
  | nil => intro off r hr; simp [expectedSpans] at hr
  | cons s rest ih =>
    intro off r hr
    obtain ⟨p, v, w⟩ := s
    simp only [expectedSpans, List.mem_cons] at hr
    rcases hr with rfl | hr
    · exact ⟨(posOf_ge_one _ _).1, (posOf_ge_one _ _).2, (posOf_ge_one _ _).1,
        (posOf_ge_one _ _).2⟩
    · exact ih _ r hr

theorem WellFormedValLF.pieceOk (p v next : List Nat) (hp : WellFormedProp p)
    (hv : WellFormedValLF v) : PieceOk next (Piece.decl [] p [32] v [59]) := by
  have hrun : ValRun v := ValRun_of_plain v (fun b hb => by
    obtain ⟨h1, h3, h4, h5, h6, h7⟩ := hv.2.1 b hb
    exact ⟨by omega, h3, h4, h5, h6, h7⟩)
  have hhead : isWS ((v ++ ([59] ++ next)).headD 0) = false := by
    cases v with
    | nil => exact absurd rfl hv.1
    | cons a t =>
      have h1 := (hv.2.1 a (by simp)).1
      have h2 : a ≠ 32 := fun e => hv.2.2.1 (by simp [e])
      have h3 : a ≠ 10 := fun e => hv.2.2.2.1 (by simp [e])
      simpa using isWS_false_of_ge (by omega : 33 ≤ a)
  refine ⟨Or.inr ⟨rfl, (hp.propHead [58]).1⟩, ?_, hp.propRun, ?_, hrun, hhead, Or.inl rfl⟩
  · simpa using (hp.propHead [58]).2
  · intro b hb
    simp only [List.mem_singleton] at hb
    subst hb; rfl

/-- C3. Round trip on well-formed input: for every list of `N ≥ 0` segments
`p_i ++ ": " ++ v_i ++ ";"` with well-formed `p_i` and `v_i`, laid out after a
run `w0` of whitespace, each followed by a run `w_i` of whitespace (the runs may
be of any length, so in particular the separating runs may be any non-empty
runs, and the first and the last run may be empty), `Parse` returns exactly `N`
nodes, and the i-th node has `Property = p_i` and `Value = v_i`. -/
theorem C3_round_trip (w0 : List Nat) (segs : List (List Nat × List Nat × List Nat))
    (hw0 : IsWSRun w0)
    (hsegs : ∀ s ∈ segs, WellFormedProp s.1 ∧ WellFormedVal s.2.1 ∧ IsWSRun s.2.2) :
    ∃ nodes, Parse (w0 ++ segments segs) = .ok (nodes, none) ∧
      nodes.length = segs.length ∧ pairs nodes = segs.map (fun s => (s.1, s.2.1)) := by
  have hok : ItemsOk (segmentItems segs) := segmentItems_ok segs (fun s hs =>
    ⟨fun next => segment_ok s.1 s.2.1 next (hsegs s hs).1 (hsegs s hs).2.1, (hsegs s hs).2.2⟩)
  have hparse := Parse_layout w0 (segmentItems segs) hw0 hok
  rw [render_segmentItems] at hparse
  have hpairs := pairs_segmentItems (w0 ++ segments segs) segs
    (fun s hs => ⟨(hsegs s hs).1.propTrim, (hsegs s hs).2.1.valTrim⟩) w0.length
  refine ⟨_, hparse, ?_, hpairs⟩
  have := congrArg List.length hpairs
  simpa [pairs] using this

theorem C3_round_trip_witness :
    ∃ nodes, Parse (bytes " " ++ segments [(bytes "color", bytes "red", bytes " \n"),
        (bytes "font-size", bytes "16px 2:1", [])]) = .ok (nodes, none) ∧
      nodes.length = [(bytes "color", bytes "red", bytes " \n"),
        (bytes "font-size", bytes "16px 2:1", [])].length ∧
      pairs nodes = [(bytes "color", bytes "red", bytes " \n"),
        (bytes "font-size", bytes "16px 2:1", ([] : List Nat))].map (fun s => (s.1, s.2.1)) :=
  C3_round_trip (bytes " ") [(bytes "color", bytes "red", bytes " \n"),
    (bytes "font-size", bytes "16px 2:1", [])] (by decide) (by decide)

/-- C4. For every input that consists only of space, tab, carriage-return and
line-feed bytes (the empty input included), `Parse` returns an empty sequence of
nodes and a nil error. -/
theorem C4_whitespace_only (style : List Nat) (h : IsWSRun style) :
    Parse style = .ok ([], none) := by
  have := Parse_layout style [] h trivial
  simpa [render, expectedNodes] using this

theorem C4_whitespace_only_witness : Parse (bytes "   \n\t\r ") = .ok ([], none) :=
  C4_whitespace_only (bytes "   \n\t\r ") (by decide)

/-- C9. Position accuracy: with `posOf(k)` the pair of one plus the number of
line feeds in `input[0:k]` and one plus the number of bytes of `input[0:k]`
after its last line feed, for every input made of well-formed segments
`p_i ++ ": " ++ v_i ++ ";"` (the `v_i` may hold line feeds in their interior)
preceded, separated and followed by arbitrary runs of whitespace, the i-th node
returned by `Parse` has `Start = posOf(offset of the first byte of segment i)`
and `End = posOf(offset just after the ";" of segment i)`, and all lines and
columns are at least 1. -/
theorem C9_position_accuracy (w0 : List Nat) (segs : List (List Nat × List Nat × List Nat))
    (hw0 : IsWSRun w0)
    (hsegs : ∀ s ∈ segs, WellFormedProp s.1 ∧ WellFormedValLF s.2.1 ∧ IsWSRun s.2.2) :
    ∃ nodes, Parse (w0 ++ segments segs) = .ok (nodes, none) ∧
      nodes.map (fun n => n.Position) =
        expectedSpans (w0 ++ segments segs) w0.length segs ∧
      ∀ n ∈ nodes, 1 ≤ n.Position.Start.Line ∧ 1 ≤ n.Position.Start.Column ∧
        1 ≤ n.Position.End.Line ∧ 1 ≤ n.Position.End.Column := by
  have hok : ItemsOk (segmentItems segs) := segmentItems_ok segs (fun s hs =>
    ⟨fun next => WellFormedValLF.pieceOk s.1 s.2.1 next (hsegs s hs).1 (hsegs s hs).2.1,
      (hsegs s hs).2.2⟩)
  have hparse := Parse_layout w0 (segmentItems segs) hw0 hok
  rw [render_segmentItems] at hparse
  have hspans := spans_segmentItems (w0 ++ segments segs) segs w0.length
  refine ⟨_, hparse, hspans, ?_⟩
  intro n hn
  have hmem : n.Position ∈ expectedSpans (w0 ++ segments segs) w0.length segs := by
    rw [← hspans]; exact List.mem_map_of_mem _ hn
  exact expectedSpans_ge_one _ segs _ _ hmem

theorem C9_position_accuracy_witness :
    ∃ nodes, Parse (bytes "\n  " ++ segments [(bytes "color", bytes "blue", bytes "\n  "),
        (bytes "font", bytes "a\nb", bytes "\n")]) = .ok (nodes, none) ∧
      nodes.map (fun n => n.Position) =
        expectedSpans (bytes "\n  " ++ segments [(bytes "color", bytes "blue", bytes "\n  "),
          (bytes "font", bytes "a\nb", bytes "\n")]) (bytes "\n  ").length
          [(bytes "color", bytes "blue", bytes "\n  "), (bytes "font", bytes "a\nb", bytes "\n")] ∧
      ∀ n ∈ nodes, 1 ≤ n.Position.Start.Line ∧ 1 ≤ n.Position.Start.Column ∧
        1 ≤ n.Position.End.Line ∧ 1 ≤ n.Position.End.Column :=
  C9_position_accuracy (bytes "\n  ") [(bytes "color", bytes "blue", bytes "\n  "),
    (bytes "font", bytes "a\nb", bytes "\n")] (by decide) (by decide)

/-! ## Single declarations: groups in the value, brackets in the property -/

/-- The nodes `Parse` returns on one piece followed by the end of input. -/
theorem Parse_single (pc : Piece) (hok : PieceOk [] pc) :
    Parse pc.text = .ok (pc.nodes pc.text 0, none) := by
  have := Parse_layout [] [(pc, [])] (by simp) ⟨by simp, by simpa [render] using hok, trivial⟩
  simpa [render, expectedNodes] using this

theorem QuotedBody.quoteRun {q : Nat} {body : List Nat} (h : QuotedBody q body) :
    QuoteRun q body := by
  induction h with
  | nil => exact QuoteRun.nil
  | byte b bs h1 h2 h3 _ ih => exact QuoteRun.plain b bs h1 h2 h3 ih
  | escaped x bs _ _ ih => exact QuoteRun.escape x bs ih

theorem ValueItems.itemsToRun {v : List Nat} (h : ValueItems v) : ValRun v := by
  induction h with
  | nil => exact ValRun.nil
  | plain b bs h1 _ h3 h4 h5 h6 h7 _ ih => exact ValRun.plain b bs (by omega) h3 h4 h5 h6 h7 ih
  | quoted q body bs hq hbody _ ih => exact ValRun.quoted q body bs hq hbody.quoteRun ih
  | paren t bs ht _ ih => exact ValRun.paren t bs ht ih

theorem getLast?_cons_append_cons (a c : Nat) (l bs : List Nat) :
    (a :: (l ++ c :: bs)).getLast? = (c :: bs).getLast? := by
  have : a :: (l ++ c :: bs) = (a :: l) ++ (c :: bs) := by simp
  rw [this, List.getLast?_append_of_ne_nil _ (by simp)]

theorem getLast?_cons_of_range (c d : Nat) (bs : List Nat) (hc : 32 ≤ c ∧ c ≤ 126)
    (ih : ∀ d, bs.getLast? = some d → 32 ≤ d ∧ d ≤ 126)
    (h : (c :: bs).getLast? = some d) : 32 ≤ d ∧ d ≤ 126 := by
  cases bs with
  | nil => simp at h; omega
  | cons b bs' =>
    rw [List.getLast?_cons_cons] at h
    exact ih d h

theorem ValueItems.last {v : List Nat} (h : ValueItems v) :
    ∀ d, v.getLast? = some d → 32 ≤ d ∧ d ≤ 126 := by
  induction h with
  | nil => intro d hd; simp at hd
  | plain b bs h1 h2 _ _ _ _ _ _ ih =>
    intro d hd
    exact getLast?_cons_of_range b d bs ⟨h1, h2⟩ ih hd
  | quoted q body bs hq _ _ ih =>
    intro d hd
    rw [getLast?_cons_append_cons] at hd
    exact getLast?_cons_of_range q d bs (by rcases hq with rfl | rfl <;> omega) ih hd
  | paren t bs _ _ ih =>
    intro d hd
    rw [getLast?_cons_append_cons] at hd
    exact getLast?_cons_of_range 41 d bs (by omega) ih hd

theorem ValueItems.first {v : List Nat} (h : ValueItems v) :
    ∀ c, v.head? = some c → 32 ≤ c ∧ c ≤ 126 := by
  cases h with
  | nil => intro c hc; simp at hc
  | plain b bs h1 h2 _ _ _ _ _ _ =>
    intro c hc; simp at hc; omega
  | quoted q body bs hq _ _ =>
    intro c hc; simp at hc; rcases hq with rfl | rfl <;> omega
  | paren t bs _ _ =>
    intro c hc; simp at hc; omega

theorem ValueItems.itemsTrim {v : List Nat} (h : ValueItems v) (hstart : v.head? ≠ some 32)
    (hend : v.getLast? ≠ some 32) : TrimSpace v = v := by
  by_cases hne : v = []
  · subst hne; exact TrimSpace_nil
  · obtain ⟨c, d, hc, hd⟩ := exists_head_last hne
    have h1 := h.first c hc
    have h2 := h.last d hd
    have hc' : c ≠ 32 := fun e => hstart (by rw [hc, e])
    have hd' : d ≠ 32 := fun e => hend (by rw [hd, e])
    exact TrimSpace_of_ends v c d hc hd ⟨by omega, h1.2⟩ ⟨by omega, h2.2⟩

theorem ValueItems.itemsHead {v : List Nat} (h : ValueItems v) (hstart : v.head? ≠ some 32)
    (rest : List Nat) : isWS ((v ++ (59 :: rest)).headD 0) = false := by
  cases v with
  | nil => rfl
  | cons a t =>
    have h1 := h.first a rfl
    have h2 : a ≠ 32 := fun e => hstart (by simp [e])
    simpa using isWS_false_of_ge (by omega : 33 ≤ a)

/-- C5. Balanced groups in a value are kept whole: for every well-formed
property `p` and every value `v` that is a concatenation of items (plain
bytes, quoted strings with backslash escapes, parenthesised groups) and
neither starts nor ends with a space, `Parse(p ++ ": " ++ v ++ ";")` returns
exactly one node, with `Property = p` and `Value = v`; a `;` or `}` inside a
quoted string or inside parentheses, and an escaped closing quote inside a
string, do not cut the value short. -/
theorem C5_balanced_groups (p v : List Nat) (hp : WellFormedProp p) (hv : ValueItems v)
    (hstart : v.head? ≠ some 32) (hend : v.getLast? ≠ some 32) :
    ∃ nodes, Parse (p ++ [58, 32] ++ v ++ [59]) = .ok (nodes, none) ∧
      pairs nodes = [(p, v)] := by
  have hok : PieceOk [] (Piece.decl [] p [32] v [59]) := by
    refine ⟨Or.inr ⟨rfl, (hp.propHead [58]).1⟩, ?_, hp.propRun, ?_, hv.itemsToRun, ?_, Or.inl rfl⟩
    · simpa using (hp.propHead [58]).2
    · intro b hb
      simp only [List.mem_singleton] at hb
      subst hb; rfl
    · exact hv.itemsHead hstart []
  have := Parse_single _ hok
  rw [segment_text] at this
  refine ⟨_, this, ?_⟩
  simp [pairs, Piece.nodes, hp.propTrim, hv.itemsTrim hstart hend]

theorem C5_balanced_groups_witness :
    ∃ nodes, Parse (bytes "a" ++ [58, 32] ++
        [117, 40, 120, 59, 125, 41, 34, 121, 92, 34, 59, 34] ++ [59]) = .ok (nodes, none) ∧
      pairs nodes = [(bytes "a", [117, 40, 120, 59, 125, 41, 34, 121, 92, 34, 59, 34])] :=
  C5_balanced_groups (bytes "a") [117, 40, 120, 59, 125, 41, 34, 121, 92, 34, 59, 34]
    (by decide)
    (ValueItems.plain 117 _ (by decide) (by decide) (by decide) (by decide) (by decide)
      (by decide) (by decide)
      (ValueItems.paren [120, 59, 125] _ (by decide)
        (ValueItems.quoted 34 [121, 92, 34, 59] [] (Or.inl rfl)
          (QuotedBody.byte 121 _ (by decide) (by decide) (by decide)
            (QuotedBody.escaped 34 _ (by decide)
              (QuotedBody.byte 59 _ (by decide) (by decide) (by decide) QuotedBody.nil)))
          ValueItems.nil)))
    (by decide) (by decide)

/-- C6. Bracketed property: for every property `p = a ++ "[" ++ b ++ "]" ++ c`
where `a` and `c` are (possibly empty) strings of printable ASCII bytes without
`:` and `[`, `a` does not start with `*`, and `b` is any byte string with no `]`
and no NUL, and for every well-formed value `v`, `Parse(p ++ ": " ++ v ++ ";")`
returns exactly one node, whose `Property` is the whole of `p`, brackets
included, and whose `Value` is `v`. -/
theorem C6_bracketed_property (a b c v : List Nat)
    (ha : ∀ x ∈ a, 0x21 ≤ x ∧ x ≤ 0x7E ∧ x ≠ 58 ∧ x ≠ 91) (hstar : a.head? ≠ some 42)
    (hb : ∀ x ∈ b, x ≠ 93 ∧ x ≠ 0)
    (hc : ∀ x ∈ c, 0x21 ≤ x ∧ x ≤ 0x7E ∧ x ≠ 58 ∧ x ≠ 91) (hv : WellFormedVal v) :
    ∃ nodes, Parse ((a ++ [91] ++ b ++ [93] ++ c) ++ [58, 32] ++ v ++ [59]) =
        .ok (nodes, none) ∧
      pairs nodes = [(a ++ [91] ++ b ++ [93] ++ c, v)] := by
  have hplain : ∀ l : List Nat, (∀ x ∈ l, 0x21 ≤ x ∧ x ≤ 0x7E ∧ x ≠ 58 ∧ x ≠ 91) →
      PropRun l := fun l hl => PropRun_of_plain l (fun x hx => by
    obtain ⟨h1, h2, h3, h4⟩ := hl x hx
    exact ⟨by omega, isWS_false_of_ge h1, h3, h4⟩)
  have hrun : PropRun (a ++ [91] ++ b ++ [93] ++ c) := by
    have := PropRun_append (hplain a ha) (PropRun.bracket b c hb (hplain c hc))
    simpa [List.append_assoc] using this
  -- the first and the last byte of the property
  obtain ⟨f, hf, hf1⟩ : ∃ f, (a ++ [91] ++ b ++ [93] ++ c).head? = some f ∧
      33 ≤ f ∧ f ≤ 126 ∧ f ≠ 42 := by
    cases a with
    | nil => exact ⟨91, by simp, by omega, by omega, by omega⟩
    | cons x a' =>
      have := ha x (by simp)
      exact ⟨x, by simp, this.1, this.2.1, fun e => hstar (by simp [e])⟩
  obtain ⟨l, hl, hl1⟩ : ∃ l, (a ++ [91] ++ b ++ [93] ++ c).getLast? = some l ∧
      33 ≤ l ∧ l ≤ 126 := by
    have e : a ++ [91] ++ b ++ [93] ++ c = (a ++ [91] ++ b) ++ (93 :: c) := by simp
    rw [e, List.getLast?_append_of_ne_nil _ (by simp)]
    cases hcc : c with
    | nil => exact ⟨93, by simp, by omega, by omega⟩
    | cons x c' =>
      have hne : c ≠ [] := by rw [hcc]; simp
      obtain ⟨_, d, _, hd⟩ := exists_head_last hne
      have := hc d (List.mem_of_getLast?_eq_some hd)
      refine ⟨d, ?_, this.1, this.2.1⟩
      rw [List.getLast?_cons_cons, ← hcc]; exact hd
  have htrim : TrimSpace (a ++ [91] ++ b ++ [93] ++ c) = a ++ [91] ++ b ++ [93] ++ c :=
    TrimSpace_of_ends _ f l hf hl ⟨hf1.1, hf1.2.1⟩ hl1
  have hhead : ((a ++ [91] ++ b ++ [93] ++ c) ++ [58]).headD 0 = f := by
    have hne : a ++ [91] ++ b ++ [93] ++ c ≠ [] := by simp
    cases hp : a ++ [91] ++ b ++ [93] ++ c with
    | nil => exact absurd hp hne
    | cons y t => rw [hp] at hf; simp at hf; simp [hf]
  have hok : PieceOk [] (Piece.decl [] (a ++ [91] ++ b ++ [93] ++ c) [32] v [59]) := by
    refine ⟨Or.inr ⟨rfl, by rw [hhead]; exact hf1.2.2⟩, ?_, hrun, ?_, hv.valToRun, hv.valHead _,
      Or.inl rfl⟩
    · rw [List.nil_append, hhead]; exact isWS_false_of_ge hf1.1
    · intro x hx
      simp only [List.mem_singleton] at hx
      subst hx; rfl
  have := Parse_single _ hok
  rw [segment_text] at this
  refine ⟨_, this, ?_⟩
  simp only [pairs, Piece.nodes, List.map_cons, List.map_nil, htrim, hv.valTrim]

theorem C6_bracketed_property_witness :
    ∃ nodes, Parse ((bytes "input" ++ [91] ++ bytes "type=a:b [c" ++ [93] ++ bytes "x") ++
        [58, 32] ++ bytes "border: 1px solid #ccc" ++ [59]) = .ok (nodes, none) ∧
      pairs nodes = [(bytes "input" ++ [91] ++ bytes "type=a:b [c" ++ [93] ++ bytes "x",
        bytes "border: 1px solid #ccc")] :=
  C6_bracketed_property (bytes "input") (bytes "type=a:b [c") (bytes "x")
    (bytes "border: 1px solid #ccc") (by decide) (by decide) (by decide) (by decide) (by decide)

/-! ## The optional terminator, and garbage between segments -/

/-- C7. The trailing `;` is optional: for every well-formed property `p` and
value `v` and every terminator `t` among the empty string (end of input), `";"`
and `"}"`, `Parse(p ++ ": " ++ v ++ t)` returns exactly one node, with
`Property = p` and `Value = v`; so the three inputs give the same result. -/
theorem C7_optional_semicolon (p v t : List Nat) (hp : WellFormedProp p)
    (hv : WellFormedVal v) (ht : t = [] ∨ t = [59] ∨ t = [125]) :
    ∃ nodes, Parse (p ++ [58, 32] ++ v ++ t) = .ok (nodes, none) ∧
      pairs nodes = [(p, v)] := by
  have hw1 : ∀ b ∈ [32], isWS b = true := by
    intro b hb
    simp only [List.mem_singleton] at hb
    subst hb; rfl
  have hh : isWS (([] ++ (p ++ [58])).headD 0) = false := by
    simpa using (hp.propHead [58]).2
  rcases ht with rfl | rfl | rfl
  · have hok : PieceOk [] (Piece.decl [] p [32] v []) :=
      ⟨Or.inr ⟨rfl, (hp.propHead [58]).1⟩, hh, hp.propRun, hw1, hv.valToRun, hv.valHead _,
        Or.inr ⟨rfl, Or.inl rfl⟩⟩
    have := Parse_single _ hok
    have e : (Piece.decl [] p [32] v []).text = p ++ [58, 32] ++ v ++ [] := by
      simp [Piece.text]
    rw [e] at this
    refine ⟨_, this, ?_⟩
    simp [pairs, Piece.nodes, hp.propTrim, hv.valTrim]
  · have := Parse_single _ (segment_ok p v [] hp hv)
    rw [segment_text] at this
    refine ⟨_, this, ?_⟩
    simp [pairs, Piece.nodes, hp.propTrim, hv.valTrim]
  · have hok : ItemsOk [(Piece.decl [] p [32] v [], []), (Piece.junk [] [125], [])] := by
      refine ⟨by simp, ⟨Or.inr ⟨rfl, (hp.propHead [58]).1⟩, hh, hp.propRun, hw1, hv.valToRun,
        hv.valHead _, Or.inr ⟨rfl, Or.inr rfl⟩⟩, by simp, ?_, trivial⟩
      exact ⟨Or.inr ⟨rfl, by decide⟩, by decide, by simp,
        PropRun.plain 125 [] (by decide) (by decide) (by decide) (by decide) PropRun.nil,
        Or.inl rfl⟩
    have := Parse_layout [] _ (by simp) hok
    have e : [] ++ render [(Piece.decl [] p [32] v [], []), (Piece.junk [] [125], [])] =
        p ++ [58, 32] ++ v ++ [125] := by
      simp [render, Piece.text]
    rw [e] at this
    refine ⟨_, this, ?_⟩
    simp [pairs, expectedNodes, Piece.nodes, hp.propTrim, hv.valTrim]

theorem C7_optional_semicolon_witness :
    ∃ nodes, Parse (bytes "color" ++ [58, 32] ++ bytes "red" ++ [125]) = .ok (nodes, none) ∧
      pairs nodes = [(bytes "color", bytes "red")] :=
  C7_optional_semicolon (bytes "color") (bytes "red") [125] (by decide) (by decide)
    (Or.inr (Or.inr rfl))

theorem Item.piece_garbage_other (a : Nat) (g : List Nat) (h : a ≠ 42) :
    (Item.garbage (a :: g)).piece = Piece.junk [] (a :: g) := by
  unfold Item.piece
  split
  · rename_i heq; simp at heq
  · rename_i heq; simp at heq; exact absurd heq.1 h
  · rename_i heq; simp at heq; rw [heq]

theorem Item.piece_text (it : Item) : it.piece.text = it.text := by
  cases it with
  | seg p v => exact segment_text p v
  | garbage g =>
    cases g with
    | nil => rfl
    | cons a g' =>
      by_cases h : a = 42
      · subst h; rfl
      · rw [Item.piece_garbage_other a g' h]; rfl

theorem Item.piece_ok (it : Item) (next : List Nat) (hit : it.Ok)
    (hnext : next = [] ∨ isWS (next.headD 0) = true) : PieceOk next it.piece := by
  cases it with
  | seg p v => exact segment_ok p v next hit.1 hit.2
  | garbage g =>
    obtain ⟨hne, hg⟩ := hit
    cases g with
    | nil => exact absurd rfl hne
    | cons a g' =>
      have ha := hg a (by simp)
      have hrun : ∀ l : List Nat, (∀ b ∈ l, b ∈ a :: g') → PropRun l := fun l hl =>
        PropRun_of_plain l (fun b hb => by
          obtain ⟨h1, h2, h3, h4⟩ := hg b (hl b hb)
          exact ⟨h4, h1, h2, h3⟩)
      by_cases h : a = 42
      · subst h
        exact ⟨Or.inl rfl, rfl, by simp, hrun g' (fun b hb => by simp [hb]), hnext⟩
      · rw [Item.piece_garbage_other a g' h]
        exact ⟨Or.inr ⟨rfl, by simpa using h⟩, by simpa using ha.1, by simp,
          hrun (a :: g') (fun b hb => hb), hnext⟩

theorem Item.piece_nodes (input : List Nat) (off : Nat) (it : Item) (hit : it.Ok) :
    pairs (it.piece.nodes input off) = it.pair.toList := by
  cases it with
  | seg p v => simp [pairs, Item.piece, Piece.nodes, Item.pair, hit.1.propTrim, hit.2.valTrim]
  | garbage g =>
    have : ∃ s g', (Item.garbage g).piece = Piece.junk s g' := by
      unfold Item.piece
      split
      · rename_i heq; simp at heq
      · exact ⟨_, _, rfl⟩
      · exact ⟨_, _, rfl⟩
    obtain ⟨s, g', h⟩ := this
    rw [h]; rfl

theorem render_items (items : List (Item × List Nat)) :
    render (items.map (fun x => (x.1.piece, x.2))) = itemsText items := by
  induction items with
  | nil => rfl
  | cons x rest ih =>
    obtain ⟨it, w⟩ := x
    simp only [List.map_cons, render, itemsText] at ih ⊢
    rw [ih, Item.piece_text]
    simp [List.append_assoc]

theorem items_ok (items : List (Item × List Nat))
    (hitems : ∀ x ∈ items, x.1.Ok ∧ IsWSRun x.2)
    (hsep : ∀ x ∈ items.dropLast, x.2 ≠ []) :
    ItemsOk (items.map (fun x => (x.1.piece, x.2))) := by
  induction items with
  | nil => trivial
  | cons x rest ih =>
    obtain ⟨it, w⟩ := x
    obtain ⟨h1, h2⟩ := hitems (it, w) (by simp)
    have hrest : ∀ y ∈ rest.dropLast, y.2 ≠ [] := by
      intro y hy
      apply hsep y
      cases rest with
      | nil => simp at hy
      | cons z rest' => simp only [List.dropLast_cons₂, List.mem_cons]; exact Or.inr hy
    refine ⟨h2, ?_, ih (fun y hy => hitems y (by simp [hy])) hrest⟩
    apply Item.piece_ok it _ h1
    cases w with
    | nil =>
      cases rest with
      | nil => exact Or.inl rfl
      | cons z rest' =>
        exact absurd rfl (hsep (it, []) (by simp [List.dropLast_cons₂]))
    | cons b w' => exact Or.inr (by simpa using h2 b (by simp))

theorem pairs_append (a b : List Node) : pairs (a ++ b) = pairs a ++ pairs b := by
  simp [pairs]

theorem pairs_items (input : List Nat) (items : List (Item × List Nat))
    (hitems : ∀ x ∈ items, x.1.Ok ∧ IsWSRun x.2) :
    ∀ off, pairs (expectedNodes input off (items.map (fun x => (x.1.piece, x.2)))) =
      items.filterMap (fun x => x.1.pair) := by
  induction items with
  | nil => intro off; rfl
  | cons x rest ih =>
    intro off
    obtain ⟨it, w⟩ := x
    obtain ⟨h1, _⟩ := hitems (it, w) (by simp)
    simp only [List.map_cons, expectedNodes, pairs_append, Item.piece_nodes input off it h1]
    rw [ih (fun y hy => hitems y (by simp [hy]))]
    cases hp : it.pair <;> simp [List.filterMap_cons, hp]

/-- C8. Garbage skipping: for every input that is a sequence of items, each a
well-formed segment `p ++ ": " ++ v ++ ";"` or a garbage token (a non-empty byte
string with no space, tab, CR, LF, `:`, `[` and NUL), separated by non-empty
runs of whitespace (a run `w0` of any length may come first, and the run after
the last item may be empty), `Parse` returns exactly one node per well-formed
segment, in input order, with `Property = p` and `Value = v`, and no node for
any garbage token. -/
theorem C8_garbage_skipping (w0 : List Nat) (items : List (Item × List Nat))
    (hw0 : IsWSRun w0) (hitems : ∀ x ∈ items, x.1.Ok ∧ IsWSRun x.2)
    (hsep : ∀ x ∈ items.dropLast, x.2 ≠ []) :
    ∃ nodes, Parse (w0 ++ itemsText items) = .ok (nodes, none) ∧
      pairs nodes = items.filterMap (fun x => x.1.pair) := by
  have hparse := Parse_layout w0 _ hw0 (items_ok items hitems hsep)
  rw [render_items] at hparse
  exact ⟨_, hparse, pairs_items _ items hitems _⟩

theorem C8_garbage_skipping_witness :
    ∃ nodes, Parse ([] ++ itemsText [(Item.seg (bytes "color") (bytes "red"), bytes " "),
        (Item.garbage (bytes "???invalid;;;"), bytes " "),
        (Item.seg (bytes "font-size") (bytes "12px"), [])]) = .ok (nodes, none) ∧
      pairs nodes = [(Item.seg (bytes "color") (bytes "red"), bytes " "),
        (Item.garbage (bytes "???invalid;;;"), bytes " "),
        (Item.seg (bytes "font-size") (bytes "12px"), ([] : List Nat))].filterMap
          (fun x => x.1.pair) :=
  C8_garbage_skipping [] [(Item.seg (bytes "color") (bytes "red"), bytes " "),
    (Item.garbage (bytes "???invalid;;;"), bytes " "),
    (Item.seg (bytes "font-size") (bytes "12px"), [])] (by decide) (by decide) (by decide)

/-! ## The leading wildcard marker, and two bracket groups -/

theorem TrimSpace_printable (q : List Nat) (hq : ∀ b ∈ q, 0x21 ≤ b ∧ b ≤ 0x7E) :
    TrimSpace q = q := by
  by_cases hne : q = []
  · subst hne; exact TrimSpace_nil
  · obtain ⟨c, d, hc, hd⟩ := exists_head_last hne
    exact TrimSpace_of_ends q c d hc hd (hq c (head_mem hc))
      (hq d (List.mem_of_getLast?_eq_some hd))

/-- C13. Leading wildcard marker: for every string `q` of printable ASCII bytes
without `:` and `[` (`q` may be empty or may itself start with `*`) and every
well-formed value `v`, `Parse("*" ++ q ++ ": " ++ v ++ ";")` returns exactly one
node, whose `Property` is `q` (exactly one leading `*` is consumed and left out
of the property), whose `Value` is `v`, and whose `Start` is the position of the
`*`, line 1, column 1. -/
theorem C13_leading_wildcard (q v : List Nat)
    (hq : ∀ b ∈ q, 0x21 ≤ b ∧ b ≤ 0x7E ∧ b ≠ 58 ∧ b ≠ 91) (hv : WellFormedVal v) :
    ∃ n, Parse ([42] ++ q ++ [58, 32] ++ v ++ [59]) = .ok ([n], none) ∧
      n.Property = q ∧ n.Value = v ∧ n.Position.Start = { Line := 1, Column := 1 } := by
  have hrun : PropRun q := PropRun_of_plain q (fun b hb => by
    obtain ⟨h1, h2, h3, h4⟩ := hq b hb
    exact ⟨by omega, isWS_false_of_ge h1, h3, h4⟩)
  have hok : PieceOk [] (Piece.decl [42] q [32] v [59]) := by
    refine ⟨Or.inl rfl, rfl, hrun, ?_, hv.valToRun, hv.valHead _, Or.inl rfl⟩
    intro b hb
    simp only [List.mem_singleton] at hb
    subst hb; rfl
  have h := Parse_single _ hok
  have e : (Piece.decl [42] q [32] v [59]).text = [42] ++ q ++ [58, 32] ++ v ++ [59] := by
    simp [Piece.text]
  rw [e] at h
  refine ⟨_, h, ?_, ?_, ?_⟩
  · exact TrimSpace_printable q (fun b hb => ⟨(hq b hb).1, (hq b hb).2.1⟩)
  · exact hv.valTrim
  · simp [posOf]

theorem C13_leading_wildcard_witness :
    ∃ n, Parse ([42] ++ bytes "*zoom" ++ [58, 32] ++ bytes "1" ++ [59]) = .ok ([n], none) ∧
      n.Property = bytes "*zoom" ∧ n.Value = bytes "1" ∧
      n.Position.Start = { Line := 1, Column := 1 } :=
  C13_leading_wildcard (bytes "*zoom") (bytes "1") (by decide) (by decide)

/-- C19 (the code at the failing input). On `a[b]c[d]: v;` the property loop
passes over both bracket groups, and `Parse` returns a node whose `Property`
is `a[b]c[d]`: a property with two bracket groups. -/
theorem C19_two_bracket_groups :
    ∃ n, Parse (bytes "a[b]c[d]: v;") = .ok ([n], none) ∧
      n.Property = bytes "a" ++ [91] ++ bytes "b" ++ [93] ++ bytes "c" ++ [91] ++
        bytes "d" ++ [93] ++ [] :=
  ⟨_, rfl, rfl⟩

/-! ## The offset never moves back, from any parser state -/

theorem bind_ok_inv {α β : Type} {x : Except Fault α} {f : α → Except Fault β} {b : β}
    (h : (x >>= f) = .ok b) : ∃ a, x = .ok a ∧ f a = .ok b := by
  cases x with
  | error e => simp at h
  | ok a => exact ⟨a, rfl, by simpa using h⟩

theorem consume_pos {p : Parser} {r : Nat × Parser} (h : p.consume = .ok r) :
    p.pos ≤ r.2.pos ∧ (p.pos < p.length → r.2.pos = p.pos + 1) := by
  unfold Parser.consume at h
  split_ifs at h with hc
  · simp only [pure_eq_ok, Except.ok.injEq] at h
    subst h
    exact ⟨le_refl _, fun hlt => absurd hc (by omega)⟩
  · obtain ⟨ch, _, h⟩ := bind_ok_inv h
    split_ifs at h <;>
    · simp only [pure_eq_ok, Except.ok.injEq] at h
      subst h
      exact ⟨by simp, fun _ => rfl⟩

theorem peek_ne_zero_pos {p : Parser} {c : Nat} (h : p.peek = .ok c) (hc : c ≠ 0) :
    p.pos < p.length := by
  unfold Parser.peek at h
  split_ifs at h with hlt
  · exact hlt
  · simp only [pure_eq_ok, Except.ok.injEq] at h
    exact absurd h.symm hc

theorem loop_pos {body : Parser → Except Fault (Iter Parser)}
    (hbody : ∀ s it, body s = .ok it → s.pos ≤ it.state.pos) :
    ∀ (n : Nat) (s s' : Parser), loop body n s = .ok s' → s.pos ≤ s'.pos := by
  intro n
  induction n with
  | zero => intro s s' h; simp [loop] at h
  | succ n ih =>
    intro s s' h
    cases hb : body s with
    | error e => simp [loop, hb] at h
    | ok it =>
      have := hbody s it hb
      cases it with
      | done t =>
        simp only [loop, hb, Except.ok.injEq] at h
        subst h; exact this
      | next t =>
        simp only [loop, hb] at h
        exact le_trans this (ih t s' h)

theorem skipWhitespaceBody_pos (p : Parser) (it : Iter Parser)
    (h : skipWhitespaceBody p = .ok it) : p.pos ≤ it.state.pos := by
  unfold skipWhitespaceBody at h
  obtain ⟨ch, _, h⟩ := bind_ok_inv h
  split_ifs at h
  · obtain ⟨r, hr, h⟩ := bind_ok_inv h
    simp only [pure_eq_ok, Except.ok.injEq] at h
    subst h
    exact (consume_pos hr).1
  · simp only [pure_eq_ok, Except.ok.injEq] at h
    subst h; exact le_refl _

theorem skipWhitespace_pos {fuel : Nat} {p p' : Parser}
    (h : p.skipWhitespace fuel = .ok p') : p.pos ≤ p'.pos :=
  loop_pos skipWhitespaceBody_pos fuel p p' h

theorem skipToBody_pos (close : Nat) (p : Parser) (it : Iter Parser)
    (h : skipToBody close p = .ok it) : p.pos ≤ it.state.pos := by
  unfold skipToBody at h
  obtain ⟨ch, _, h⟩ := bind_ok_inv h
  split_ifs at h
  · obtain ⟨c2, _, h⟩ := bind_ok_inv h
    split_ifs at h
    · obtain ⟨r, hr, h⟩ := bind_ok_inv h
      simp only [pure_eq_ok, Except.ok.injEq] at h
      subst h
      exact (consume_pos hr).1
    · simp only [pure_eq_ok, Except.ok.injEq] at h
      subst h; exact le_refl _
  · simp only [pure_eq_ok, Except.ok.injEq] at h
    subst h; exact le_refl _

theorem quoteBody_pos (quote : Nat) (p : Parser) (it : Iter Parser)
    (h : quoteBody quote p = .ok it) : p.pos ≤ it.state.pos := by
  unfold quoteBody at h
  obtain ⟨ch, _, h⟩ := bind_ok_inv h
  split_ifs at h
  · obtain ⟨c2, _, h⟩ := bind_ok_inv h
    split_ifs at h
    · obtain ⟨c3, _, h⟩ := bind_ok_inv h
      split_ifs at h
      · obtain ⟨r, hr, h⟩ := bind_ok_inv h
        obtain ⟨r2, hr2, h⟩ := bind_ok_inv h
        simp only [pure_eq_ok, Except.ok.injEq] at h
        subst h
        exact le_trans (consume_pos hr).1 (consume_pos hr2).1
      · obtain ⟨r, hr, h⟩ := bind_ok_inv h
        simp only [pure_eq_ok, Except.ok.injEq] at h
        subst h
        exact (consume_pos hr).1
    · simp only [pure_eq_ok, Except.ok.injEq] at h
      subst h; exact le_refl _
  · simp only [pure_eq_ok, Except.ok.injEq] at h
    subst h; exact le_refl _

theorem consumeIf_pos {c : Nat} {p p' : Parser} (h : consumeIf c p = .ok p') :
    p.pos ≤ p'.pos := by
  unfold consumeIf at h
  obtain ⟨ch, _, h⟩ := bind_ok_inv h
  split_ifs at h
  · obtain ⟨r, hr, h⟩ := bind_ok_inv h
    simp only [pure_eq_ok, Except.ok.injEq] at h
    subst h
    exact (consume_pos hr).1
  · simp only [pure_eq_ok, Except.ok.injEq] at h
    subst h; exact le_refl _

theorem propBody_pos (fuel : Nat) (p : Parser) (it : Iter Parser)
    (h : propBody fuel p = .ok it) : p.pos ≤ it.state.pos := by
  unfold propBody at h
  obtain ⟨ch, _, h⟩ := bind_ok_inv h
  split_ifs at h
  · simp only [pure_eq_ok, Except.ok.injEq] at h
    subst h; exact le_refl _
  · obtain ⟨r, hr, h⟩ := bind_ok_inv h
    obtain ⟨p2, hp2, h⟩ := bind_ok_inv h
    obtain ⟨p3, hp3, h⟩ := bind_ok_inv h
    simp only [pure_eq_ok, Except.ok.injEq] at h
    subst h
    exact le_trans (consume_pos hr).1
      (le_trans (loop_pos (skipToBody_pos 93) fuel _ _ hp2) (consumeIf_pos hp3))
  · obtain ⟨r, hr, h⟩ := bind_ok_inv h
    simp only [pure_eq_ok, Except.ok.injEq] at h
    subst h
    exact (consume_pos hr).1

theorem valueBody_pos (fuel : Nat) (p : Parser) (it : Iter Parser)
    (h : valueBody fuel p = .ok it) : p.pos ≤ it.state.pos := by
  unfold valueBody at h
  obtain ⟨ch, _, h⟩ := bind_ok_inv h
  split_ifs at h
  · simp only [pure_eq_ok, Except.ok.injEq] at h
    subst h; exact le_refl _
  · obtain ⟨r, hr, h⟩ := bind_ok_inv h
    obtain ⟨p2, hp2, h⟩ := bind_ok_inv h
    obtain ⟨p3, hp3, h⟩ := bind_ok_inv h
    simp only [pure_eq_ok, Except.ok.injEq] at h
    subst h
    exact le_trans (consume_pos hr).1
      (le_trans (loop_pos (quoteBody_pos ch) fuel _ _ hp2) (consumeIf_pos hp3))
  · obtain ⟨r, hr, h⟩ := bind_ok_inv h
    obtain ⟨p2, hp2, h⟩ := bind_ok_inv h
    obtain ⟨p3, hp3, h⟩ := bind_ok_inv h
    simp only [pure_eq_ok, Except.ok.injEq] at h
    subst h
    exact le_trans (consume_pos hr).1
      (le_trans (loop_pos (skipToBody_pos 41) fuel _ _ hp2) (consumeIf_pos hp3))
  · obtain ⟨r, hr, h⟩ := bind_ok_inv h
    simp only [pure_eq_ok, Except.ok.injEq] at h
    subst h
    exact (consume_pos hr).1

/-- C18 (amended). For every parser state, whenever `parseDeclaration` returns a
node, it has found a colon and advanced past it: the cursor offset after the
call is at least 1 greater than the offset before the call. -/
theorem C18_node_advances (fuel : Nat) (p p' : Parser) (n : Node)
    (h : p.parseDeclaration fuel = .ok (some n, p')) : p.pos + 1 ≤ p'.pos := by
  unfold Parser.parseDeclaration at h
  obtain ⟨p1, h1, h⟩ := bind_ok_inv h
  obtain ⟨p2, h2, h⟩ := bind_ok_inv h
  obtain ⟨p3, h3, h⟩ := bind_ok_inv h
  obtain ⟨c, hc, h⟩ := bind_ok_inv h
  have a1 := skipWhitespace_pos h1
  have a2 := consumeIf_pos h2
  have a3 := loop_pos (propBody_pos fuel) fuel _ _ h3
  split_ifs at h with hne
  · simp at h
  · have hlt : p3.pos < p3.length := peek_ne_zero_pos hc (by
      simp only [ne_eq, not_not] at hne; omega)
    obtain ⟨raw, _, h⟩ := bind_ok_inv h
    obtain ⟨r4, h4, h⟩ := bind_ok_inv h
    obtain ⟨p5, h5, h⟩ := bind_ok_inv h
    obtain ⟨p6, h6, h⟩ := bind_ok_inv h
    obtain ⟨raw2, _, h⟩ := bind_ok_inv h
    obtain ⟨p7, h7, h⟩ := bind_ok_inv h
    obtain ⟨p8, h8, h⟩ := bind_ok_inv h
    simp only [pure_eq_ok, Except.ok.injEq, Prod.mk.injEq] at h
    obtain ⟨_, h⟩ := h
    subst h
    have a4 := (consume_pos h4).2 hlt
    have a5 := skipWhitespace_pos h5
    have a6 := loop_pos (valueBody_pos fuel) fuel _ _ h6
    have a7 := skipWhitespace_pos h7
    have a8 := consumeIf_pos h8
    omega

theorem C18_node_advances_witness :
    (NewParser (bytes "a:b")).pos + 1 ≤ (cursor (bytes "a:b") 3).pos :=
  C18_node_advances 4 (NewParser (bytes "a:b")) (cursor (bytes "a:b") 3)
    { Property := bytes "a", Value := bytes "b",
      Position := { Start := ⟨1, 1⟩, End := ⟨1, 4⟩ } } rfl

/-- C18 (counterexample). On the input `:` the reader returns a node (empty
property, empty value) and the offset has moved from 0 to 1, less than 2. -/
theorem C18_counterexample :
    ∃ n p', (NewParser [58]).parseDeclaration 2 = .ok (some n, p') ∧
      ¬ ((NewParser [58]).pos + 2 ≤ p'.pos) :=
  ⟨_, _, rfl, by decide⟩

/-! ## `TrimSpace` on lists -/

theorem asciiSpace_lt {c : Nat} (h : asciiSpace c = true) : c < 128 := by
  simp [asciiSpace] at h; omega

theorem drop_eq_getD_cons (s : List Nat) (i : Nat) (h : i < s.length) :
    s.drop i = s.getD i 0 :: s.drop (i + 1) := by
  rw [List.drop_eq_getElem_cons h, List.getD_eq_getElem?_getD, List.getElem?_eq_getElem h]
  rfl

theorem trimSpaceStart_spec (s : List Nat) :
    ∀ (fuel i : Nat), i ≤ s.length → s.length < fuel + i →
      trimSpaceStart s fuel i =
        if ((s.drop i).dropWhile asciiSpace).headD 0 ≥ RuneSelf
        then .inl (TrimFunc ((s.drop i).dropWhile asciiSpace) IsSpace)
        else .inr (s.length - ((s.drop i).dropWhile asciiSpace).length) := by
  intro fuel
  induction fuel with
  | zero => intro i h1 h2; omega
  | succ n ih =>
    intro i h1 h2
    unfold trimSpaceStart
    by_cases hlt : i < s.length
    · rw [if_pos hlt, drop_eq_getD_cons s i hlt]
      simp only []
      by_cases hc : s.getD i 0 ≥ RuneSelf
      · have hns : asciiSpace (s.getD i 0) = false := by
          cases h : asciiSpace (s.getD i 0) with
          | false => rfl
          | true => have := asciiSpace_lt h; simp only [RuneSelf] at hc; omega
        rw [if_pos hc, List.dropWhile_cons_of_neg (by rw [hns]; exact Bool.false_ne_true)]
        simp only [List.headD_cons]
        rw [if_pos hc]
      · rw [if_neg hc]
        by_cases hs : asciiSpace (s.getD i 0) = false
        · rw [if_pos hs, List.dropWhile_cons_of_neg (by rw [hs]; exact Bool.false_ne_true)]
          simp only [List.headD_cons, List.length_cons, List.length_drop]
          rw [if_neg hc]
          congr 1; omega
        · rw [if_neg hs]
          have hs' : asciiSpace (s.getD i 0) = true := by simpa using hs
          rw [List.dropWhile_cons_of_pos hs']
          exact ih (i + 1) (by omega) (by omega)
    · rw [if_neg hlt]
      have : s.drop i = [] := List.drop_eq_nil_of_le (by omega)
      rw [this]
      simp only [List.dropWhile_nil, List.headD_nil, List.length_nil, RuneSelf]
      rw [if_neg (by omega)]
      congr 1; omega

theorem take_drop_snoc (s : List Nat) (start stop : Nat) (h1 : start < stop)
    (h2 : stop ≤ s.length) :
    (s.take stop).drop start = (s.take (stop - 1)).drop start ++ [s.getD (stop - 1) 0] := by
  have e : stop = (stop - 1) + 1 := by omega
  have hlt : stop - 1 < s.length := by omega
  conv_lhs => rw [e, List.take_succ, List.getElem?_eq_getElem hlt]
  rw [List.getD_eq_getElem?_getD, List.getElem?_eq_getElem hlt]
  simp only [Option.toList_some, Option.getD_some]
  rw [List.drop_append_of_le_length (by rw [List.length_take]; omega)]

theorem trimSpaceStop_spec (s : List Nat) (start : Nat) :
    ∀ (fuel stop : Nat), start ≤ stop → stop ≤ s.length → stop < fuel + start →
      trimSpaceStop s start fuel stop =
        if (((s.take stop).drop start).reverse.dropWhile asciiSpace).headD 0 ≥ RuneSelf
        then .inl (TrimFunc
          (((s.take stop).drop start).reverse.dropWhile asciiSpace).reverse IsSpace)
        else .inr (start +
          (((s.take stop).drop start).reverse.dropWhile asciiSpace).length) := by
  intro fuel
  induction fuel with
  | zero => intro stop h1 h2 h3; omega
  | succ n ih =>
    intro stop h1 h2 h3
    unfold trimSpaceStop
    by_cases hgt : stop > start
    · rw [if_pos hgt, take_drop_snoc s start stop hgt h2]
      simp only [List.reverse_append, List.reverse_singleton, List.singleton_append]
      by_cases hc : s.getD (stop - 1) 0 ≥ RuneSelf
      · have hns : asciiSpace (s.getD (stop - 1) 0) = false := by
          cases h : asciiSpace (s.getD (stop - 1) 0) with
          | false => rfl
          | true => have := asciiSpace_lt h; simp only [RuneSelf] at hc; omega
        rw [if_pos hc, List.dropWhile_cons_of_neg (by rw [hns]; exact Bool.false_ne_true)]
        simp only [List.headD_cons]
        rw [if_pos hc]
        simp
      · rw [if_neg hc]
        by_cases hs : asciiSpace (s.getD (stop - 1) 0) = false
        · rw [if_pos hs, List.dropWhile_cons_of_neg (by rw [hs]; exact Bool.false_ne_true)]
          simp only [List.headD_cons, List.length_cons, List.length_reverse, List.length_drop,
            List.length_take]
          rw [if_neg hc]
          congr 1
          omega
        · rw [if_neg hs]
          have hs' : asciiSpace (s.getD (stop - 1) 0) = true := by simpa using hs
          rw [List.dropWhile_cons_of_pos hs']
          exact ih (stop - 1) (by omega) (by omega) (by omega)
    · rw [if_neg hgt]
      have hse : stop = start := by omega
      subst hse
      have : (s.take stop).drop stop = [] :=
        List.drop_eq_nil_of_le (by rw [List.length_take]; omega)
      rw [this]
      simp only [List.reverse_nil, List.dropWhile_nil, List.headD_nil, List.length_nil, RuneSelf]
      rw [if_neg (by omega)]
      rfl

/-- The two loops of `TrimSpace` compute `trimSpaceSpec`. -/
theorem TrimSpace_eq_spec (s : List Nat) : TrimSpace s = trimSpaceSpec s := by
  unfold TrimSpace trimSpaceSpec
  rw [trimSpaceStart_spec s (s.length + 1) 0 (Nat.zero_le _) (by omega)]
  simp only [List.drop_zero]
  by_cases h1 : (s.dropWhile asciiSpace).headD 0 ≥ RuneSelf
  · rw [if_pos h1, if_pos h1]
  · rw [if_neg h1, if_neg h1]
    simp only []
    have hsuf : s.dropWhile asciiSpace <:+ s := List.dropWhile_suffix _
    have hle : (s.dropWhile asciiSpace).length ≤ s.length := hsuf.length_le
    have hdrop : s.drop (s.length - (s.dropWhile asciiSpace).length) = s.dropWhile asciiSpace :=
      (List.suffix_iff_eq_drop.1 hsuf).symm
    rw [trimSpaceStop_spec s _ (s.length + 1) s.length (by omega) (le_refl _) (by omega)]
    rw [List.take_length, hdrop]
    by_cases h2 : ((s.dropWhile asciiSpace).reverse.dropWhile asciiSpace).headD 0 ≥ RuneSelf
    · rw [if_pos h2, if_pos h2]
    · rw [if_neg h2, if_neg h2]
      simp only []
      have hpre : ((s.dropWhile asciiSpace).reverse.dropWhile asciiSpace).reverse <+:
          s.dropWhile asciiSpace := by
        have := List.dropWhile_suffix (l := (s.dropWhile asciiSpace).reverse) asciiSpace
        have := List.reverse_prefix.2 this
        simpa using this
      by_cases h3 : ((s.dropWhile asciiSpace).reverse.dropWhile asciiSpace).length = 0
      · rw [if_pos (by omega)]
        have := List.length_eq_zero.1 h3
        rw [this]; rfl
      · rw [if_neg (by omega)]
        have e := List.prefix_iff_eq_take.1 hpre
        rw [List.length_reverse] at e
        rw [List.drop_take, ← hdrop] at *
        rw [hdrop] at *
        rw [e]
        congr 1
        omega

theorem asciiSpace_of_isWS {b : Nat} (h : isWS b = true) : asciiSpace b = true := by
  simp [isWS] at h
  simp [asciiSpace]
  omega

/-- Whitespace in front of a span does not change its trim. -/
theorem TrimSpace_ws_append (w s : List Nat) (hw : ∀ b ∈ w, isWS b = true) :
    TrimSpace (w ++ s) = TrimSpace s := by
  rw [TrimSpace_eq_spec, TrimSpace_eq_spec]
  unfold trimSpaceSpec
  rw [List.dropWhile_append_of_pos (fun a ha => asciiSpace_of_isWS (hw a ha))]

/-- Whitespace after a span with printable ASCII ends is trimmed away, and
nothing else. -/
theorem TrimSpace_append_ws (s w : List Nat) (c d : Nat) (hh : s.head? = some c)
    (hl : s.getLast? = some d) (hc : 33 ≤ c ∧ c ≤ 126) (hd : 33 ≤ d ∧ d ≤ 126)
    (hw : ∀ b ∈ w, isWS b = true) : TrimSpace (s ++ w) = s := by
  rw [TrimSpace_eq_spec]
  unfold trimSpaceSpec
  obtain ⟨t, rfl⟩ : ∃ t, s = c :: t := by
    cases s with
    | nil => simp at hh
    | cons a t => simp at hh; exact ⟨t, by rw [hh]⟩
  have hcs : asciiSpace c = false := asciiSpace_false_of_ge hc.1
  have hds : asciiSpace d = false := asciiSpace_false_of_ge hd.1
  have e1 : (c :: t ++ w).dropWhile asciiSpace = c :: t ++ w := by
    rw [List.cons_append, List.dropWhile_cons_of_neg (by rw [hcs]; exact Bool.false_ne_true)]
  rw [e1]
  simp only [List.cons_append, List.headD_cons, RuneSelf]
  rw [if_neg (by omega)]
  obtain ⟨u, hu⟩ : ∃ u, (c :: t).reverse = d :: u := by
    have : (c :: t).reverse.head? = some d := by rw [List.head?_reverse]; exact hl
    cases hr : (c :: t).reverse with
    | nil => rw [hr] at this; simp at this
    | cons a u => rw [hr] at this; simp at this; exact ⟨u, by rw [this]⟩
  have e2 : (c :: (t ++ w)).reverse = w.reverse ++ (c :: t).reverse := by
    rw [← List.cons_append, List.reverse_append]
  rw [e2, List.dropWhile_append_of_pos (fun a ha =>
    asciiSpace_of_isWS (hw a (List.mem_reverse.1 ha))), hu,
    List.dropWhile_cons_of_neg (by rw [hds]; exact Bool.false_ne_true)]
  simp only [List.headD_cons]
  rw [if_neg (by omega), ← hu, List.reverse_reverse]

/-! ## The offsets of a returned node -/

/-- A loop over cursors that makes progress returns at an offset where the
condition for leaving it holds. -/
theorem loop_stops (input : List Nat) (body : Parser → Except Fault (Iter Parser))
    (P : Nat → Prop)
    (h : ∀ k, k ≤ input.length → ∃ k', k ≤ k' ∧ k' ≤ input.length ∧
      ((P k' ∧ body (cursor input k) = .ok (.done (cursor input k'))) ∨
       (k < k' ∧ body (cursor input k) = .ok (.next (cursor input k')))))
    (fuel k : Nat) (hk : k ≤ input.length) (hf : input.length < fuel + k) :
    ∃ k', k ≤ k' ∧ k' ≤ input.length ∧ P k' ∧
      loop body fuel (cursor input k) = .ok (cursor input k') := by
  have := loop_inv body (fun s => ∃ j, j ≤ input.length ∧ s = cursor input j)
    (fun s => ∃ j, s = cursor input j ∧ P j) (fun s => input.length - s.pos)
    (by
      rintro s ⟨j, hj, rfl⟩
      obtain ⟨j', h1, h2, h3⟩ := h j hj
      refine ⟨cursor input j', ⟨j', h2, rfl⟩, by simp only [cursor]; omega, ?_⟩
      rcases h3 with ⟨hp, h3⟩ | ⟨h4, h3⟩
      · exact Or.inl ⟨⟨j', rfl, hp⟩, h3⟩
      · exact Or.inr ⟨by simp only [cursor]; omega, h3⟩)
    fuel (cursor input k) ⟨k, hk, rfl⟩ (by simp only [cursor]; omega)
  obtain ⟨s', ⟨j, hj, rfl⟩, ⟨j2, hj2, hp⟩, hle, hl⟩ := this
  have := cursor_inj hj2
  subst this
  simp only [cursor] at hle
  exact ⟨j, by omega, hj, hp, hl⟩

theorem valueBody_done {fuel : Nat} {p s : Parser} (h : valueBody fuel p = .ok (.done s)) :
    ∃ ch, p.peek = .ok ch ∧ (ch = 0 ∨ ch = 59 ∨ ch = 125) := by
  unfold valueBody at h
  obtain ⟨ch, hch, h⟩ := bind_ok_inv h
  split_ifs at h with h1
  · exact ⟨ch, hch, h1⟩
  · obtain ⟨r, _, h⟩ := bind_ok_inv h
    obtain ⟨p2, _, h⟩ := bind_ok_inv h
    obtain ⟨p3, _, h⟩ := bind_ok_inv h
    simp at h
  · obtain ⟨r, _, h⟩ := bind_ok_inv h
    obtain ⟨p2, _, h⟩ := bind_ok_inv h
    obtain ⟨p3, _, h⟩ := bind_ok_inv h
    simp at h
  · obtain ⟨r, _, h⟩ := bind_ok_inv h
    simp at h

theorem value_stops (input : List Nat) (fuel : Nat) (hf : input.length < fuel)
    (k : Nat) (hk : k ≤ input.length) :
    ∃ k', k ≤ k' ∧ k' ≤ input.length ∧
      ((input.drop k').headD 0 = 0 ∨ (input.drop k').headD 0 = 59 ∨
        (input.drop k').headD 0 = 125) ∧
      loop (valueBody fuel) fuel (cursor input k) = .ok (cursor input k') := by
  refine loop_stops input (valueBody fuel) _ ?_ fuel k hk (by omega)
  intro j hj
  obtain ⟨j', h1, h2, h3⟩ := valueBody_lands input fuel hf j hj
  refine ⟨j', h1, h2, ?_⟩
  rcases h3 with h3 | h3
  · refine Or.inl ⟨?_, h3⟩
    obtain ⟨ch, hch, hc⟩ := valueBody_done h3
    rw [peek_cursor] at hch
    simp only [Except.ok.injEq] at hch
    have hjj : j' = j := by
      unfold valueBody at h3
      rw [peek_cursor] at h3
      simp only [ok_bind] at h3
      rw [hch, if_pos hc] at h3
      simp only [pure_eq_ok, Except.ok.injEq, Iter.done.injEq] at h3
      exact (cursor_inj h3).symm
    rw [hjj, hch]; exact hc
  · exact Or.inr h3

theorem getElem?_of_headD_drop {input : List Nat} {k b : Nat}
    (h : (input.drop k).headD 0 = b) (hb : b ≠ 0) : input[k]? = some b := by
  have hlt : k < input.length := peek_ne_zero_lt input k (by rw [h]; exact hb)
  rw [drop_eq_getD_cons input k hlt] at h
  simp only [List.headD_cons] at h
  rw [List.getD_eq_getElem?_getD, List.getElem?_eq_getElem hlt] at h
  rw [List.getElem?_eq_getElem hlt]
  simpa using h

/-- What `parseDeclaration` does from offset `k`, with the offsets of a returned
node: the property starts at `a`, the colon stands at `c`, the value starts at
`v` after whitespace only, and the value scan stops at `b`, on a NUL, a `;`, a
`}` or the end of input. -/
theorem parseDeclaration_shape (input : List Nat) (fuel : Nat) (hf : input.length < fuel)
    (k : Nat) (hk : k ≤ input.length) :
    ∃ d k', k ≤ k' ∧ k' ≤ input.length ∧
      (cursor input k).parseDeclaration fuel = .ok (d, cursor input k') ∧
      ∀ n, d = some n → ∃ a c v b, k ≤ a ∧ a ≤ c ∧ c < v ∧ v ≤ b ∧ b ≤ k' ∧
        input[c]? = some 58 ∧
        (∀ j, c < j → j < v → isWS ((input.drop j).headD 0) = true) ∧
        ((input.drop b).headD 0 = 0 ∨ (input.drop b).headD 0 = 59 ∨
          (input.drop b).headD 0 = 125) ∧
        n.Property = TrimSpace ((input.take c).drop a) ∧
        n.Value = TrimSpace ((input.take b).drop v) ∧
        n.Position = { Start := posOf input k, End := posOf input k' } := by
  unfold Parser.parseDeclaration
  obtain ⟨k1, a1, b1, e1⟩ := skipWhitespace_lands input fuel k hk (by omega)
  obtain ⟨k2, a2, b2, e2⟩ := consumeIf_lands 42 input k1 b1
  obtain ⟨k3, a3, b3, e3⟩ := loop_lands input _ (propBody_lands input fuel hf) fuel k2 b2 (by omega)
  rw [e1]; simp only [ok_bind]; rw [e2]; simp only [ok_bind]; rw [e3]; simp only [ok_bind]
  rw [peek_cursor]; simp only [ok_bind]
  split_ifs with hc
  · exact ⟨none, k3, by omega, b3, rfl, by simp⟩
  · simp only [ne_eq, not_not] at hc
    have hcol : input[k3]? = some 58 := getElem?_of_headD_drop hc (by decide)
    have hlt : k3 < input.length := peek_ne_zero_lt input k3 (by rw [hc]; decide)
    obtain ⟨b, k4, a4, b4, c4, e4⟩ := consume_lands input k3 b3
    have hk4 : k4 = k3 + 1 := c4 hlt
    obtain ⟨k5, a5, b5, w5, r5, e5⟩ := skipWhitespace_stops input fuel k4 b4 (by omega)
    obtain ⟨k6, a6, b6, s6, e6⟩ := value_stops input fuel hf k5 b5
    obtain ⟨k7, a7, b7, e7⟩ := skipWhitespace_lands input fuel k6 b6 (by omega)
    obtain ⟨k8, a8, b8, e8⟩ := consumeIf_lands 59 input k7 b7
    have s1 : slice (cursor input k3).input (cursor input k2).pos (cursor input k3).pos
        = .ok ((input.take k3).drop k2) := slice_cursor input k2 k3 a3 b3
    have s2 : slice (cursor input k6).input (cursor input k5).pos (cursor input k6).pos
        = .ok ((input.take k6).drop k5) := slice_cursor input k5 k6 a6 b6
    rw [s1]; simp only [ok_bind]; rw [e4]; simp only [ok_bind]; rw [e5]; simp only [ok_bind]
    rw [e6]; simp only [ok_bind]; rw [s2]; simp only [ok_bind]; rw [e7]; simp only [ok_bind]
    rw [e8]; simp only [ok_bind]
    refine ⟨_, k8, by omega, b8, rfl, ?_⟩
    intro n hn
    simp only [pure_eq_ok, Option.some.injEq] at hn
    subst hn
    refine ⟨k2, k3, k5, k6, by omega, a3, by omega, a6, by omega, hcol, ?_, s6, rfl, rfl, rfl⟩
    intro j hj1 hj2
    exact r5 j (by omega) hj2

/-! ## Facts about every returned node -/

theorem parseDeclaration_some (input : List Nat) (fuel : Nat) (hf : input.length < fuel)
    (k k' : Nat) (hk : k ≤ input.length) (n : Node)
    (h : (cursor input k).parseDeclaration fuel = .ok (some n, cursor input k')) :
    ∃ a c v b, k ≤ a ∧ a ≤ c ∧ c < v ∧ v ≤ b ∧ b ≤ k' ∧ k' ≤ input.length ∧
      input[c]? = some 58 ∧
      (∀ j, c < j → j < v → isWS ((input.drop j).headD 0) = true) ∧
      ((input.drop b).headD 0 = 0 ∨ (input.drop b).headD 0 = 59 ∨
        (input.drop b).headD 0 = 125) ∧
      n.Property = TrimSpace ((input.take c).drop a) ∧
      n.Value = TrimSpace ((input.take b).drop v) ∧
      n.Position = { Start := posOf input k, End := posOf input k' } := by
  obtain ⟨d, k2, _, b2, e2, f2⟩ := parseDeclaration_shape input fuel hf k hk
  rw [e2] at h
  simp only [Except.ok.injEq, Prod.mk.injEq] at h
  obtain ⟨h1, h2⟩ := h
  have := cursor_inj h2
  subst this
  obtain ⟨a, c, v, b, g1, g2, g3, g4, g5, g6, g7, g8, g9, g10, g11⟩ := f2 n h1
  exact ⟨a, c, v, b, g1, g2, g3, g4, g5, b2, g6, g7, g8, g9, g10, g11⟩

theorem count_take_colon (input : List Nat) (k c k' : Nat) (h1 : k ≤ c) (h2 : c < k')
    (hc : input[c]? = some 58) :
    (input.take k).count 58 + 1 ≤ (input.take k').count 58 := by
  have hlt : c < input.length := by
    by_contra hn
    rw [List.getElem?_eq_none (by omega)] at hc
    exact absurd hc (by simp)
  have e : input.take (c + 1) = input.take c ++ [58] := by
    rw [List.take_succ, hc]; rfl
  have s1 := (List.take_sublist_take_left input h1).count_le 58
  have s2 := (List.take_sublist_take_left input (show c + 1 ≤ k' by omega)).count_le 58
  rw [e, List.count_append] at s2
  simp only [List.count_singleton_self] at s2
  omega

/-- C20. For every input, the number of nodes returned by `Parse` is at most
the number of `:` bytes in the input: each returned node has consumed its own
colon, at an offset beyond the previous node's; in particular an input with no
`:` byte yields no nodes. -/
theorem C20_nodes_le_colons (style : List Nat) :
    ∃ nodes, Parse style = .ok (nodes, none) ∧ nodes.length ≤ style.count 58 ∧
      (58 ∉ style → nodes = []) := by
  obtain ⟨nodes, h1, h2⟩ := ParseFuel_induction style (style.length + 1) (by omega)
    (fun k out => out.length ≤ (style.take k).count 58)
    (by simp)
    (by
      intro k k' out h1 _ h3
      exact le_trans h3 ((List.take_sublist_take_left style h1).count_le 58))
    (by
      intro k k' out n h1 h2 _ h4 h5
      obtain ⟨a, c, v, b, g1, g2, g3, g4, g5, _, g7, _⟩ :=
        parseDeclaration_some style (style.length + 1) (by omega) k k' (by omega) n h4
      have := count_take_colon style k c k' (by omega) (by omega) g7
      simp only [List.length_append, List.length_singleton]
      omega)
  simp only [List.take_length] at h2
  refine ⟨nodes, h1, h2, ?_⟩
  intro hno
  rw [List.count_eq_zero_of_not_mem hno] at h2
  exact List.length_eq_zero.1 (by omega)

/-- C11. For every input and every node returned by `Parse`, the node's `Start`
is the position of a non-whitespace byte: there is an offset `s < len(input)`
with `input[s]` none of space, tab, CR, LF such that `Start` is the
(line, column) of offset `s`; the node was returned by `parseDeclaration` called
at `s`, where the reader's own leading `skipWhitespace` consumes nothing. -/
theorem C11_start_at_nonspace (style : List Nat) :
    ∃ nodes, Parse style = .ok (nodes, none) ∧
      ∀ n ∈ nodes, ∃ s b, style[s]? = some b ∧ isWS b = false ∧
        n.Position.Start = posOf style s ∧
        (cursor style s).skipWhitespace (style.length + 1) = .ok (cursor style s) ∧
        ∃ k', (cursor style s).parseDeclaration (style.length + 1) =
          .ok (some n, cursor style k') := by
  obtain ⟨nodes, h1, h2⟩ := ParseFuel_induction style (style.length + 1) (by omega)
    (fun _ out => ∀ n ∈ out, ∃ s b, style[s]? = some b ∧ isWS b = false ∧
        n.Position.Start = posOf style s ∧
        (cursor style s).skipWhitespace (style.length + 1) = .ok (cursor style s) ∧
        ∃ k', (cursor style s).parseDeclaration (style.length + 1) =
          .ok (some n, cursor style k'))
    (by intro n hn; simp at hn)
    (by intro k k' out _ _ h; exact h)
    (by
      intro k k' out n h1 h2 h3 h4 h5 m hm
      rcases List.mem_append.1 hm with hm | hm
      · exact h5 m hm
      · simp only [List.mem_singleton] at hm
        subst hm
        have hlt : k < style.length := by omega
        obtain ⟨_, _, hpos⟩ :=
          parseDeclaration_node style (style.length + 1) (by omega) k k' (by omega) m h4
        have hd := drop_eq_getD_cons style k hlt
        have hb : style[k]? = some (style.getD k 0) := by
          rw [List.getD_eq_getElem?_getD, List.getElem?_eq_getElem hlt]; rfl
        have hws : isWS (style.getD k 0) = false := by
          rw [hd] at h3; exact h3
        refine ⟨k, style.getD k 0, hb, hws, by rw [hpos], ?_, k', h4⟩
        have := skipWhitespace_exact style [] (style.drop k) k (style.length + 1)
          (by simp) (by simp) h3 (by omega) (by omega)
        simpa using this)
  exact ⟨nodes, h1, h2⟩

theorem ws_between (input : List Nat) (hi : Nat) (hhi : hi ≤ input.length) :
    ∀ (d lo : Nat), hi - lo = d →
      (∀ j, lo ≤ j → j < hi → isWS ((input.drop j).headD 0) = true) →
      ∀ x ∈ (input.take hi).drop lo, isWS x = true := by
  intro d
  induction d with
  | zero =>
    intro lo hd _ x hx
    have : (input.take hi).drop lo = [] :=
      List.drop_eq_nil_of_le (by rw [List.length_take]; omega)
    rw [this] at hx; simp at hx
  | succ d ih =>
    intro lo hd h x hx
    have hlt : lo < (input.take hi).length := by rw [List.length_take]; omega
    rw [drop_eq_getD_cons _ lo hlt] at hx
    rcases List.mem_cons.1 hx with rfl | hx
    · have := h lo (le_refl _) (by omega)
      rw [drop_eq_getD_cons input lo (by omega)] at this
      simp only [List.headD_cons] at this
      have e : (input.take hi).getD lo 0 = input.getD lo 0 := by
        rw [List.getD_eq_getElem?_getD, List.getD_eq_getElem?_getD,
          List.getElem?_take_of_lt (by omega)]
      rw [e]; exact this
    · exact ih (lo + 1) (by omega) (fun j hj1 hj2 => h j (by omega) hj2) x hx

theorem take_drop_split (input : List Nat) (lo mid hi : Nat) (h1 : lo ≤ mid) (h2 : mid ≤ hi)
    (h3 : hi ≤ input.length) :
    (input.take hi).drop lo = (input.take mid).drop lo ++ (input.take hi).drop mid := by
  have e : input.take hi = input.take mid ++ (input.take hi).drop mid := by
    conv_lhs => rw [← List.take_append_drop mid (input.take hi)]
    rw [List.take_take, Nat.min_eq_left h2]
  conv_lhs => rw [e]
  rw [List.drop_append_of_le_length (by rw [List.length_take]; omega)]

theorem AroundColon_of_parseDeclaration (input : List Nat) (fuel : Nat)
    (hf : input.length < fuel) (k k' : Nat) (hk : k ≤ input.length) (n : Node)
    (h : (cursor input k).parseDeclaration fuel = .ok (some n, cursor input k')) :
    AroundColon [59, 125, 0] input n := by
  obtain ⟨a, c, v, b, g1, g2, g3, g4, g5, g6, g7, g8, g9, g10, g11, _⟩ :=
    parseDeclaration_some input fuel hf k k' hk n h
  refine ⟨a, c, b, g2, by omega, by omega, g7, g10, ?_, ?_⟩
  · rw [g11, take_drop_split input (c + 1) v b (by omega) g4 (by omega)]
    rw [TrimSpace_ws_append _ _ (ws_between input v (by omega) _ (c + 1) rfl
      (fun j hj1 hj2 => g8 j (by omega) hj2))]
  · by_cases hb : b = input.length
    · exact Or.inl hb
    · right
      have hlt : b < input.length := by omega
      have hd := drop_eq_getD_cons input b hlt
      have hb' : input[b]? = some (input.getD b 0) := by
        rw [List.getD_eq_getElem?_getD, List.getElem?_eq_getElem hlt]; rfl
      rw [hd] at g9
      simp only [List.headD_cons] at g9
      refine ⟨input.getD b 0, ?_, hb'⟩
      rcases g9 with g | g | g <;> rw [g] <;> simp

/-- C12 (amended). For every input and every node returned by `Parse` there are
offsets `a ≤ c < b ≤ len(input)` such that `input[c]` is `:`, `Property` is
`input[a:c]` trimmed by `TrimSpace`, `Value` is `input[c+1:b]` trimmed by
`TrimSpace`, and `b` is the offset where the value scan stopped: a `;`, a `}`,
a zero byte, or the end of input. -/
theorem C12_around_colon (style : List Nat) :
    ∃ nodes, Parse style = .ok (nodes, none) ∧
      ∀ n ∈ nodes, AroundColon [59, 125, 0] style n := by
  obtain ⟨nodes, h1, h2⟩ := ParseFuel_induction style (style.length + 1) (by omega)
    (fun _ out => ∀ n ∈ out, AroundColon [59, 125, 0] style n)
    (by intro n hn; simp at hn)
    (by intro k k' out _ _ h; exact h)
    (by
      intro k k' out n h1 h2 _ h4 h5 m hm
      rcases List.mem_append.1 hm with hm | hm
      · exact h5 m hm
      · simp only [List.mem_singleton] at hm
        subst hm
        exact AroundColon_of_parseDeclaration style (style.length + 1) (by omega) k k'
          (by omega) m h4)
  exact ⟨nodes, h1, h2⟩

/-- C12 (counterexample). On `a:b` followed by a zero byte the value scan stops
at the zero byte, which is neither a `;`, nor a `}`, nor the end of input: the
node has `Value = b`, and no offsets `a ≤ c < b` with `b` at a `;`, a `}` or the
end of input give this value. -/
theorem C12_counterexample :
    Parse (bytes "a:b" ++ [0]) =
        .ok ([{ Property := bytes "a", Value := bytes "b",
                Position := { Start := ⟨1, 1⟩, End := ⟨1, 4⟩ } }], none) ∧
      ¬ AroundColon [59, 125] (bytes "a:b" ++ [0])
        { Property := bytes "a", Value := bytes "b",
          Position := { Start := ⟨1, 1⟩, End := ⟨1, 4⟩ } } := by
  refine ⟨rfl, ?_⟩
  rintro ⟨a, c, b, _, hcb, hb, hcol, _, hv, hend⟩
  have hb4 : b ≤ 4 := hb
  have hc : c = 1 := by
    have : c < 4 := by omega
    interval_cases c
    · exact absurd hcol (by decide)
    · rfl
    · exact absurd hcol (by decide)
    · exact absurd hcol (by decide)
  subst hc
  have : 1 < b := hcb
  interval_cases b
  · exact absurd hend (by decide)
  · exact absurd hend (by decide)
  · exact absurd hv (by decide)

/-! ## The end position, the bytes that end a value, and non-ASCII bytes -/

/-- C14 (amended). For every well-formed property `p` and value `v`, every run
`w` of space/tab/CR/LF bytes and every terminator `t` among the empty string,
`";"` and `"}"`, `Parse(p ++ ": " ++ v ++ w ++ t)` returns exactly one node
`(p, v)` whose `End` is the position of the offset just after the run `w` (the
value scan passes over `w`, so this is the end of `v` only when `w` is empty),
and just after the `;` when `t` is `";"`. -/
theorem C14_end_position (p v w t : List Nat) (hp : WellFormedProp p)
    (hv : WellFormedVal v) (hw : IsWSRun w) (ht : t = [] ∨ t = [59] ∨ t = [125]) :
    ∃ n, Parse (p ++ [58, 32] ++ v ++ w ++ t) = .ok ([n], none) ∧
      n.Property = p ∧ n.Value = v ∧
      n.Position.End = posOf (p ++ [58, 32] ++ v ++ w ++ t)
        (p.length + 2 + v.length + w.length + (if t = [59] then 1 else 0)) := by
  have hw1 : ∀ b ∈ [32], isWS b = true := by
    intro b hb
    simp only [List.mem_singleton] at hb
    subst hb; rfl
  have hh : isWS (([] ++ (p ++ [58])).headD 0) = false := by
    simpa using (hp.propHead [58]).2
  have hrun : ValRun (v ++ w) := by
    apply ValRun_of_plain
    intro b hb
    rcases List.mem_append.1 hb with hb | hb
    · obtain ⟨h1, h2, h3, h4, h5, h6, h7⟩ := hv.2.1 b hb
      exact ⟨by omega, h3, h4, h5, h6, h7⟩
    · have := (isWS_iff b).1 (hw b hb)
      omega
  have hhead : ∀ rest, isWS ((v ++ w ++ rest).headD 0) = false := by
    intro rest
    rw [List.append_assoc]
    exact hv.valHead _
  have htrim : TrimSpace (v ++ w) = v := by
    obtain ⟨c, d, hc, hd⟩ := exists_head_last hv.1
    have h1 := hv.2.1 c (head_mem hc)
    have h2 := hv.2.1 d (List.mem_of_getLast?_eq_some hd)
    have hc' : c ≠ 32 := fun e => hv.2.2.1 (by rw [hc, e])
    have hd' : d ≠ 32 := fun e => hv.2.2.2 (by rw [hd, e])
    exact TrimSpace_append_ws v w c d hc hd ⟨by omega, h1.2.1⟩ ⟨by omega, h2.2.1⟩ hw
  rcases ht with rfl | rfl | rfl
  · have hok : PieceOk [] (Piece.decl [] p [32] (v ++ w) []) :=
      ⟨Or.inr ⟨rfl, (hp.propHead [58]).1⟩, hh, hp.propRun, hw1, hrun, hhead _,
        Or.inr ⟨rfl, Or.inl rfl⟩⟩
    have := Parse_single _ hok
    have e : (Piece.decl [] p [32] (v ++ w) []).text = p ++ [58, 32] ++ v ++ w ++ [] := by
      simp [Piece.text]
    rw [e] at this
    refine ⟨_, this, hp.propTrim, htrim, ?_⟩
    show posOf _ (0 + (Piece.decl [] p [32] (v ++ w) []).text.length) = _
    congr 1
    simp [Piece.text]
    omega
  · have hok : PieceOk [] (Piece.decl [] p [32] (v ++ w) [59]) :=
      ⟨Or.inr ⟨rfl, (hp.propHead [58]).1⟩, hh, hp.propRun, hw1, hrun, hhead _, Or.inl rfl⟩
    have := Parse_single _ hok
    have e : (Piece.decl [] p [32] (v ++ w) [59]).text = p ++ [58, 32] ++ v ++ w ++ [59] := by
      simp [Piece.text]
    rw [e] at this
    refine ⟨_, this, hp.propTrim, htrim, ?_⟩
    show posOf _ (0 + (Piece.decl [] p [32] (v ++ w) [59]).text.length) = _
    congr 1
    simp [Piece.text]
    omega
  · have hok : ItemsOk [(Piece.decl [] p [32] (v ++ w) [], []), (Piece.junk [] [125], [])] := by
      refine ⟨by simp, ⟨Or.inr ⟨rfl, (hp.propHead [58]).1⟩, hh, hp.propRun, hw1, hrun,
        hhead _, Or.inr ⟨rfl, Or.inr rfl⟩⟩, by simp, ?_, trivial⟩
      exact ⟨Or.inr ⟨rfl, by decide⟩, by decide, by simp,
        PropRun.plain 125 [] (by decide) (by decide) (by decide) (by decide) PropRun.nil,
        Or.inl rfl⟩
    have := Parse_layout [] _ (by simp) hok
    have e : [] ++ render [(Piece.decl [] p [32] (v ++ w) [], []), (Piece.junk [] [125], [])] =
        p ++ [58, 32] ++ v ++ w ++ [125] := by
      simp [render, Piece.text]
    rw [e] at this
    refine ⟨_, this, hp.propTrim, htrim, ?_⟩
    show posOf _ (([] : List Nat).length + (Piece.decl [] p [32] (v ++ w) []).text.length) = _
    congr 1
    simp [Piece.text]
    omega

theorem C14_end_position_witness :
    ∃ n, Parse (bytes "a" ++ [58, 32] ++ bytes "b" ++ [32, 10] ++ [125]) = .ok ([n], none) ∧
      n.Property = bytes "a" ∧ n.Value = bytes "b" ∧
      n.Position.End = posOf (bytes "a" ++ [58, 32] ++ bytes "b" ++ [32, 10] ++ [125])
        ((bytes "a").length + 2 + (bytes "b").length + [32, 10].length +
          (if [125] = [59] then 1 else 0)) :=
  C14_end_position (bytes "a") (bytes "b") [32, 10] [125] (by decide) (by decide) (by decide)
    (Or.inr (Or.inr rfl))

/-- C14 (counterexample). On `a: b ` (the declaration `a: b`, a run of one
space, end of input) the node's `End` is line 1, column 6, the position after
the space, and not the position of the offset just after the last byte of the
value, line 1, column 5. -/
theorem C14_counterexample :
    WellFormedProp (bytes "a") ∧ WellFormedVal (bytes "b") ∧ IsWSRun [32] ∧
      ∃ n, Parse (bytes "a" ++ [58, 32] ++ bytes "b" ++ [32]) = .ok ([n], none) ∧
        n.Position.End = ⟨1, 6⟩ ∧
        n.Position.End ≠ posOf (bytes "a" ++ [58, 32] ++ bytes "b" ++ [32])
          ((bytes "a").length + 2 + (bytes "b").length) :=
  ⟨by decide, by decide, by decide, _, rfl, rfl, by decide⟩

/-- C15 (amended). The things that end a value are `;`, `}`, the zero byte and
the end of input: for every well-formed property `p` and every byte string `v`
that contains none of `;`, `}`, `"`, `'`, `(` and no zero byte,
`Parse(p ++ ":" ++ v ++ ";")` returns exactly one node, with `Property = p` and
`Value` the `TrimSpace` of `v`; and `peek` reports `0` exactly when the cursor
is at the end of the input or stands on a zero byte. -/
theorem C15_value_ends (p v : List Nat) (hp : WellFormedProp p)
    (hv : ∀ b ∈ v, b ≠ 0 ∧ b ≠ 59 ∧ b ≠ 125 ∧ b ≠ 34 ∧ b ≠ 39 ∧ b ≠ 40) :
    (∃ n, Parse (p ++ [58] ++ v ++ [59]) = .ok ([n], none) ∧
      n.Property = p ∧ n.Value = TrimSpace v) ∧
    ∀ q : Parser, q.length = q.input.length →
      (q.peek = .ok 0 ↔ (q.length ≤ q.pos ∨ q.input[q.pos]? = some 0)) := by
  constructor
  · obtain ⟨ws, v', hsplit, hws, hhead⟩ := ws_split v
    have hh : isWS (([] ++ (p ++ [58])).headD 0) = false := by
      simpa using (hp.propHead [58]).2
    have hrun : ValRun v' :=
      ValRun_of_plain v' (fun b hb => hv b (by rw [hsplit]; exact List.mem_append_right _ hb))
    have hnext : isWS ((v' ++ ([59] ++ [])).headD 0) = false := by
      cases v' with
      | nil => decide
      | cons a t => simpa using hhead
    have hok : PieceOk [] (Piece.decl [] p ws v' [59]) :=
      ⟨Or.inr ⟨rfl, (hp.propHead [58]).1⟩, hh, hp.propRun, hws, hrun, hnext, Or.inl rfl⟩
    have := Parse_single _ hok
    have e : (Piece.decl [] p ws v' [59]).text = p ++ [58] ++ v ++ [59] := by
      simp [Piece.text, hsplit]
    rw [e] at this
    refine ⟨_, this, hp.propTrim, ?_⟩
    show TrimSpace v' = TrimSpace v
    rw [hsplit, TrimSpace_ws_append ws v' hws]
  · intro q hq
    unfold Parser.peek
    by_cases hlt : q.pos < q.length
    · rw [if_pos hlt]
      have hlt' : q.pos < q.input.length := by omega
      have hx : (q.input.drop q.pos).headD 0 = q.input[q.pos] := by
        rw [drop_eq_getD_cons _ _ hlt', List.headD_cons, List.getD_eq_getElem?_getD,
          List.getElem?_eq_getElem hlt']
        rfl
      rw [index_eq q.input q.pos hlt', List.getElem?_eq_getElem hlt', hx]
      constructor
      · intro h
        right
        simp only [Except.ok.injEq] at h
        rw [h]
      · rintro (h | h)
        · omega
        · simp only [Option.some.injEq] at h
          rw [h]
    · rw [if_neg hlt]
      constructor
      · intro _; left; omega
      · intro _; rfl

theorem C15_value_ends_witness :
    (∃ n, Parse (bytes "p" ++ [58] ++ bytes " a b " ++ [59]) = .ok ([n], none) ∧
      n.Property = bytes "p" ∧ n.Value = TrimSpace (bytes " a b ")) ∧
    ∀ q : Parser, q.length = q.input.length →
      (q.peek = .ok 0 ↔ (q.length ≤ q.pos ∨ q.input[q.pos]? = some 0)) :=
  C15_value_ends (bytes "p") (bytes " a b ") (by decide) (by decide)

/-- C15 (counterexample). A zero byte ends a value: on `p:a\0b;` the value
`a\0b` has none of `;`, `}`, `"`, `'`, `(`, yet the one node returned has
`Value = a`, not the trimmed `a\0b`; and `peek` on the one-byte input `\0`
reports `0` although the cursor is not at the end of the input. -/
theorem C15_counterexample :
    WellFormedProp (bytes "p") ∧
      (∀ b ∈ [97, 0, 98], b ≠ 59 ∧ b ≠ 125 ∧ b ≠ 34 ∧ b ≠ 39 ∧ b ≠ 40) ∧
      (∃ n, Parse (bytes "p" ++ [58] ++ [97, 0, 98] ++ [59]) = .ok ([n], none) ∧
        n.Value = [97] ∧ n.Value ≠ TrimSpace [97, 0, 98]) ∧
      (NewParser [0]).peek = .ok 0 ∧ (NewParser [0]).pos < (NewParser [0]).length :=
  ⟨by decide, by decide, ⟨_, rfl, rfl, by decide⟩, rfl, by decide⟩

theorem ByteProp.byteRun {p : List Nat} (h : ByteProp p) : PropRun p :=
  PropRun_of_plain p (fun b hb => by
    obtain ⟨h1, h3, h4⟩ := h.2.1 b hb
    refine ⟨by omega, ?_, h3, h4⟩
    rcases h1 with h1 | h1
    · exact isWS_false_of_ge (by omega)
    · exact isWS_false_of_ge h1.1)

theorem ByteVal.byteValRun {v : List Nat} (h : ByteVal v) : ValRun v :=
  ValRun_of_plain v (fun b hb => by
    obtain ⟨h1, h3, h4, h5, h6, h7⟩ := h.2.1 b hb
    exact ⟨by omega, h3, h4, h5, h6, h7⟩)

/-- C16 (amended). For every property `p` and value `v`, both non-empty, made
of bytes `>= 0x80` and printable ASCII bytes (plus interior spaces in `v`) other
than the delimiters, `Parse(p ++ ": " ++ v ++ ";")` returns exactly one node,
with `Property = TrimSpace(p)` and `Value = TrimSpace(v)`, where `TrimSpace`
decodes runes and strips Unicode white space once it meets a byte `>= 0x80`;
`Property = p` byte for byte when the first and last bytes of `p` are ASCII, and
`Value = v` byte for byte when the first and last bytes of `v` are ASCII. -/
theorem C16_non_ascii (p v : List Nat) (hp : ByteProp p) (hv : ByteVal v) :
    ∃ n, Parse (p ++ [58, 32] ++ v ++ [59]) = .ok ([n], none) ∧
      n.Property = TrimSpace p ∧ n.Value = TrimSpace v ∧
      (∀ c d, p.head? = some c → p.getLast? = some d → c < 0x80 → d < 0x80 →
        n.Property = p) ∧
      (∀ c d, v.head? = some c → v.getLast? = some d → c < 0x80 → d < 0x80 →
        n.Value = v) := by
  have hw1 : ∀ b ∈ [32], isWS b = true := by
    intro b hb
    simp only [List.mem_singleton] at hb
    subst hb; rfl
  have hph : (p ++ [58]).headD 0 ≠ 42 ∧ isWS ((p ++ [58]).headD 0) = false := by
    obtain ⟨h0, h1, h2⟩ := hp
    cases p with
    | nil => exact absurd rfl h0
    | cons a t =>
      have ha := (h1 a (by simp)).1
      have h3 : a ≠ 42 := fun e => h2 (by simp [e])
      refine ⟨by simpa using h3, ?_⟩
      simp only [List.cons_append, List.headD_cons]
      rcases ha with ha | ha
      · exact isWS_false_of_ge (by omega)
      · exact isWS_false_of_ge ha.1
  have hvh : isWS ((v ++ ([59] ++ [])).headD 0) = false := by
    obtain ⟨h0, h1, h2, _⟩ := hv
    cases v with
    | nil => exact absurd rfl h0
    | cons a t =>
      have ha := (h1 a (by simp)).1
      have h3 : a ≠ 32 := fun e => h2 (by simp [e])
      simp only [List.cons_append, List.headD_cons]
      rcases ha with ha | ha
      · exact isWS_false_of_ge (by omega)
      · exact isWS_false_of_ge (by omega)
  have hok : PieceOk [] (Piece.decl [] p [32] v [59]) :=
    ⟨Or.inr ⟨rfl, hph.1⟩, by simpa using hph.2, hp.byteRun, hw1, hv.byteValRun, hvh,
      Or.inl rfl⟩
  have := Parse_single _ hok
  have e : (Piece.decl [] p [32] v [59]).text = p ++ [58, 32] ++ v ++ [59] := by
    simp [Piece.text]
  rw [e] at this
  refine ⟨_, this, rfl, rfl, ?_, ?_⟩
  · intro c d hc hd hc1 hd1
    show TrimSpace p = p
    have h1 := (hp.2.1 c (head_mem hc)).1
    have h2 := (hp.2.1 d (List.mem_of_getLast?_eq_some hd)).1
    exact TrimSpace_of_ends p c d hc hd (by omega) (by omega)
  · intro c d hc hd hc1 hd1
    show TrimSpace v = v
    have h1 := (hv.2.1 c (head_mem hc)).1
    have h2 := (hv.2.1 d (List.mem_of_getLast?_eq_some hd)).1
    have hc' : c ≠ 32 := fun e => hv.2.2.1 (by rw [hc, e])
    have hd' : d ≠ 32 := fun e => hv.2.2.2 (by rw [hd, e])
    exact TrimSpace_of_ends v c d hc hd (by omega) (by omega)

theorem C16_non_ascii_witness :
    ∃ n, Parse ([97, 0xC3, 0xA9] ++ [58, 32] ++ [0xE2, 0x82, 0xAC, 32, 49] ++ [59]) =
        .ok ([n], none) ∧
      n.Property = TrimSpace [97, 0xC3, 0xA9] ∧ n.Value = TrimSpace [0xE2, 0x82, 0xAC, 32, 49] ∧
      (∀ c d, [97, 0xC3, 0xA9].head? = some c → [97, 0xC3, 0xA9].getLast? = some d →
        c < 0x80 → d < 0x80 → n.Property = [97, 0xC3, 0xA9]) ∧
      (∀ c d, [0xE2, 0x82, 0xAC, 32, 49].head? = some c →
        [0xE2, 0x82, 0xAC, 32, 49].getLast? = some d → c < 0x80 → d < 0x80 →
        n.Value = [0xE2, 0x82, 0xAC, 32, 49]) :=
  C16_non_ascii [97, 0xC3, 0xA9] [0xE2, 0x82, 0xAC, 32, 49] (by decide) (by decide)

/-- C16 (counterexample). The property `\xC2\xA0a` (the UTF-8 encoding of
U+00A0, then `a`) is made of bytes `>= 0x80` and printable ASCII, yet the node
returned for `\xC2\xA0a: b;` has `Property = a`: the trimming has removed the
two bytes of a Unicode space, which are none of space, tab, CR and LF. -/
theorem C16_counterexample :
    ByteProp [0xC2, 0xA0, 97] ∧ ByteVal [98] ∧
      ∃ n, Parse ([0xC2, 0xA0, 97] ++ [58, 32] ++ [98] ++ [59]) = .ok ([n], none) ∧
        n.Property = [97] ∧ n.Property ≠ [0xC2, 0xA0, 97] :=
  ⟨by decide, by decide, _, rfl, rfl, by decide⟩

/-! ## Recovery: the driver and the reference driver -/

theorem loop_first_eq {σ : Type} {body : σ → Except Fault (Iter σ)} {s s' : σ}
    (h : body s = body s') (n : Nat) : loop body n s = loop body n s' := by
  cases n with
  | zero => rfl
  | succ n => simp only [loop, h]

theorem skipWhitespace_ws_step (input : List Nat) (fuel k : Nat) (hk : k < input.length)
    (hf : input.length < fuel) (hws : isWS ((input.drop k).headD 0) = true) :
    (cursor input k).skipWhitespace fuel = (cursor input (k + 1)).skipWhitespace fuel := by
  obtain ⟨a, a1, a2, a3, a4, ea⟩ := skipWhitespace_stops input fuel k (by omega) (by omega)
  obtain ⟨b, b1, b2, b3, b4, eb⟩ := skipWhitespace_stops input fuel (k + 1) (by omega) (by omega)
  have hak : a ≠ k := by
    intro e; rw [e, hws] at a3; exact absurd a3 (by decide)
  have hab : a = b := by
    rcases Nat.lt_trichotomy a b with h | h | h
    · have := b4 a (by omega) h
      rw [this] at a3; exact absurd a3 (by decide)
    · exact h
    · have := a4 b (by omega) h
      rw [this] at b3; exact absurd b3 (by decide)
  rw [ea, eb, hab]

theorem skipWhitespace_stay (input : List Nat) (fuel k : Nat) (hk : k ≤ input.length)
    (hf : input.length < fuel) (hws : isWS ((input.drop k).headD 0) = false) :
    (cursor input k).skipWhitespace fuel = .ok (cursor input k) := by
  have := skipWhitespace_exact input [] (input.drop k) k fuel (by simp) (by simp) hws hk
    (by omega)
  simpa using this

theorem parseBody_ws_step (input : List Nat) (fuel k : Nat) (hk : k < input.length)
    (hf : input.length < fuel) (hws : isWS ((input.drop k).headD 0) = true)
    (out : List Node) :
    parseBody fuel (cursor input k, out) = parseBody fuel (cursor input (k + 1), out) := by
  obtain ⟨b, b1, b2, b3, b4, eb⟩ := skipWhitespace_stops input fuel (k + 1) (by omega) (by omega)
  have e := skipWhitespace_ws_step input fuel k hk hf hws
  rw [eb] at e
  have hc : (cursor input k, out).1.pos < (cursor input k, out).1.length := hk
  unfold parseBody
  by_cases h1 : k + 1 < input.length
  · have hc1 : (cursor input (k + 1), out).1.pos < (cursor input (k + 1), out).1.length := h1
    rw [if_pos hc, if_pos hc1]
    simp only []
    rw [e, eb]
  · have hb : b = input.length := by omega
    have hk1 : k + 1 = input.length := by omega
    have hc1 : ¬ (cursor input (k + 1), out).1.pos < (cursor input (k + 1), out).1.length := h1
    rw [if_pos hc, if_neg hc1]
    simp only []
    rw [e]; simp only [ok_bind]
    have hc' : (cursor input b).pos ≥ (cursor input b).length := by
      show b ≥ input.length
      omega
    rw [if_pos hc', hb, hk1]

theorem referenceBody_ws_step (input : List Nat) (fuel k : Nat) (hk : k < input.length)
    (hf : input.length < fuel) (hws : isWS ((input.drop k).headD 0) = true)
    (out : List Node) :
    referenceBody fuel (cursor input k, out) = referenceBody fuel (cursor input (k + 1), out) := by
  obtain ⟨b, b1, b2, b3, b4, eb⟩ := skipWhitespace_stops input fuel (k + 1) (by omega) (by omega)
  have e := skipWhitespace_ws_step input fuel k hk hf hws
  rw [eb] at e
  have hc : (cursor input k, out).1.pos < (cursor input k, out).1.length := hk
  unfold referenceBody
  by_cases h1 : k + 1 < input.length
  · have hc1 : (cursor input (k + 1), out).1.pos < (cursor input (k + 1), out).1.length := h1
    rw [if_pos hc, if_pos hc1]
    simp only []
    rw [e, eb]
  · have hb : b = input.length := by omega
    have hk1 : k + 1 = input.length := by omega
    have hc1 : ¬ (cursor input (k + 1), out).1.pos < (cursor input (k + 1), out).1.length := h1
    rw [if_pos hc, if_neg hc1]
    simp only []
    rw [e]; simp only [ok_bind]
    have hc' : (cursor input b).pos ≥ (cursor input b).length := by
      show b ≥ input.length
      omega
    rw [if_pos hc', hb, hk1]

theorem parseBody_end (fuel : Nat) (input : List Nat) (out : List Node) :
    parseBody fuel (cursor input input.length, out) =
      .ok (.done (cursor input input.length, out)) := by
  unfold parseBody
  have hc : ¬ (cursor input input.length, out).1.pos <
      (cursor input input.length, out).1.length := by
    show ¬ input.length < input.length
    omega
  rw [if_neg hc]; rfl

theorem referenceBody_end (fuel : Nat) (input : List Nat) (out : List Node) :
    referenceBody fuel (cursor input input.length, out) =
      .ok (.done (cursor input input.length, out)) := by
  unfold referenceBody
  have hc : ¬ (cursor input input.length, out).1.pos <
      (cursor input input.length, out).1.length := by
    show ¬ input.length < input.length
    omega
  rw [if_neg hc]; rfl

theorem parseBody_some (input : List Nat) (fuel k : Nat) (hk : k < input.length)
    (hf : input.length < fuel) (hws : isWS ((input.drop k).headD 0) = false)
    (out : List Node) (n : Node) (k2 : Nat)
    (h : (cursor input k).parseDeclaration fuel = .ok (some n, cursor input k2)) :
    parseBody fuel (cursor input k, out) = .ok (.next (cursor input k2, out ++ [n])) := by
  have e1 := skipWhitespace_stay input fuel k (by omega) hf hws
  unfold parseBody
  have hc : (cursor input k, out).1.pos < (cursor input k, out).1.length := hk
  rw [if_pos hc]
  simp only []
  rw [e1]; simp only [ok_bind]
  have hc' : ¬ (cursor input k).pos ≥ (cursor input k).length := by
    show ¬ k ≥ input.length
    omega
  rw [if_neg hc', h]; rfl

theorem referenceBody_some (input : List Nat) (fuel k : Nat) (hk : k < input.length)
    (hf : input.length < fuel) (hws : isWS ((input.drop k).headD 0) = false)
    (out : List Node) (n : Node) (k2 : Nat)
    (h : (cursor input k).parseDeclaration fuel = .ok (some n, cursor input k2)) :
    referenceBody fuel (cursor input k, out) = .ok (.next (cursor input k2, out ++ [n])) := by
  have e1 := skipWhitespace_stay input fuel k (by omega) hf hws
  unfold referenceBody
  have hc : (cursor input k, out).1.pos < (cursor input k, out).1.length := hk
  rw [if_pos hc]
  simp only []
  rw [e1]; simp only [ok_bind]
  have hc' : ¬ (cursor input k).pos ≥ (cursor input k).length := by
    show ¬ k ≥ input.length
    omega
  rw [if_neg hc', h]; rfl

/-- After a failed read the driver drops the byte the reader stopped at. -/
theorem parseBody_fail (input : List Nat) (fuel k : Nat) (hk : k < input.length)
    (hf : input.length < fuel) (hws : isWS ((input.drop k).headD 0) = false)
    (out : List Node) (k2 : Nat) (hk2 : k2 ≤ input.length)
    (h : (cursor input k).parseDeclaration fuel = .ok (none, cursor input k2)) :
    parseBody fuel (cursor input k, out) =
      .ok (.next (cursor input (if k2 < input.length then k2 + 1 else k2), out)) := by
  have e1 := skipWhitespace_stay input fuel k (by omega) hf hws
  obtain ⟨b, k3, a3, b3, c3, e3⟩ := consume_lands input k2 hk2
  have hk3 : k3 = if k2 < input.length then k2 + 1 else k2 := by
    split_ifs with h2
    · exact c3 h2
    · omega
  unfold parseBody
  have hc : (cursor input k, out).1.pos < (cursor input k, out).1.length := hk
  rw [if_pos hc]
  simp only []
  rw [e1]; simp only [ok_bind]
  have hc' : ¬ (cursor input k).pos ≥ (cursor input k).length := by
    show ¬ k ≥ input.length
    omega
  rw [if_neg hc', h]; simp only [ok_bind]
  rw [e3, hk3]; rfl

/-- After a failed read the reference driver drops the byte the read started
at. -/
theorem referenceBody_fail (input : List Nat) (fuel k : Nat) (hk : k < input.length)
    (hf : input.length < fuel) (hws : isWS ((input.drop k).headD 0) = false)
    (out : List Node) (k2 : Nat)
    (h : (cursor input k).parseDeclaration fuel = .ok (none, cursor input k2)) :
    referenceBody fuel (cursor input k, out) = .ok (.next (cursor input (k + 1), out)) := by
  have e1 := skipWhitespace_stay input fuel k (by omega) hf hws
  have e3 := consume_cursor input k _ _ (drop_eq_getD_cons input k hk)
  unfold referenceBody
  have hc : (cursor input k, out).1.pos < (cursor input k, out).1.length := hk
  rw [if_pos hc]
  simp only []
  rw [e1]; simp only [ok_bind]
  have hc' : ¬ (cursor input k).pos ≥ (cursor input k).length := by
    show ¬ k ≥ input.length
    omega
  rw [if_neg hc', h]; simp only [ok_bind]
  rw [e3]; rfl

/-- A failed read stopped where the property loop stopped, at a byte other
than `:`. -/
theorem parseDeclaration_none (input : List Nat) (fuel : Nat) (hf : input.length < fuel)
    (k : Nat) (hk : k ≤ input.length) (k' : Nat)
    (h : (cursor input k).parseDeclaration fuel = .ok (none, cursor input k')) :
    (input.drop k').headD 0 ≠ 58 ∧
    ∃ k1 k2, (cursor input k).skipWhitespace fuel = .ok (cursor input k1) ∧
      consumeIf 42 (cursor input k1) = .ok (cursor input k2) ∧
      loop (propBody fuel) fuel (cursor input k2) = .ok (cursor input k') := by
  unfold Parser.parseDeclaration at h
  obtain ⟨k1, a1, b1, e1⟩ := skipWhitespace_lands input fuel k hk (by omega)
  obtain ⟨k2, a2, b2, e2⟩ := consumeIf_lands 42 input k1 b1
  obtain ⟨k3, a3, b3, e3⟩ := loop_lands input _ (propBody_lands input fuel hf) fuel k2 b2 (by omega)
  rw [e1] at h; simp only [ok_bind] at h
  rw [e2] at h; simp only [ok_bind] at h
  rw [e3] at h; simp only [ok_bind] at h
  rw [peek_cursor] at h; simp only [ok_bind] at h
  split_ifs at h with hc
  · simp only [pure_eq_ok, Except.ok.injEq, Prod.mk.injEq, true_and] at h
    have := cursor_inj h
    subst this
    exact ⟨hc, k1, k2, e1, e2, e3⟩
  · exfalso
    obtain ⟨b, k4, a4, b4, c4, e4⟩ := consume_lands input k3 b3
    obtain ⟨k5, a5, b5, e5⟩ := skipWhitespace_lands input fuel k4 b4 (by omega)
    obtain ⟨k6, a6, b6, e6⟩ := loop_lands input _ (valueBody_lands input fuel hf) fuel k5 b5 (by omega)
    obtain ⟨k7, a7, b7, e7⟩ := skipWhitespace_lands input fuel k6 b6 (by omega)
    obtain ⟨k8, a8, b8, e8⟩ := consumeIf_lands 59 input k7 b7
    have s1 : slice (cursor input k3).input (cursor input k2).pos (cursor input k3).pos
        = .ok ((input.take k3).drop k2) := slice_cursor input k2 k3 a3 b3
    have s2 : slice (cursor input k6).input (cursor input k5).pos (cursor input k6).pos
        = .ok ((input.take k6).drop k5) := slice_cursor input k5 k6 a6 b6
    rw [s1] at h; simp only [ok_bind] at h
    rw [e4] at h; simp only [ok_bind] at h
    rw [e5] at h; simp only [ok_bind] at h
    rw [e6] at h; simp only [ok_bind] at h
    rw [s2] at h; simp only [ok_bind] at h
    rw [e7] at h; simp only [ok_bind] at h
    rw [e8] at h; simp only [ok_bind] at h
    simp at h

/-- Without `[`, every list splits into its leading bytes the property loop
passes over and a rest that starts with a byte at which the loop stops. -/
theorem plain_split (l : List Nat) (hno : 91 ∉ l) :
    ∃ g tail, l = g ++ tail ∧ (∀ b ∈ g, b ≠ 0 ∧ isWS b = false ∧ b ≠ 58 ∧ b ≠ 91) ∧
      (tail.headD 0 = 0 ∨ isWS (tail.headD 0) = true ∨ tail.headD 0 = 58) := by
  induction l with
  | nil => exact ⟨[], [], rfl, by simp, Or.inl rfl⟩
  | cons b l ih =>
    have hb91 : b ≠ 91 := fun e => hno (by simp [e])
    have hl : 91 ∉ l := fun e => hno (by simp [e])
    by_cases h0 : b = 0
    · exact ⟨[], b :: l, rfl, by simp, Or.inl h0⟩
    by_cases hw : isWS b = true
    · exact ⟨[], b :: l, rfl, by simp, Or.inr (Or.inl hw)⟩
    by_cases hc : b = 58
    · exact ⟨[], b :: l, rfl, by simp, Or.inr (Or.inr hc)⟩
    obtain ⟨g, tail, h1, h2, h3⟩ := ih hl
    refine ⟨b :: g, tail, by simp [h1], ?_, h3⟩
    intro x hx
    rcases List.mem_cons.1 hx with rfl | hx
    · exact ⟨h0, by simpa using hw, hc, hb91⟩
    · exact h2 x hx

/-- The reader on a token of bytes the property loop passes over: after the
optional `*` the loop stops at the end of the token. -/
theorem token_scan (input : List Nat) (fuel : Nat) (hf : input.length < fuel)
    (m : Nat) (hm : m ≤ input.length) (g tail : List Nat)
    (hd : input.drop m = g ++ tail)
    (hg : ∀ b ∈ g, b ≠ 0 ∧ isWS b = false ∧ b ≠ 58 ∧ b ≠ 91)
    (ht : tail.headD 0 = 0 ∨ isWS (tail.headD 0) = true ∨ tail.headD 0 = 58) :
    ∃ a, consumeIf 42 (cursor input m) = .ok (cursor input a) ∧
      loop (propBody fuel) fuel (cursor input a) = .ok (cursor input (m + g.length)) := by
  have hlen := le_of_drop_append hd hm
  cases g with
  | nil =>
    refine ⟨m, consumeIf_miss input 42 m ?_, ?_⟩
    · rw [hd]
      simp only [List.nil_append]
      rcases ht with h | h | h
      · rw [h]; decide
      · intro e; rw [e] at h; exact absurd h (by decide)
      · rw [h]; decide
    · exact prop_exact input fuel hf [] tail PropRun.nil m fuel _ hd ht hm (by omega) rfl
  | cons b g =>
    by_cases hb : b = 42
    · subst hb
      have hd1 : input.drop (m + 1) = g ++ tail := drop_succ_of_cons hd
      have hlt := lt_of_drop_cons hd
      refine ⟨m + 1, consumeIf_hit input 42 m _ hd, ?_⟩
      exact prop_exact input fuel hf g tail
        (PropRun_of_plain g (fun x hx => hg x (by simp [hx]))) (m + 1) fuel _ hd1 ht
        (by omega) (by omega) (by simp only [List.length_cons]; omega)
    · refine ⟨m, consumeIf_miss input 42 m ?_, ?_⟩
      · rw [hd]; simpa using hb
      · exact prop_exact input fuel hf (b :: g) tail (PropRun_of_plain _ hg) m fuel _ hd ht hm
          (by omega) rfl

/-- The reader on a token of bytes the property loop passes over, followed by
whitespace, NUL or the end of input: it returns no node and leaves the cursor
after the token. -/
theorem token_fail (input : List Nat) (fuel : Nat) (hf : input.length < fuel)
    (m : Nat) (hm : m ≤ input.length) (g tail : List Nat)
    (hd : input.drop m = g ++ tail)
    (hhead : isWS ((input.drop m).headD 0) = false)
    (hg : ∀ b ∈ g, b ≠ 0 ∧ isWS b = false ∧ b ≠ 58 ∧ b ≠ 91)
    (ht : tail.headD 0 = 0 ∨ isWS (tail.headD 0) = true) :
    (cursor input m).parseDeclaration fuel = .ok (none, cursor input (m + g.length)) := by
  obtain ⟨a, e2, e3⟩ := token_scan input fuel hf m hm g tail hd hg (by
    rcases ht with h | h
    · exact Or.inl h
    · exact Or.inr (Or.inl h))
  have e1 := skipWhitespace_stay input fuel m hm hf hhead
  have d2 : input.drop (m + g.length) = tail := drop_of_append hd
  unfold Parser.parseDeclaration
  rw [e1]; simp only [ok_bind]; rw [e2]; simp only [ok_bind]; rw [e3]; simp only [ok_bind]
  rw [peek_cursor, d2]; simp only [ok_bind]
  have hne : tail.headD 0 ≠ 58 := by
    rcases ht with h | h
    · rw [h]; decide
    · intro hc; rw [hc] at h; exact absurd h (by decide)
  rw [if_pos hne]; rfl

/-- On a token of bytes the property loop passes over, followed by whitespace,
NUL or the end of input, the reference driver drops the bytes of the token one
by one. -/
theorem reference_chain (input : List Nat) (F : Nat) (hF : input.length < F) :
    ∀ (g tail : List Nat) (m fuel : Nat) (out : List Node),
      input.drop m = g ++ tail →
      (∀ b ∈ g, b ≠ 0 ∧ isWS b = false ∧ b ≠ 58 ∧ b ≠ 91) →
      (tail.headD 0 = 0 ∨ isWS (tail.headD 0) = true) →
      m ≤ input.length → g.length ≤ fuel →
      loop (referenceBody F) fuel (cursor input m, out) =
        loop (referenceBody F) (fuel - g.length) (cursor input (m + g.length), out) := by
  intro g
  induction g with
  | nil =>
    intro tail m fuel out _ _ _ _ _
    rfl
  | cons b g ih =>
    intro tail m fuel out hd hg ht hm hfuel
    simp only [List.length_cons] at hfuel
    obtain ⟨n, rfl⟩ : ∃ n, fuel = n + 1 := ⟨fuel - 1, by omega⟩
    have hlt : m < input.length := lt_of_drop_cons hd
    have hws : isWS ((input.drop m).headD 0) = false := by
      rw [hd]; exact (hg b (by simp)).2.1
    have hfail := token_fail input F hF m hm (b :: g) tail hd hws hg ht
    have hstep := referenceBody_fail input F m hlt hF hws out _ hfail
    rw [loop_next n hstep]
    have := ih tail (m + 1) n out (drop_succ_of_cons hd) (fun x hx => hg x (by simp [hx])) ht
      (by omega) (by omega)
    rw [this]
    have e1 : n - g.length = n + 1 - (b :: g).length := by
      simp only [List.length_cons]; omega
    have e2 : m + 1 + g.length = m + (b :: g).length := by
      simp only [List.length_cons]; omega
    rw [e1, e2]

/-- On an input without `[`, the driver and the reference driver, started at
the same offset with the same nodes, return the same nodes. -/
theorem drivers_agree (input : List Nat) (hno : 91 ∉ input) (F : Nat)
    (hF : input.length < F) :
    ∀ (d k : Nat), input.length - k ≤ d → k ≤ input.length →
      ∀ (f1 f2 : Nat) (out : List Node), input.length - k < f1 → input.length - k < f2 →
        ∃ p1 p2 nodes, loop (parseBody F) f1 (cursor input k, out) = .ok (p1, nodes) ∧
          loop (referenceBody F) f2 (cursor input k, out) = .ok (p2, nodes) := by
  have hend : ∀ (f1 f2 : Nat) (out : List Node), 0 < f1 → 0 < f2 →
      ∃ p1 p2 nodes,
        loop (parseBody F) f1 (cursor input input.length, out) = .ok (p1, nodes) ∧
        loop (referenceBody F) f2 (cursor input input.length, out) = .ok (p2, nodes) := by
    intro f1 f2 out h1 h2
    obtain ⟨n1, rfl⟩ : ∃ n, f1 = n + 1 := ⟨f1 - 1, by omega⟩
    obtain ⟨n2, rfl⟩ : ∃ n, f2 = n + 1 := ⟨f2 - 1, by omega⟩
    exact ⟨_, _, out, loop_done n1 (parseBody_end F input out),
      loop_done n2 (referenceBody_end F input out)⟩
  intro d
  induction d with
  | zero =>
    intro k hd hk f1 f2 out h1 h2
    have : k = input.length := by omega
    subst this
    exact hend f1 f2 out (by omega) (by omega)
  | succ d ih =>
    intro k hd hk f1 f2 out h1 h2
    by_cases hlt : k < input.length
    swap
    · have : k = input.length := by omega
      subst this
      exact hend f1 f2 out (by omega) (by omega)
    by_cases hws : isWS ((input.drop k).headD 0) = true
    · rw [loop_first_eq (parseBody_ws_step input F k hlt hF hws out) f1,
        loop_first_eq (referenceBody_ws_step input F k hlt hF hws out) f2]
      exact ih (k + 1) (by omega) (by omega) f1 f2 out (by omega) (by omega)
    have hws' : isWS ((input.drop k).headD 0) = false := by simpa using hws
    obtain ⟨n1, rfl⟩ : ∃ n, f1 = n + 1 := ⟨f1 - 1, by omega⟩
    obtain ⟨n2, rfl⟩ : ∃ n, f2 = n + 1 := ⟨f2 - 1, by omega⟩
    have hnod : 91 ∉ input.drop k := fun h => hno (List.mem_of_mem_drop h)
    obtain ⟨g, tail, hsplit, hg, ht⟩ := plain_split (input.drop k) hnod
    have hk2 : k + g.length ≤ input.length := le_of_drop_append hsplit hk
    have hd2 : input.drop (k + g.length) = tail := drop_of_append hsplit
    rcases ht with ht | ht | ht
    rotate_left 2
    · -- the token ends at a colon: the read returns a node
      obtain ⟨r, k2, a2, b2, e2, f2'⟩ := parseDeclaration_lands input F hF k hk
      cases r with
      | none =>
        exfalso
        obtain ⟨hne, k1, k2', c1, c2, c3⟩ := parseDeclaration_none input F hF k hk k2 e2
        obtain ⟨a, s2, s3⟩ := token_scan input F hF k hk g tail hsplit hg (Or.inr (Or.inr ht))
        rw [skipWhitespace_stay input F k hk hF hws'] at c1
        simp only [Except.ok.injEq] at c1
        have := cursor_inj c1
        subst this
        rw [s2] at c2
        simp only [Except.ok.injEq] at c2
        have := cursor_inj c2
        subst this
        rw [s3] at c3
        simp only [Except.ok.injEq] at c3
        have := cursor_inj c3
        subst this
        rw [hd2] at hne
        exact hne ht
      | some n =>
        obtain ⟨hlt2, _⟩ := f2' n rfl
        rw [loop_next n1 (parseBody_some input F k hlt hF hws' out n k2 e2),
          loop_next n2 (referenceBody_some input F k hlt hF hws' out n k2 e2)]
        exact ih k2 (by omega) b2 n1 n2 _ (by omega) (by omega)
    all_goals
      have ht' : tail.headD 0 = 0 ∨ isWS (tail.headD 0) = true := by
        first
          | exact Or.inl ht
          | exact Or.inr ht
      have hfail := token_fail input F hF k hk g tail hsplit hws' hg ht'
      rw [loop_next n1 (parseBody_fail input F k hlt hF hws' out _ hk2 hfail),
        loop_next n2 (referenceBody_fail input F k hlt hF hws' out _ hfail)]
      cases g with
      | nil =>
        simp only [List.length_nil, Nat.add_zero]
        rw [if_pos hlt]
        exact ih (k + 1) (by omega) (by omega) n1 n2 out (by omega) (by omega)
      | cons b g =>
        simp only [List.length_cons] at hk2 hd2 ⊢
        have hchain := reference_chain input F hF g tail (k + 1) n2 out
          (drop_succ_of_cons hsplit) (fun x hx => hg x (by simp [hx])) ht' (by omega)
          (by omega)
        rw [hchain]
        have hpos : k + 1 + g.length = k + (g.length + 1) := by omega
        rw [hpos]
        cases tail with
        | nil =>
          have hlen : k + (g.length + 1) = input.length := by
            have := congrArg List.length hd2
            simp only [List.length_drop, List.length_nil] at this
            omega
          rw [if_neg (by omega)]
          exact ih (k + (g.length + 1)) (by omega) (by omega) n1 _ out (by omega) (by omega)
        | cons t rest =>
          have hlt3 : k + (g.length + 1) < input.length := lt_of_drop_cons hd2
          rw [if_pos hlt3]
          simp only [List.headD_cons] at ht'
          by_cases htw : isWS t = true
          · rw [loop_first_eq (referenceBody_ws_step input F _ hlt3 hF
              (by rw [hd2]; exact htw) out) _]
            exact ih (k + (g.length + 1) + 1) (by omega) (by omega) n1 _ out (by omega)
              (by omega)
          · have ht0 : t = 0 := by
              rcases ht' with h | h
              · exact h
              · exact absurd h htw
            have hw3 : isWS ((input.drop (k + (g.length + 1))).headD 0) = false := by
              rw [hd2, ht0]; rfl
            have hf3 := token_fail input F hF (k + (g.length + 1)) (by omega) [] (t :: rest)
              (by rw [hd2]; rfl) hw3 (by simp) (Or.inl ht0)
            obtain ⟨n3, hn3⟩ : ∃ n, n2 - g.length = n + 1 := ⟨n2 - g.length - 1, by omega⟩
            rw [hn3, loop_next n3 (referenceBody_fail input F _ hlt3 hF hw3 out _ hf3)]
            exact ih (k + (g.length + 1) + 1) (by omega) (by omega) n1 n3 out (by omega)
              (by omega)

/-- C17 (amended). Recovery on inputs without `[`: for every input that holds
no `[` byte, `Parse` returns the same nodes, hence the same sequence of
(Property, Value) pairs, as the reference driver that resumes at offset `k + 1`
whenever a declaration read started at offset `k` fails.  (A failed read leaves
the cursor where the property scan stopped, and the driver drops one byte from
there; without bracket groups every offset passed over starts a read that
fails as well.) -/
theorem C17_recovery_without_brackets (style : List Nat) (h : 91 ∉ style) :
    ∃ nodes, Parse style = .ok (nodes, none) ∧ Reference style = .ok (nodes, none) := by
  obtain ⟨p1, p2, nodes, e1, e2⟩ := drivers_agree style h (style.length + 1) (by omega)
    style.length 0 (by omega) (by omega) (style.length + 1) (style.length + 1) []
    (by omega) (by omega)
  refine ⟨nodes, ?_, ?_⟩
  · unfold Parse ParseFuel
    rw [NewParser_eq]
    simp only []
    rw [e1]; rfl
  · unfold Reference ReferenceFuel
    rw [NewParser_eq]
    simp only []
    rw [e2]; rfl

theorem C17_recovery_without_brackets_witness :
    ∃ nodes, Parse (bytes "x *y\n*z: 1; q a:b") = .ok (nodes, none) ∧
      Reference (bytes "x *y\n*z: 1; q a:b") = .ok (nodes, none) :=
  C17_recovery_without_brackets (bytes "x *y\n*z: 1; q a:b") (by decide)

/-- C17 (counterexample). On `[a:b;` the read started at offset 0 fails with
the cursor at the end of the input (the unclosed bracket group has swallowed
everything), so `Parse` returns no node; the reference driver resumes at offset
1 and returns the declaration `a:b`. -/
theorem C17_counterexample :
    ∃ n1 n2, Parse (bytes "[a:b;") = .ok (n1, none) ∧
      Reference (bytes "[a:b;") = .ok (n2, none) ∧
      pairs n1 = [] ∧ pairs n2 = [(bytes "a", bytes "b")] ∧ pairs n1 ≠ pairs n2 :=
  ⟨_, _, rfl, rfl, rfl, rfl, by decide⟩

end cssparser
